import Mathlib

/-!
Verification of the vmad3 tape-based automatic-differentiation engine
(abopt repository): a shallow embedding of `symbol.py`, `primitive.py`,
`operator.py`, `model.py`, `core/context.py`, `lib/linalg.py` and
`autodiff.py`, with theorems about graph construction, execution,
tape recording and the reverse/forward differentiation transforms.

Runtime values are modelled as exact rationals (scalars) and lists of
rationals (one-dimensional arrays) with numpy-style broadcasting for the
elementwise arithmetic the embedded operators use.
-/

/-- Decidable equality for `Except`, used to settle concrete runs of the
embedded engine by `decide`. -/
instance {ε α : Type _} [DecidableEq ε] [DecidableEq α] :
    DecidableEq (Except ε α) := fun a b =>
  match a, b with
  | .ok x, .ok y =>
      if h : x = y then .isTrue (by rw [h])
      else .isFalse (fun hh => h (by injection hh))
  | .ok _, .error _ => .isFalse (fun hh => by injection hh)
  | .error _, .ok _ => .isFalse (fun hh => by injection hh)
  | .error x, .error y =>
      if h : x = y then .isTrue (by rw [h])
      else .isFalse (fun hh => h (by injection hh))

namespace Vmad3

/-- Runtime values: a scalar or a one-dimensional array.  Numbers are
modelled as exact integers: every concrete scenario below stays within
integer-valued data on which the Python floating-point arithmetic is
exact. -/
inductive Value where
  | num (q : ℤ)
  | vec (l : List ℤ)
deriving DecidableEq, Repr

/-- Errors: the engine's taxonomy from `error.py` (`ModelError` and its
subclasses) together with the Python built-in errors that the code can
raise (`TypeError`, `KeyError`, `AttributeError`, `AssertionError`,
`ValueError`/shape mismatch). `modelError` is an instance of the bare
`ModelError` base class itself, as raised by `Model.output`. -/
inductive Err where
  | modelError
  | unpackError
  | duplicatedOutput
  | missingArgument
  | overwritePrecaution
  | unexpectedOutput
  | resolveError
  | inferError
  | brokenPrimitive
  | typeError
  | keyError
  | attributeError
  | assertionError
  | valueError
deriving DecidableEq, Repr

/-- Whether an error belongs to the engine's own taxonomy, i.e. is an
instance of `ModelError` per the class hierarchy in `error.py`. -/
def Err.isModelError : Err → Bool
  | .modelError | .unpackError | .duplicatedOutput | .missingArgument
  | .overwritePrecaution | .unexpectedOutput | .resolveError
  | .inferError | .brokenPrimitive => true
  | _ => false

/-! ### Elementwise arithmetic with numpy-style broadcasting -/

/-- Python/numpy addition on the embedded values. -/
def pyAdd : Value → Value → Except Err Value
  | .num a, .num b => .ok (.num (a + b))
  | .num a, .vec b => .ok (.vec (b.map (fun x => a + x)))
  | .vec a, .num b => .ok (.vec (a.map (fun x => x + b)))
  | .vec a, .vec b =>
      if a.length = b.length then .ok (.vec (List.zipWith (· + ·) a b))
      else .error .valueError

/-- Python/numpy multiplication on the embedded values. -/
def pyMul : Value → Value → Except Err Value
  | .num a, .num b => .ok (.num (a * b))
  | .num a, .vec b => .ok (.vec (b.map (fun x => a * x)))
  | .vec a, .num b => .ok (.vec (a.map (fun x => x * b)))
  | .vec a, .vec b =>
      if a.length = b.length then .ok (.vec (List.zipWith (· * ·) a b))
      else .error .valueError

/-- `abs`, elementwise (via `Int.natAbs`, which the kernel reduces). -/
def pyAbs : Value → Value
  | .num a => .num (Int.ofNat a.natAbs)
  | .vec l => .vec (l.map (fun x => Int.ofNat x.natAbs))

/-- `.sum()`: reduce an array to a scalar (a numpy scalar sums to itself). -/
def pySum : Value → Value
  | .num a => .num a
  | .vec l => .num l.sum

/-! ### Symbols (`symbol.py`) -/

/-- The three kinds of symbol: a plain `Symbol` resolved from the context,
a `Literal` carrying a build-time constant, and a `ZeroLiteral` resolving
to the additive identity. -/
inductive SymKind where
  | plain
  | lit (v : Value)
  | zero
deriving DecidableEq, Repr

/-- A symbol object.  `sid` is the object identity (each Python `Symbol`
allocation gets a fresh one); `name` is `None` for literals. -/
structure Sym where
  sid : Nat
  name : Option String
  kind : SymKind
deriving DecidableEq, Repr

/-- `Symbol.vjp_name`: `'_' + name`. -/
def vjpName (n : String) : String := "_" ++ n

/-- `Symbol.jvp_name`: `name + '_'`. -/
def jvpName (n : String) : String := n ++ "_"

/-- `Symbol.resolve` / `Literal.resolve` / `ZeroLiteral.resolve`: a plain
symbol looks its name up in the context and raises `KeyError` when the
name is absent (`context[self.name]`); a literal returns its value; a
zero literal returns `0`. -/
def resolveSym (ctx : List (String × Value)) (s : Sym) : Except Err Value :=
  match s.kind with
  | .plain =>
      match s.name with
      | some n =>
          match ctx.lookup n with
          | some v => .ok v
          | none => .error .keyError
      | none => .error .keyError
  | .lit v => .ok v
  | .zero => .ok (.num 0)

/-! ### Dictionary helpers

Python `dict`s preserve insertion order; updating an existing key keeps
its position.  We model them as association lists with those semantics. -/

/-- Ordered-dict update: replace in place if the key exists, else append. -/
def dset {α : Type} : List (String × α) → String → α → List (String × α)
  | [], k, v => [(k, v)]
  | (k', v') :: t, k, v =>
      if k' = k then (k, v) :: t else (k', v') :: dset t k v

/-- Ordered-dict lookup. -/
def dget {α : Type} (l : List (String × α)) (k : String) : Option α :=
  l.lookup k

/-! ### Primitive kinds (`operator.py` / `primitive.py`) -/

/-- The node kinds generated by the `@operator` decorator for the
operators this development embeds (`terminal` and `add` from
`operator.py`, `mul` and `to_scalar` from `lib/linalg.py`), three
primitives each: forward (`opr`), reverse (`vjp`) and tangent (`jvp`). -/
inductive OpId where
  | terminalO | terminalV | terminalJ
  | addO | addV | addJ
  | mulO | mulV | mulJ
  | tsO | tsV | tsJ
deriving DecidableEq, Repr

/-- Side (non-differentiated) argument values stored on a node. -/
abbrev KwDict := List (String × Value)

/-- A graph node (`Primitive` instance): one operator application.
`varinInfo` records, per input argument, the reference ordinal of the
consumed symbol at construction time. -/
structure Node where
  nid : Nat
  nodeName : String
  op : OpId
  varin : List (String × Sym)
  varinInfo : List (String × Nat)
  varout : List (String × Sym)
  kwargs : KwDict
deriving DecidableEq, Repr

/-- A value supplied for a keyword argument at node-construction time:
a symbol, a plain Python object, or a primitive (whose single output is
unpacked by `make_symbol`). -/
inductive ArgVal where
  | sym (s : Sym)
  | val (v : Value)
  | nd (n : Node)
deriving DecidableEq, Repr

/-- One argument of a Python call: positional or keyword. -/
inductive CallArg where
  | pos (a : ArgVal)
  | kw (k : String) (a : ArgVal)
deriving DecidableEq, Repr

/-- The data `_make_primitive` attaches to a generated primitive class:
input/output argument names, the introspected formal parameter names of
the implementation, the implementation itself, and the class name used
by `Model.unique_name`. -/
structure PrimKind where
  ain : List String
  aout : List String
  argnames : List String
  impl : KwDict → Except Err KwDict
  klsName : String

/-- An operator declaration (the class decorated by `@operator`):
`ain`/`aout` and the three procedures with their formal parameter
names. -/
structure OperatorDecl where
  opName : String
  ain : List String
  aout : List String
  oprArgnames : List String
  vjpArgnames : List String
  jvpArgnames : List String
  oprImpl : KwDict → Except Err KwDict
  vjpImpl : KwDict → Except Err KwDict
  jvpImpl : KwDict → Except Err KwDict

/-- `_make_primitive(operator, 'opr', ...)`: `ain`/`aout` are the
operator's own. -/
def makeOpr (d : OperatorDecl) : PrimKind :=
  { ain := d.ain, aout := d.aout, argnames := d.oprArgnames
    impl := d.oprImpl, klsName := d.opName }

/-- `_make_primitive(operator, 'vjp', ...)`: inputs are the original
arguments appearing in the procedure's parameter list plus the `'_'`-
prefixed output adjoints; outputs are the `'_'`-prefixed input
adjoints. -/
def makeVjp (d : OperatorDecl) : PrimKind :=
  { ain := d.vjpArgnames.filter (fun a => d.ain.contains a)
        ++ d.aout.map (fun a => "_" ++ a)
    aout := d.ain.map (fun a => "_" ++ a)
    argnames := d.vjpArgnames
    impl := d.vjpImpl, klsName := d.opName ++ "-vjp" }

/-- `_make_primitive(operator, 'jvp', ...)`: inputs are the original
arguments appearing in the procedure's parameter list plus the `'_'`-
suffixed input tangents; outputs are the `'_'`-suffixed output
tangents. -/
def makeJvp (d : OperatorDecl) : PrimKind :=
  { ain := d.jvpArgnames.filter (fun a => d.ain.contains a)
        ++ d.ain.map (fun a => a ++ "_")
    aout := d.aout.map (fun a => a ++ "_")
    argnames := d.jvpArgnames
    impl := d.jvpImpl, klsName := d.opName ++ "-jvp" }

/-- Look a required key up in an implementation's keyword dictionary. -/
def g (kw : KwDict) (k : String) : Except Err Value :=
  match dget kw k with
  | some v => .ok v
  | none => .error .typeError

/-- The `terminal` operator (`operator.py`): `opr(x) = y=x`,
`vjp(_y) = _x=_y`, `jvp(x_) = y_=x_`. -/
def terminalDecl : OperatorDecl :=
  { opName := "terminal", ain := ["x"], aout := ["y"]
    oprArgnames := ["x"], vjpArgnames := ["_y"], jvpArgnames := ["x_"]
    oprImpl := fun kw => do
      let x ← g kw "x"
      return [("y", x)]
    vjpImpl := fun kw => do
      let y ← g kw "_y"
      return [("_x", y)]
    jvpImpl := fun kw => do
      let x ← g kw "x_"
      return [("y_", x)] }

/-- The `add` operator (`operator.py`), used for partial-gradient
summation: `opr(x1, x2) = y = x1 + x2`, `vjp(_y) = (_x1=_y, _x2=_y)`,
`jvp(x1_, x2_) = y_ = x1_ + x2_`. -/
def addDecl : OperatorDecl :=
  { opName := "add", ain := ["x1", "x2"], aout := ["y"]
    oprArgnames := ["x1", "x2"], vjpArgnames := ["_y"]
    jvpArgnames := ["x1_", "x2_"]
    oprImpl := fun kw => do
      let x1 ← g kw "x1"
      let x2 ← g kw "x2"
      let y ← pyAdd x1 x2
      return [("y", y)]
    vjpImpl := fun kw => do
      let y ← g kw "_y"
      return [("_x1", y), ("_x2", y)]
    jvpImpl := fun kw => do
      let x1 ← g kw "x1_"
      let x2 ← g kw "x2_"
      let y ← pyAdd x1 x2
      return [("y_", y)] }

/-- The `mul` operator (`lib/linalg.py`): `opr(x1, x2) = y = x1 * x2`,
`vjp(_y, x1, x2) = (_x1 = _y*x2, _x2 = _y*x1)`,
`jvp(x1_, x2_, x1, x2) = y_ = x1_*x2 + x1*x2_`. -/
def mulDecl : OperatorDecl :=
  { opName := "mul", ain := ["x1", "x2"], aout := ["y"]
    oprArgnames := ["x1", "x2"], vjpArgnames := ["_y", "x1", "x2"]
    jvpArgnames := ["x1_", "x2_", "x1", "x2"]
    oprImpl := fun kw => do
      let x1 ← g kw "x1"
      let x2 ← g kw "x2"
      let y ← pyMul x1 x2
      return [("y", y)]
    vjpImpl := fun kw => do
      let y ← g kw "_y"
      let x1 ← g kw "x1"
      let x2 ← g kw "x2"
      let a ← pyMul y x2
      let b ← pyMul y x1
      return [("_x1", a), ("_x2", b)]
    jvpImpl := fun kw => do
      let x1t ← g kw "x1_"
      let x2t ← g kw "x2_"
      let x1 ← g kw "x1"
      let x2 ← g kw "x2"
      let t1 ← pyMul x1t x2
      let t2 ← pyMul x1 x2t
      let y ← pyAdd t1 t2
      return [("y_", y)] }

/-- The `to_scalar` operator (`lib/linalg.py`):
`opr(x) = y = (abs(x) ** 2).sum()`, `vjp(_y, x) = _x = 2 * _y * x`,
`jvp(x_, x) = y_ = 2 * x_ * x` (note: the source applies no `.sum()`
in `jvp`, so on an array input the tangent output is an array). -/
def tsDecl : OperatorDecl :=
  { opName := "to_scalar", ain := ["x"], aout := ["y"]
    oprArgnames := ["x"], vjpArgnames := ["_y", "x"]
    jvpArgnames := ["x_", "x"]
    oprImpl := fun kw => do
      let x ← g kw "x"
      let a := pyAbs x
      let sq ← pyMul a a
      return [("y", pySum sq)]
    vjpImpl := fun kw => do
      let y ← g kw "_y"
      let x ← g kw "x"
      let t ← pyMul (.num 2) y
      let r ← pyMul t x
      return [("_x", r)]
    jvpImpl := fun kw => do
      let xt ← g kw "x_"
      let x ← g kw "x"
      let t ← pyMul (.num 2) xt
      let r ← pyMul t x
      return [("y_", r)] }

/-- The primitive class attached to each node kind. -/
def prim : OpId → PrimKind
  | .terminalO => makeOpr terminalDecl
  | .terminalV => makeVjp terminalDecl
  | .terminalJ => makeJvp terminalDecl
  | .addO => makeOpr addDecl
  | .addV => makeVjp addDecl
  | .addJ => makeJvp addDecl
  | .mulO => makeOpr mulDecl
  | .mulV => makeVjp mulDecl
  | .mulJ => makeJvp mulDecl
  | .tsO => makeOpr tsDecl
  | .tsV => makeVjp tsDecl
  | .tsJ => makeJvp tsDecl

/-- `find_primitive_type(p, 'vjp')`: the reverse primitive of the
operator a forward node belongs to (`p.operator.vjp`); defined only on
forward (`opr`) primitives. -/
def oprToVjp : OpId → Option OpId
  | .terminalO => some .terminalV
  | .addO => some .addV
  | .mulO => some .mulV
  | .tsO => some .tsV
  | _ => none

/-- `find_primitive_type(p, 'jvp')`: the tangent primitive of the
operator a forward node belongs to. -/
def oprToJvp : OpId → Option OpId
  | .terminalO => some .terminalJ
  | .addO => some .addJ
  | .mulO => some .mulJ
  | .tsO => some .tsJ
  | _ => none

/-! ### The model builder (`model.py`)

Python `Symbol` objects are mutable (their `references` list grows as
nodes consume them), so the reference lists live in the model state,
keyed by symbol identity (`sid`); `refs` is the concatenated list of
`(symbol sid, consuming node id)` reference entries, in the order the
references were added. -/

/-- A `Model`: the ordered node list, the `unique_name` counter, the
declared inputs and outputs, the name → symbol table `_syms`, the
reference lists of all symbols, and allocation counters for symbol and
node identities. -/
structure ModelState where
  nodes : List Node
  counter : Nat
  vin : List Sym
  vout : List Sym
  syms : List (String × Sym)
  refs : List (Nat × Nat)
  nextSid : Nat
  nextNid : Nat
deriving DecidableEq, Repr

/-- `Model()`: the empty model. -/
def emptyModel : ModelState :=
  { nodes := [], counter := 0, vin := [], vout := [], syms := []
    refs := [], nextSid := 0, nextNid := 0 }

/-- `len(symbol.references)` for the symbol with identity `sid`. -/
def refcount (st : ModelState) (sid : Nat) : Nat :=
  (st.refs.filter (fun r => r.1 = sid)).length

/-- `symbol.has_reference()`. -/
def hasReference (st : ModelState) (sid : Nat) : Bool :=
  refcount st sid ≠ 0

/-- Allocate a fresh `Symbol` object (Python `Symbol.__init__`). -/
def allocSym (st : ModelState) (name : Option String) (kind : SymKind) :
    ModelState × Sym :=
  let s : Sym := { sid := st.nextSid, name := name, kind := kind }
  ({ st with nextSid := st.nextSid + 1 }, s)

/-- `Model.define(varname)`: allocate a fresh plain symbol and register
it in `_syms` under its name (replacing any previous symbol of that
name). -/
def defineSym (st : ModelState) (n : String) : ModelState × Sym :=
  let (st, s) := allocSym st (some n) .plain
  ({ st with syms := dset st.syms n s }, s)

/-- `Literal(model, value)`: an anonymous constant symbol; not
registered in `_syms`. -/
def mkLiteral (st : ModelState) (v : Value) : ModelState × Sym :=
  allocSym st none (.lit v)

/-- `ZeroLiteral(model)`: the additive-identity symbol; not registered
in `_syms`. -/
def mkZero (st : ModelState) : ModelState × Sym :=
  allocSym st none .zero

/-- `Model.get(varname)`. -/
def getSym (st : ModelState) (n : String) : Option Sym :=
  dget st.syms n

/-- `Model.has(varname)`. -/
def hasSym (st : ModelState) (n : String) : Bool :=
  (dget st.syms n).isSome

/-- `Model.input(name)` for one name: define the symbol and append it to
`_vin`. -/
def inputOne (st : ModelState) (n : String) : ModelState × Sym :=
  let (st, s) := defineSym st n
  ({ st with vin := st.vin ++ [s] }, s)

/-- `Model.unique_name(str)`: bump the counter and produce
`'%s@%d' % (str, counter)`. -/
def uniqueName (st : ModelState) (base : String) : ModelState × String :=
  let c := st.counter + 1
  ({ st with counter := c }, base ++ "@" ++ toString c)

/-! ### Node construction (`Primitive.__init__`) -/

/-- `make_symbol(model, var)`: unpack a primitive's single output, wrap
a plain value as a `Literal`, pass a symbol through. -/
def makeSymbolArg (st : ModelState) (a : ArgVal) : ModelState × Except Err Sym :=
  match a with
  | .nd n =>
      if n.varout.length > 1 then (st, .error .unpackError)
      else
        match n.varout with
        | (_, s) :: _ => (st, .ok s)
        | [] => (st, .error .typeError)
  | .val v =>
      let (st, s) := mkLiteral st v
      (st, .ok s)
  | .sym s => (st, .ok s)

/-- Whether an argument value is (or unpacks to) a `Symbol`, as tested
by `_infer_model`.  A primitive argument unpacks to its first output
symbol; literals are symbols too. -/
def argIsSymbolLike : ArgVal → Bool
  | .sym _ => true
  | .nd _ => true
  | .val _ => false

/-- `Primitive._infer_model`: scan the declared input arguments in order
— a missing one raises `MissingArgument`, the first symbol-valued one
determines the model; otherwise scan the supplied output arguments for a
symbol; otherwise raise `InferError`. -/
def inferModel (k : PrimKind) (kwargs : List (String × ArgVal)) :
    Except Err Unit :=
  inferAin k.ain
where
  inferAin : List String → Except Err Unit
    | [] => inferAout k.aout
    | a :: t =>
        match dget kwargs a with
        | none => .error .missingArgument
        | some v => if argIsSymbolLike v then .ok () else inferAin t
  inferAout : List String → Except Err Unit
    | [] => .error .inferError
    | a :: t =>
        match dget kwargs a with
        | some (.sym _) => .ok ()
        | _ => inferAout t

/-- The input-argument loop of `Primitive.__init__`: for each declared
input argument, convert the supplied value to a symbol, append a
reference entry for the new node, and record the symbol and its
reference ordinal (`len(var.references)` after the append).  A key
absent from `kwargs` raises Python's `KeyError` (the `MissingArgument`
check in `_infer_model` only runs up to the first symbol argument). -/
def ainLoop (nid : Nat) (kwargs : List (String × ArgVal)) :
    List String → ModelState → List (String × Sym) → List (String × Nat) →
    ModelState × Except Err (List (String × Sym) × List (String × Nat))
  | [], st, varin, vinfo => (st, .ok (varin, vinfo))
  | a :: t, st, varin, vinfo =>
      match dget kwargs a with
      | none => (st, .error .keyError)
      | some av =>
          match makeSymbolArg st av with
          | (st, .error e) => (st, .error e)
          | (st, .ok s) =>
              let st := { st with refs := st.refs ++ [(s.sid, nid)] }
              ainLoop nid kwargs t st (varin ++ [(a, s)])
                (vinfo ++ [(a, refcount st s.sid)])

/-- The output-argument loop of `Primitive.__init__`: an unsupplied
output argument gets a freshly defined symbol named
`nodename + '-' + argname`; a supplied symbol that already has
references raises `OverwritePrecaution`; a supplied non-symbol raises
`AttributeError` (`var.references` on a non-symbol). -/
def aoutLoop (nodeName : String) (kwargs : List (String × ArgVal)) :
    List String → ModelState → List (String × Sym) →
    ModelState × Except Err (List (String × Sym))
  | [], st, varout => (st, .ok varout)
  | a :: t, st, varout =>
      match dget kwargs a with
      | none =>
          let (st, s) := defineSym st (nodeName ++ "-" ++ a)
          aoutLoop nodeName kwargs t st (varout ++ [(a, s)])
      | some (.sym s) =>
          if refcount st s.sid ≠ 0 then (st, .error .overwritePrecaution)
          else aoutLoop nodeName kwargs t st (varout ++ [(a, s)])
      | some _ => (st, .error .attributeError)

/-- The `side` keyword arguments: those supplied under a name that is
neither an input nor an output argument (only plain values are
modelled as side arguments). -/
def sideKwargs (k : PrimKind) (kwargs : List (String × ArgVal)) : KwDict :=
  kwargs.filterMap (fun p =>
    if k.ain.contains p.1 || k.aout.contains p.1 then none
    else match p.2 with
      | .val v => some (p.1, v)
      | _ => none)

/-- Collect the keyword arguments of a call into an ordered dict; any
positional argument makes a call to `Primitive.__init__(self, **kwargs)`
raise Python's `TypeError` before the body runs (checked in
`construct`). -/
def kwargsOf (args : List CallArg) : List (String × ArgVal) :=
  args.foldl (fun acc a =>
    match a with
    | .pos _ => acc
    | .kw k v => dset acc k v) []

/-- The allocation prefix of `Primitive.__init__`: reserve the node
identity and compute the node's unique name (bumping the model's
counter). -/
def constructPre (op : OpId) (st : ModelState) : ModelState × Nat × String :=
  let nid := st.nextNid
  let st := { st with nextNid := st.nextNid + 1 }
  let (st, nodeName) := uniqueName st (prim op).klsName
  (st, nid, nodeName)

/-- `Primitive.__init__` (node construction).  Returns the model state
together with either the new node or the error raised; on error the
state reflects the mutations performed before the raise (references
added, symbols defined), exactly as in Python, but no node is appended
since `model.append(self)` is the final statement. -/
def construct (op : OpId) (args : List CallArg) (st : ModelState) :
    ModelState × Except Err Node :=
  if args.any (fun a => match a with | .pos _ => true | .kw _ _ => false)
  then (st, .error .typeError)
  else
    let kwargs := kwargsOf args
    let k := prim op
    match inferModel k kwargs with
    | .error e => (st, .error e)
    | .ok _ =>
        let (st, nid, nodeName) := constructPre op st
        match ainLoop nid kwargs k.ain st [] [] with
        | (st, .error e) => (st, .error e)
        | (st, .ok (varin, vinfo)) =>
            match aoutLoop nodeName kwargs k.aout st [] with
            | (st, .error e) => (st, .error e)
            | (st, .ok varout) =>
                let node : Node :=
                  { nid := nid, nodeName := nodeName, op := op
                    varin := varin, varinInfo := vinfo, varout := varout
                    kwargs := sideKwargs k kwargs }
                ({ st with nodes := st.nodes ++ [node] }, .ok node)

/-- `Model.output(**kwargs)` for a single binding: raise the bare
`ModelError` if the name is already a declared output, else define the
output symbol, wrap the given value through a `terminal` node and
append the new symbol to `_vout`. -/
def outputOne (st : ModelState) (n : String) (v : ArgVal) :
    ModelState × Except Err Unit :=
  if st.vout.any (fun s => s.name = some n) then (st, .error .modelError)
  else
    let (st, s) := defineSym st n
    match construct .terminalO [.kw "x" v, .kw "y" (.sym s)] st with
    | (st, .error e) => (st, .error e)
    | (st, .ok _) => ({ st with vout := st.vout ++ [s] }, .ok ())

/-! ### Tape and execution (`core/context.py`) -/

/-- One tape record: the node and the resolved input values it was
invoked with (`record.node`, `record.impl_kwargs`). -/
structure TapeRec where
  node : Node
  implKwargs : KwDict
deriving DecidableEq, Repr

/-- Modelled from the spec: `core/tape.py` is absent from `src/`; per
§3 of the specification a `Tape` is "an append-only ordered list of
(node, resolved-input-values) pairs captured during one Context
execution", holding the model it was recorded from (`Tape(model)`,
`tape.model`, `tape.append(node, resolved)` in `core/context.py` and
`autodiff.py`). -/
structure Tape where
  model : ModelState
  records : List TapeRec
deriving DecidableEq, Repr

/-- A `Context`: the mapping from symbol names to runtime values. -/
abbrev Ctx := List (String × Value)

/-- Modelled from the spec: `ref.get_symbol_names()` lives in the
missing `core/symbol.py`; per §4.3/§5 liveness is computed from the
names a remaining node's input references can still read, so a named
symbol contributes its name and an anonymous literal contributes
nothing. -/
def symbolNames (s : Sym) : List String :=
  match s.name with
  | some n => [n]
  | none => []

/-- `Context.remove_unused(nodes)`: evict every context entry whose key
is not used by any input reference of the given (remaining) nodes. -/
def removeUnused (ctx : Ctx) (nodes : List Node) : Ctx :=
  let used := nodes.flatMap (fun n => n.varin.flatMap (fun p => symbolNames p.2))
  ctx.filter (fun p => used.contains p.1)

/-- `Context.result_used(node)`: a terminal node's result is always
used; otherwise the result is used iff some output symbol has a
reference. -/
def resultUsed (st : ModelState) (n : Node) : Bool :=
  n.op = .terminalO || n.varout.any (fun p => hasReference st p.2.sid)

/-- Resolve every input symbol of a node from the context, in argument
order (the `resolved` dict of `Context.execute`). -/
def resolveVarin (ctx : Ctx) : List (String × Sym) → Except Err KwDict
  | [] => .ok []
  | (a, s) :: t => do
      let v ← resolveSym ctx s
      let r ← resolveVarin ctx t
      return (a, v) :: r

/-- Fill in the extra implementation arguments from the node's side
kwargs: for each formal parameter name not already bound, take
`node.kwargs[argname]` (Python `KeyError` when absent). -/
def addSideArgs (n : Node) : List String → KwDict → Except Err KwDict
  | [], kw => .ok kw
  | a :: t, kw =>
      match dget kw a with
      | some _ => addSideArgs n t kw
      | none =>
          match dget n.kwargs a with
          | some v => addSideArgs n t (dset kw a v)
          | none => .error .keyError

/-- Store the implementation's outputs back into the context under the
output symbols' names (`var.store(self, r[argname])`), also returning
the list of `(name, value)` writes performed, in order. -/
def storeOuts (r : KwDict) : List (String × Sym) → Ctx →
    List (String × Value) → Except Err (Ctx × List (String × Value))
  | [], ctx, ws => .ok (ctx, ws)
  | (a, s) :: t, ctx, ws =>
      match dget r a with
      | none => .error .keyError
      | some v =>
          match s.name with
          | some nm => storeOuts r t (dset ctx nm v) (ws ++ [(nm, v)])
          | none => .error .typeError

/-- `Context.execute(node, tape)`: resolve the inputs, fill in side
arguments, append the `(node, resolved)` record to the tape
(immediately before the call), invoke the node's implementation and
store its outputs.  Returns the new context, the tape record and the
writes performed. -/
def execNode (n : Node) (ctx : Ctx) :
    Except Err (Ctx × TapeRec × List (String × Value)) := do
  let resolved ← resolveVarin ctx n.varin
  let kw ← addSideArgs n (prim n.op).argnames resolved
  let record : TapeRec := { node := n, implKwargs := resolved }
  let r ← (prim n.op).impl kw
  let (ctx', ws) ← storeOuts r n.varout ctx []
  return (ctx', record, ws)

/-- The running state of one `Context.compute` call: the context, the
collected output dict `r`, the tape records so far, and (for the
theorems) the history of all context writes performed. -/
structure ExecState where
  ctx : Ctx
  rdict : KwDict
  recs : List TapeRec
  hist : List (String × Value)
deriving DecidableEq, Repr

/-- The output-collection loop for a terminal node:
`r[var.name] = self[var.name]` for each output symbol. -/
def captureList : List (String × Sym) → ExecState → Except Err ExecState
  | [], es => .ok es
  | (_, s) :: t, es =>
      match s.name with
      | none => .error .keyError
      | some nm =>
          match dget es.ctx nm with
          | none => .error .keyError
          | some v => captureList t { es with rdict := dset es.rdict nm v }

/-- For a terminal node, collect `r[var.name] = self[var.name]` for its
output symbols. -/
def captureOuts (n : Node) (es : ExecState) : Except Err ExecState :=
  captureList n.varout es

/-- The node loop of `Context.compute`: execute each node whose result
is used (recording it on the tape), collect terminal outputs into `r`,
then evict entries unused by the remaining nodes. -/
def computeLoop (st : ModelState) : List Node → ExecState → Except Err ExecState
  | [], es => .ok es
  | n :: rest, es => do
      let es ←
        if resultUsed st n then do
          let (ctx', rec, ws) ← execNode n es.ctx
          pure { es with ctx := ctx', recs := es.recs ++ [rec]
                         hist := es.hist ++ ws }
        else pure es
      let es ← if n.op = .terminalO then captureOuts n es else pure es
      let es := { es with ctx := removeUnused es.ctx rest }
      computeLoop st rest es

/-- The requested outputs of a `compute` call: a single name returns the
bare value, a list of names returns a list of values. -/
inductive VoutReq where
  | one (s : String)
  | list (l : List String)
deriving DecidableEq, Repr

/-- The value part of a `compute` result. -/
inductive RetVal where
  | one (v : Value)
  | many (vs : List Value)
deriving DecidableEq, Repr

/-- Look each requested output name up in the collected `r` dict
(`r = [r[varname] for varname in vout]`). -/
def collectVout (rdict : KwDict) : List String → Except Err (List Value)
  | [] => .ok []
  | n :: t =>
      match dget rdict n with
      | none => .error .keyError
      | some v => do
          let r ← collectVout rdict t
          return v :: r

/-- The list of requested output names: `vout = [vout]` when a single
string was given. -/
def vnamesOf : VoutReq → List String
  | .one s => [s]
  | .list l => l

/-- The names declared as outputs by the model (`_voutnames`). -/
def voutnamesOf (st : ModelState) : List String :=
  st.vout.filterMap (fun s => s.name)

/-- Shape the collected result values: the bare value for a single
string request (`r = r[0]`), the list for a list request. -/
def shapeResult : VoutReq → List Value → Except Err RetVal
  | .one _, [v] => .ok (.one v)
  | .one _, _ => .error .typeError
  | .list _, rlist => .ok (.many rlist)

/-- The initial execution state of one `compute` call. -/
def initState (init : Ctx) : ExecState :=
  { ctx := init, rdict := [], recs := [], hist := [] }

/-- `Context.compute(model, vout, return_tape)`: validate the requested
output names against the model's declared outputs
(`UnexpectedOutput`, before any execution), run the node loop from the
initial context, then shape the result: a bare value for a single
string request, a list for a list request, paired with the tape iff
`return_tape` was set. -/
def compute (st : ModelState) (init : Ctx) (vreq : VoutReq)
    (returnTape : Bool) : Except Err (RetVal × Option Tape) := do
  let vnames := vnamesOf vreq
  if vnames.all (fun n => (voutnamesOf st).contains n) then
    let es ← computeLoop st st.nodes (initState init)
    let rlist ← collectVout es.rdict vnames
    let rv ← shapeResult vreq rlist
    return (rv, if returnTape then some { model := st, records := es.recs } else none)
  else
    throw .unexpectedOutput

/-! ### The differentiation transforms (`autodiff.py`) -/

/-- `prepare_opr_kwargs(record, model)`: start from the node's side
kwargs; every recorded resolved value of a differentiated input argument
is literalized into the new model, other recorded values are passed
through as plain values. -/
def prepareOprKwargs (p : Node) (implKwargs : KwDict) (st : ModelState) :
    ModelState × List (String × ArgVal) :=
  goPrep implKwargs st (p.kwargs.map (fun q => (q.1, ArgVal.val q.2)))
where
  goPrep : KwDict → ModelState → List (String × ArgVal) →
      ModelState × List (String × ArgVal)
    | [], st, kw => (st, kw)
    | (k, v) :: t, st, kw =>
        if (dget p.varin k).isSome then
          let (st, l) := mkLiteral st v
          goPrep t st (dset kw k (.sym l))
        else
          goPrep t st (dset kw k (.val v))

/-- The `'v'`-initialization loop of `vjp`: for each output argument of
the recorded node, bind `'_' + argname` to the new model's symbol
registered under the output symbol's adjoint name
(`model.get(var.vjp_name)`, a `KeyError` when absent). -/
def vjpOutArgs (st : ModelState) :
    List (String × Sym) → List (String × ArgVal) →
    Except Err (List (String × ArgVal))
  | [], kw => .ok kw
  | (a, var) :: t, kw =>
      match var.name with
      | none => .error .typeError
      | some n =>
          match getSym st (vjpName n) with
          | none => .error .keyError
          | some s => vjpOutArgs st t (dset kw ("_" ++ a) (.sym s))

/-- `isinstance(var, Literal)` (covers `ZeroLiteral` as well). -/
def isLiteral (s : Sym) : Bool :=
  match s.kind with
  | .plain => false
  | _ => true

/-- The output-vjp creation loop of `vjp`: for each non-literal input
argument of the recorded node, define the symbol receiving the partial
adjoint — under the canonical adjoint name when the recorded reference
ordinal is the symbol's full reference count, under the private
`'#%d'`-suffixed name otherwise — and bind it as `'_' + argname`. -/
def vjpInArgs (orig : ModelState) (p : Node) (st : ModelState) :
    List (String × Sym) → List (String × ArgVal) →
    ModelState × Except Err (List (String × ArgVal))
  | [], kw => (st, .ok kw)
  | (a, var) :: t, kw =>
      if isLiteral var then vjpInArgs orig p st t kw
      else
        match dget p.varinInfo a with
        | none => (st, .error .keyError)
        | some refId =>
            match var.name with
            | none => (st, .error .typeError)
            | some n =>
                let nm :=
                  if refId = refcount orig var.sid then vjpName n
                  else vjpName n ++ "#" ++ toString refId
                let (st, vp) := defineSym st nm
                vjpInArgs orig p st t (dset kw ("_" ++ a) (.sym vp))

/-- The partial-derivative combination loop of `vjp`: for each
non-literal input argument whose recorded reference ordinal is not the
symbol's full reference count, fetch the running total and the private
partial, define a fresh symbol under the canonical adjoint name and
emit `add(x1=total, x2=partial, y=fresh)`. -/
def vjpCombine (orig : ModelState) (p : Node) :
    List (String × Sym) → ModelState → ModelState × Except Err Unit
  | [], st => (st, .ok ())
  | (a, var) :: t, st =>
      if isLiteral var then vjpCombine orig p t st
      else
        match dget p.varinInfo a with
        | none => (st, .error .keyError)
        | some refId =>
            match var.name with
            | none => (st, .error .typeError)
            | some n =>
                if refId = refcount orig var.sid then vjpCombine orig p t st
                else
                  match getSym st (vjpName n) with
                  | none => (st, .error .keyError)
                  | some varF =>
                      match getSym st (vjpName n ++ "#" ++ toString refId) with
                      | none => (st, .error .keyError)
                      | some varP =>
                          let (st, varF2) := defineSym st (vjpName n)
                          match construct .addO
                              [.kw "x1" (.sym varF), .kw "x2" (.sym varP),
                               .kw "y" (.sym varF2)] st with
                          | (st, .error e) => (st, .error e)
                          | (st, .ok _) => vjpCombine orig p t st

/-- Process one tape record during the reverse walk of `vjp`. -/
def vjpRecord (orig : ModelState) (st : ModelState) (r : TapeRec) :
    Except Err ModelState := do
  let p := r.node
  let vjpOp ←
    match oprToVjp p.op with
    | none => throw .assertionError
    | some o => pure o
  let (st, kw) := prepareOprKwargs p r.implKwargs st
  let kw ← vjpOutArgs st p.varout kw
  match vjpInArgs orig p st p.varin kw with
  | (_, .error e) => throw e
  | (st, .ok kw) =>
      match construct vjpOp (kw.map (fun q => CallArg.kw q.1 q.2)) st with
      | (_, .error e) => throw e
      | (st, .ok _) =>
          match vjpCombine orig p p.varin st with
          | (_, .error e) => throw e
          | (st, .ok _) => return st

/-- The reverse walk: process the tape records in reverse order. -/
def vjpWalk (orig : ModelState) : List TapeRec → ModelState →
    Except Err ModelState
  | [], st => .ok st
  | r :: t, st => do
      let st ← vjpRecord orig st r
      vjpWalk orig t st

/-- The input-marking phase of `vjp`: declare the adjoint name of every
original output as an input of the new model. -/
def vjpInputs : List Sym → ModelState → Except Err ModelState
  | [], st => .ok st
  | v :: t, st =>
      match v.name with
      | none => .error .typeError
      | some n => vjpInputs t (inputOne st (vjpName n)).1

/-- The output-marking phase of `vjp`: for every input of the original
model, bind its adjoint name as an output of the new model — to the
accumulated symbol when one exists, to a fresh `ZeroLiteral`
otherwise. -/
def vjpMarkList : List Sym → ModelState → Except Err ModelState
  | [], st => .ok st
  | v :: t, st =>
      match v.name with
      | none => .error .typeError
      | some n =>
          if hasSym st (vjpName n) then
            match getSym st (vjpName n) with
            | none => .error .keyError
            | some s =>
                match outputOne st (vjpName n) (.sym s) with
                | (_, .error e) => .error e
                | (st, .ok _) => vjpMarkList t st
          else
            let (st, z) := mkZero st
            match outputOne st (vjpName n) (.sym z) with
            | (_, .error e) => .error e
            | (st, .ok _) => vjpMarkList t st

/-- The output-marking phase of `vjp`, over the original model's
declared inputs. -/
def vjpMark (origVin : List Sym) (st : ModelState) : Except Err ModelState :=
  vjpMarkList origVin st

/-- `vjp(tape)`: build the reverse-derivative model — declare the
adjoint names of the original outputs as inputs, walk the tape in
reverse emitting each node's reverse primitive and the partial-adjoint
accumulation, then mark the adjoint of every original input as an
output (zero-seeded when nothing accumulated). -/
def vjp (tape : Tape) : Except Err ModelState := do
  let st ← vjpInputs tape.model.vout emptyModel
  let st ← vjpWalk tape.model tape.records.reverse st
  vjpMark tape.model.vin st

/-- The tangent-initialization loop of `jvp`: literal inputs get a
fresh `ZeroLiteral` tangent, others the new model's symbol registered
under the input symbol's tangent name. -/
def jvpInArgs (st : ModelState) :
    List (String × Sym) → List (String × ArgVal) →
    ModelState × Except Err (List (String × ArgVal))
  | [], kw => (st, .ok kw)
  | (a, var) :: t, kw =>
      if isLiteral var then
        let (st, z) := mkZero st
        jvpInArgs st t (dset kw (a ++ "_") (.sym z))
      else
        match var.name with
        | none => (st, .error .typeError)
        | some n =>
            match getSym st (jvpName n) with
            | none => (st, .error .keyError)
            | some s => jvpInArgs st t (dset kw (a ++ "_") (.sym s))

/-- The output-tangent creation loop of `jvp`: define each output
symbol's tangent name and bind it as `argname + '_'`. -/
def jvpOutArgs (st : ModelState) :
    List (String × Sym) → List (String × ArgVal) →
    ModelState × Except Err (List (String × ArgVal))
  | [], kw => (st, .ok kw)
  | (a, var) :: t, kw =>
      match var.name with
      | none => (st, .error .typeError)
      | some n =>
          let (st, s) := defineSym st (jvpName n)
          jvpOutArgs st t (dset kw (a ++ "_") (.sym s))

/-- Process one tape record during the forward walk of `jvp`. -/
def jvpRecord (st : ModelState) (r : TapeRec) : Except Err ModelState := do
  let p := r.node
  let jvpOp ←
    match oprToJvp p.op with
    | none => throw .assertionError
    | some o => pure o
  let (st, kw) := prepareOprKwargs p r.implKwargs st
  match jvpInArgs st p.varin kw with
  | (_, .error e) => throw e
  | (st, .ok kw) =>
      match jvpOutArgs st p.varout kw with
      | (_, .error e) => throw e
      | (st, .ok kw) =>
          match construct jvpOp (kw.map (fun q => CallArg.kw q.1 q.2)) st with
          | (_, .error e) => throw e
          | (st, .ok _) => return st

/-- The forward walk of `jvp`, in tape order. -/
def jvpWalk : List TapeRec → ModelState → Except Err ModelState
  | [], st => .ok st
  | r :: t, st => do
      let st ← jvpRecord st r
      jvpWalk t st

/-- The input-marking phase of `jvp`: declare the tangent name of every
original input as an input of the new model. -/
def jvpInputs : List Sym → ModelState → Except Err ModelState
  | [], st => .ok st
  | v :: t, st =>
      match v.name with
      | none => .error .typeError
      | some n => jvpInputs t (inputOne st (jvpName n)).1

/-- The output-marking phase of `jvp`: bind the tangent name of every
original output as an output of the new model, zero-seeded when no
tangent was produced. -/
def jvpMark : List Sym → ModelState → Except Err ModelState
  | [], st => .ok st
  | v :: t, st =>
      match v.name with
      | none => .error .typeError
      | some n =>
          if hasSym st (jvpName n) then
            match getSym st (jvpName n) with
            | none => .error .keyError
            | some s =>
                match outputOne st (jvpName n) (.sym s) with
                | (_, .error e) => .error e
                | (st, .ok _) => jvpMark t st
          else
            let (st, z) := mkZero st
            match outputOne st (jvpName n) (.sym z) with
            | (_, .error e) => .error e
            | (st, .ok _) => jvpMark t st

/-- `jvp(tape)`: build the forward-derivative model — declare the
tangent names of the original inputs as inputs, walk the tape in order
emitting each node's tangent primitive, then mark the tangent of every
original output as an output (zero-seeded when nothing was
produced). -/
def jvp (tape : Tape) : Except Err ModelState := do
  let st ← jvpInputs tape.model.vin emptyModel
  let st ← jvpWalk tape.records st
  jvpMark tape.model.vout st

/-! ### Concrete example graphs -/

/-- A placeholder node (used only as a fallback in `match` defaults that
are never reached on the concrete examples). -/
def dummyNode : Node :=
  { nid := 0, nodeName := "", op := .terminalO, varin := [], varinInfo := []
    varout := [], kwargs := [] }

/-- `x = [0, 1, ..., 9]`. -/
def xsList : List ℤ := [0, 1, 2, 3, 4, 5, 6, 7, 8, 9]

/-- The scenario graph `y = mul(x, 1.0); c = to_scalar(y)`:
declare the input `x`. -/
def scen0 : ModelState × Sym := inputOne emptyModel "x"

/-- The scenario graph: the node `y = mul(x1=x, x2=1.0)`. -/
def scen1 : ModelState × Except Err Node :=
  construct .mulO [.kw "x1" (.sym scen0.2), .kw "x2" (.val (.num 1))] scen0.1

/-- The `mul` node of the scenario graph. -/
def scenMulNode : Node :=
  match scen1.2 with
  | .ok n => n
  | .error _ => dummyNode

/-- The scenario graph: the node `c = to_scalar(x=y)`. -/
def scen2 : ModelState × Except Err Node :=
  construct .tsO [.kw "x" (.nd scenMulNode)] scen1.1

/-- The `to_scalar` node of the scenario graph. -/
def scenTsNode : Node :=
  match scen2.2 with
  | .ok n => n
  | .error _ => dummyNode

/-- The scenario graph: mark `c` as an output. -/
def scen3 : ModelState × Except Err Unit :=
  outputOne scen2.1 "c" (.nd scenTsNode)

/-- The completed scenario graph. -/
def scenM : ModelState := scen3.1

/-- The initial context of the scenario: `x = [0..9]`. -/
def scenInit : Ctx := [("x", .vec xsList)]

/-- The tape recorded by computing `c` on the scenario graph. -/
def scenTape : Tape :=
  match compute scenM scenInit (.one "c") true with
  | .ok (_, some t) => t
  | _ => { model := emptyModel, records := [] }

/-- The reverse-derivative graph of the scenario. -/
def scenVjpM : ModelState :=
  match vjp scenTape with
  | .ok m => m
  | .error _ => emptyModel

/-- The forward-derivative graph of the scenario. -/
def scenJvpM : ModelState :=
  match jvp scenTape with
  | .ok m => m
  | .error _ => emptyModel

/-- The `i`-th unit vector of length 10. -/
def unitVec (i : Nat) : Value :=
  .vec ((List.range 10).map (fun j => if j = i then 1 else 0))

/-- A graph with a dead node: input `x`, an unused `mul(x1=x, x2=2.0)`
node, and the output `c = x`. -/
def dead0 : ModelState × Sym := inputOne emptyModel "x"

/-- The dead-node graph: the unused `mul` node (its output `y` has no
consumer). -/
def dead1 : ModelState × Except Err Node :=
  construct .mulO [.kw "x1" (.sym dead0.2), .kw "x2" (.val (.num 2))] dead0.1

/-- The unused `mul` node. -/
def deadMulNode : Node :=
  match dead1.2 with
  | .ok n => n
  | .error _ => dummyNode

/-- The dead-node graph: mark `c = x` as an output. -/
def dead2 : ModelState × Except Err Unit := outputOne dead1.1 "c" (.sym dead0.2)

/-- The completed dead-node graph. -/
def deadM : ModelState := dead2.1

/-- The tape recorded by computing `c` on the dead-node graph (the
unused `mul` node is skipped and does not appear). -/
def deadTape : Tape :=
  match compute deadM [("x", .num 5)] (.one "c") true with
  | .ok (_, some t) => t
  | _ => { model := emptyModel, records := [] }

/-- The reverse-derivative graph of the dead-node tape. -/
def deadVjpM : ModelState :=
  match vjp deadTape with
  | .ok m => m
  | .error _ => emptyModel

/-- The output symbol `y` of the unused `mul` node. -/
def deadYSym : Sym :=
  match deadMulNode.varout with
  | (_, s) :: _ => s
  | [] => { sid := 0, name := none, kind := .plain }

/-- The execution state after running the reverse-derivative graph of
the dead-node tape on `_c = 1`. -/
def deadVjpRun : ExecState :=
  match computeLoop deadVjpM deadVjpM.nodes
      { ctx := [("_c", .num 1)], rdict := [], recs := [], hist := [] } with
  | .ok es => es
  | .error _ => { ctx := [], rdict := [], recs := [], hist := [] }

/-- A fan-out graph: input `a`, `b = add(x1=a, x2=a)` (so `a` is
consumed twice by one node), output `c = b`. -/
def fan0 : ModelState × Sym := inputOne emptyModel "a"

/-- The fan-out graph: the node `b = add(x1=a, x2=a)`. -/
def fan1 : ModelState × Except Err Node :=
  construct .addO [.kw "x1" (.sym fan0.2), .kw "x2" (.sym fan0.2)] fan0.1

/-- The `add` node of the fan-out graph. -/
def fanAddNode : Node :=
  match fan1.2 with
  | .ok n => n
  | .error _ => dummyNode

/-- The fan-out graph: mark `c = b` as an output. -/
def fan2 : ModelState × Except Err Unit :=
  outputOne fan1.1 "c" (.nd fanAddNode)

/-- The completed fan-out graph. -/
def fanM : ModelState := fan2.1

/-- The tape recorded by computing `c` on the fan-out graph. -/
def fanTape : Tape :=
  match compute fanM [("a", .num 5)] (.one "c") true with
  | .ok (_, some t) => t
  | _ => { model := emptyModel, records := [] }

/-- The reverse-derivative graph of the fan-out tape. -/
def fanVjpM : ModelState :=
  match vjp fanTape with
  | .ok m => m
  | .error _ => emptyModel

/-- A two-output graph: input `a`, `b = add(x1=a, x2=1)`, outputs
`c = a` and `d = b`. -/
def two0 : ModelState × Sym := inputOne emptyModel "a"

/-- The two-output graph: the node `b = add(x1=a, x2=1)`. -/
def two1 : ModelState × Except Err Node :=
  construct .addO [.kw "x1" (.sym two0.2), .kw "x2" (.val (.num 1))] two0.1

/-- The `add` node of the two-output graph. -/
def twoAddNode : Node :=
  match two1.2 with
  | .ok n => n
  | .error _ => dummyNode

/-- The two-output graph: mark `c = a` as an output. -/
def two2 : ModelState × Except Err Unit := outputOne two1.1 "c" (.sym two0.2)

/-- The two-output graph: mark `d = b` as an output. -/
def two3 : ModelState × Except Err Unit := outputOne two2.1 "d" (.nd twoAddNode)

/-- The completed two-output graph. -/
def twoM : ModelState := two3.1

/-- The tape recorded by computing `c` on the two-output graph with
`a = 3`. -/
def twoTape : Tape :=
  match compute twoM [("a", .num 3)] (.one "c") true with
  | .ok (_, some t) => t
  | _ => { model := emptyModel, records := [] }

/-- A graph with a dead-end input: inputs `x` and `w`, output `c = x`;
the input `w` is consumed by nothing, so its adjoint accumulates
nothing during the reverse walk. -/
def zero0 : ModelState × Sym := inputOne emptyModel "x"

/-- The dead-end-input graph: declare the unused input `w`. -/
def zero1 : ModelState × Sym := inputOne zero0.1 "w"

/-- The dead-end-input graph: mark `c = x` as an output. -/
def zero2 : ModelState × Except Err Unit :=
  outputOne zero1.1 "c" (.sym zero0.2)

/-- The completed dead-end-input graph. -/
def zeroM : ModelState := zero2.1

/-- The tape recorded by computing `c` on the dead-end-input graph. -/
def zeroTape : Tape :=
  match compute zeroM [("x", .num 7), ("w", .num 9)] (.one "c") true with
  | .ok (_, some t) => t
  | _ => { model := emptyModel, records := [] }

/-- The reverse-derivative graph of the dead-end-input tape. -/
def zeroVjpM : ModelState :=
  match vjp zeroTape with
  | .ok m => m
  | .error _ => emptyModel

/-! ### The fan-out accumulation law of `vjp`: definitions -/

/-- The reference ordinals recorded for the symbol with identity `vs`
among a node's input arguments, in argument order
(`node.varin_info[argname]` for each occurrence of the symbol). -/
def ordsOf (vs : Nat) (nd : Node) : List Nat :=
  nd.varin.filterMap (fun p =>
    if p.2.sid = vs then dget nd.varinInfo p.1 else none)

/-- The reference ordinals of `vs` along the whole tape, in record and
argument order. -/
def tapeOrds (tape : Tape) (vs : Nat) : List Nat :=
  tape.records.flatMap (fun r => ordsOf vs r.node)

/-- The per-record ordinal groups of `vs`, records without an
occurrence dropped. -/
def tapeGroups (tape : Tape) (vs : Nat) : List (List Nat) :=
  (tape.records.map (fun r => ordsOf vs r.node)).filter (fun l => !l.isEmpty)

/-- The private partial-adjoint name `var.vjp_name + '#%d' % ref_id`. -/
def privName (n : String) (j : Nat) : String :=
  vjpName n ++ "#" ++ toString j

/-- The reverse-adjoint names of a symbol named `n` with reference
count `k`: the canonical adjoint name and the private partial names of
the ordinals `1..k`. -/
def advNames (n : String) (k : Nat) : List String :=
  vjpName n :: (List.range' 1 k).map (privName n)

/-- The context name the occurrence with ordinal `j` writes: the
canonical adjoint name for the largest ordinal `k`, the private partial
name otherwise. -/
def wName (n : String) (k j : Nat) : String :=
  if j = k then vjpName n else privName n j

/-- Whether a node writes any of the reverse-adjoint names of `n`
(i.e. some output symbol carries such a name). -/
def touchesN (n : String) (k : Nat) (nd : Node) : Bool :=
  nd.varout.any (fun p =>
    match p.2.name with
    | some nm => (advNames n k).contains nm
    | none => false)

/-- Membership of a context write in the adjoint names of `n`. -/
def inN (n : String) (k : Nat) (w : String × Value) : Bool :=
  (advNames n k).contains w.1

/-- The values written under a given name, in order. -/
def histAt (h : List (String × Value)) (nm : String) : List Value :=
  (h.filter (fun w => w.1 = nm)).map (fun w => w.2)

/-- One step of the adjoint-accumulation schedule of a symbol: `w` — a
reverse-primitive node writing the partial adjoints with the given
ordinals (under the canonical name for the largest ordinal, under
private names otherwise); `a` — an `add` node folding the private
partial of the given ordinal into the canonical total; `e` — the
output-marking `terminal` node echoing the final total. -/
inductive VTag where
  | w (tags : List Nat)
  | a (j : Nat)
  | e
deriving DecidableEq, Repr

/-- The schedule block of one record with occurrence ordinals `G`: the
reverse node's writes, then one `add` per non-largest ordinal. -/
def blockStream (k : Nat) (G : List Nat) : List VTag :=
  .w G :: (G.filter (fun j => j ≠ k)).map .a

/-- The full accumulation schedule of a symbol along a tape: the
per-record blocks in reverse record order (the reverse walk), then the
echo when the symbol is a declared input (the output-marking phase). -/
def streamOf (tape : Tape) (vs : Nat) (k : Nat) : List VTag :=
  (tapeGroups tape vs).reverse.flatMap (blockStream k)
    ++ (if tape.model.vin.any (fun w => w.sid = vs) then [.e] else [])

/-- The non-largest ordinals in processing order (the order in which
the private partials are folded into the running total). -/
def procOrds (tape : Tape) (vs k : Nat) : List Nat :=
  (tapeGroups tape vs).reverse.flatMap (fun G => G.filter (fun j => j ≠ k))

/-- No duplicate elements (Boolean). -/
def nodupB : List Nat → Bool
  | [] => true
  | x :: t => !(t.contains x) && nodupB t

/-- Schedule sanity, tracked along the stream: `c` — the canonical
total has been written; `pend` — ordinals written to their private
name but not yet folded; `seen` — all ordinals written so far.  A `w`
step may only write fresh distinct ordinals; an `a` step requires the
canonical total and a pending private partial; `e` requires the
canonical total. -/
def streamOK (k : Nat) : List VTag → Bool → List Nat → List Nat → Bool
  | [], _, _, _ => true
  | .w G :: r, c, pend, seen =>
      G.all (fun j => !(seen.contains j)) && nodupB G
        && streamOK k r (c || G.contains k)
            (pend ++ G.filter (fun j => j ≠ k)) (seen ++ G)
  | .a j :: r, c, pend, seen =>
      c && pend.contains j && streamOK k r c (pend.erase j) seen
  | .e :: r, c, pend, seen => c && streamOK k r c pend seen

/-- Every ordinal mentioned by a stream lies in `1..k`. -/
def streamTagsOK (k : Nat) : List VTag → Bool
  | [] => true
  | .w G :: r => G.all (fun j => (List.range' 1 k).contains j) && streamTagsOK k r
  | .a j :: r => (List.range' 1 k).contains j && streamTagsOK k r
  | .e :: r => streamTagsOK k r

/-- The run state of an accumulation schedule: the current canonical
total (once written) and the pending private partials by ordinal. -/
abbrev AccState := Option Value × List (Nat × Value)

/-- The canonical total after a `w` step: the value tagged with the
largest ordinal `k` when present, the previous total otherwise. -/
def updCur (k : Nat) (l : List (Nat × Value)) (c : Option Value) : Option Value :=
  match l.lookup k with
  | some v => some v
  | none => c

/-- The semantics of an accumulation schedule, relating the schedule to
the exact sequence of context writes performed under the adjoint names:
a `w` step writes one (arbitrary) partial per ordinal — private names,
the canonical name for ordinal `k`; an `a` step adds a pending private
partial to the current total and writes the new total to the canonical
name; `e` re-writes the current total.  `StreamRun n k stream s s' ws`
reads: running `stream` from accumulation state `s` ends in state `s'`
and performs exactly the adjoint-name writes `ws`. -/
inductive StreamRun (n : String) (k : Nat) :
    List VTag → AccState → AccState → List (String × Value) → Prop where
  | nil (s : AccState) : StreamRun n k [] s s []
  | wr (G : List Nat) (vals : List Value) (rest : List VTag)
      (s sF : AccState) (h : List (String × Value))
      (hlen : vals.length = G.length)
      (hrest : StreamRun n k rest
        (updCur k (G.zip vals) s.1,
         s.2 ++ (G.zip vals).filter (fun q => q.1 ≠ k)) sF h) :
      StreamRun n k (.w G :: rest) s sF
        (((G.zip vals).map (fun q => (wName n k q.1, q.2))) ++ h)
  | acc (j : Nat) (rest : List VTag) (t pj t' : Value)
      (p : List (Nat × Value)) (sF : AccState) (h : List (String × Value))
      (hp : p.lookup j = some pj)
      (hadd : pyAdd t pj = .ok t')
      (hrest : StreamRun n k rest
        (some t', p.filter (fun q => q.1 ≠ j)) sF h) :
      StreamRun n k (.a j :: rest) (some t, p) sF ((vjpName n, t') :: h)
  | echo (rest : List VTag) (t : Value) (p : List (Nat × Value))
      (sF : AccState) (h : List (String × Value))
      (hrest : StreamRun n k rest (some t, p) sF h) :
      StreamRun n k (.e :: rest) (some t, p) sF ((vjpName n, t) :: h)

/-- `Chain t qs l`: starting from the total `t`, adding the partials
`qs` in order succeeds and produces the successive totals `l`. -/
inductive Chain : Value → List Value → List Value → Prop where
  | nil (t : Value) : Chain t [] []
  | cons (t q t' : Value) (qs l : List Value)
      (hadd : pyAdd t q = .ok t') (hrest : Chain t' qs l) :
      Chain t (q :: qs) (t' :: l)

/-- The facts the emission phase establishes about one scheduled node:
its shape ties it to its schedule step, and its result is used (so the
execution loop runs it rather than skipping it). -/
def vTagFact (stM : ModelState) (n : String) (k : Nat) : Node → VTag → Prop
  | nd, .w G =>
      resultUsed stM nd = true
      ∧ nd.op ≠ .addO ∧ nd.op ≠ .terminalO
      ∧ (nd.varout.filterMap (fun p => p.2.name)).filter
          (fun nm => (advNames n k).contains nm) = G.map (wName n k)
  | nd, .a j =>
      resultUsed stM nd = true ∧ nd.op = .addO
      ∧ ∃ s1 s2 sy, nd.varin = [("x1", s1), ("x2", s2)]
          ∧ s1.kind = .plain ∧ s1.name = some (vjpName n)
          ∧ s2.kind = .plain ∧ s2.name = some (privName n j)
          ∧ nd.varout = [("y", sy)] ∧ sy.name = some (vjpName n)
  | nd, .e =>
      nd.op = .terminalO
      ∧ ∃ sx sy, nd.varin = [("x", sx)]
          ∧ sx.kind = .plain ∧ sx.name = some (vjpName n)
          ∧ nd.varout = [("y", sy)] ∧ sy.name = some (vjpName n)

/-- The last value written under a name, falling back to the initial
context when the name was never written. -/
def lastVal (init : Ctx) (h : List (String × Value)) (nm : String) :
    Option Value :=
  match (histAt h nm).getLast? with
  | some v => some v
  | none => dget init nm

/-- Context consistency: every value present in the context is the last
write under its name, or the initial value when the name was never
written. -/
def CtxInv (init : Ctx) (ctx : Ctx) (h : List (String × Value)) : Prop :=
  ∀ nm v, dget ctx nm = some v → lastVal init h nm = some v

/-- The execution-phase invariant tying the accumulation state to the
adjoint-name write history: the canonical entry matches the last
canonical write, every pending private partial has been written exactly
once, unseen ordinals are unwritten, and the pending ordinals are
distinct and seen. -/
def AccMatch (n : String) (k : Nat) (h : List (String × Value))
    (s : AccState) (seen : List Nat) : Prop :=
  (match s.1 with
   | some t => (histAt h (vjpName n)).getLast? = some t
   | none => histAt h (vjpName n) = [])
  ∧ (∀ q ∈ s.2, histAt h (privName n q.1) = [q.2])
  ∧ (∀ j, j ∈ List.range' 1 k → ¬ j ∈ seen → histAt h (privName n j) = [])
  ∧ nodupB (s.2.map (fun q => q.1)) = true
  ∧ (∀ q ∈ s.2, q.1 ∈ seen)
  ∧ (∀ j ∈ seen, j ∈ List.range' 1 k)

/-- The nodes recorded on a tape. -/
def tapeNodes (tape : Tape) : List Node :=
  tape.records.map (fun r => r.node)

/-- All symbols the reverse transform of a tape can encounter: the
recorded nodes' input and output symbols and the original model's
declared inputs and outputs. -/
def tapeSyms (tape : Tape) : List Sym :=
  (tapeNodes tape).flatMap (fun nd =>
      nd.varin.map (fun p => p.2) ++ nd.varout.map (fun p => p.2))
    ++ tape.model.vin ++ tape.model.vout

/-- All reference ordinals recorded on the tape's nodes (the pool of
possible private-name suffixes of any symbol). -/
def infoVals (tape : Tape) : List Nat :=
  (tapeNodes tape).flatMap (fun nd => nd.varinInfo.map (fun p => p.2))

/-- The class names of the node kinds the reverse transform constructs
(the bases of potential automatically generated output-symbol names,
which always contain `'@'`). -/
def vjpKlsNames : List String :=
  ["terminal", "add", "terminal-vjp", "add-vjp", "mul-vjp", "to_scalar-vjp"]

/-- The output argument names of the node kinds the reverse transform
constructs. -/
def vjpAoutArgs : List String := ["y", "_x", "_x1", "_x2"]

/-- An upper bound on the `unique_name` counter values the reverse
transform can reach: at most three nodes per record (the reverse node
and up to two `add` nodes) plus one marking `terminal` per declared
input. -/
def counterBound (tape : Tape) : Nat :=
  3 * tape.records.length + tape.model.vin.length

/-- A placeholder tape record. -/
def dummyRec : TapeRec := { node := dummyNode, implKwargs := [] }

/-- A producing record ordered before every consuming record: some
record outputs the symbol, and no record up to and including it
consumes it — so the reverse walk processes the producer after every
occurrence, and the producer's reverse node references the final
accumulated total (keeping it alive for the execution loop). -/
def prodOKb (tape : Tape) (vs : Nat) : Bool :=
  (List.range tape.records.length).any (fun i =>
    ((tape.records.getD i dummyRec).node.varout.any (fun p => p.2.sid = vs))
    && (List.range (i + 1)).all (fun j =>
        (ordsOf vs (tape.records.getD j dummyRec).node).isEmpty))

/-- The well-formedness hypotheses of the general accumulation theorem,
as one decidable check over the tape and the symbol: the symbol is a
named plain symbol; its recorded occurrence ordinals along the tape are
exactly `1..k` for `k` its reference count, with `k ≥ 1`; symbol
identities are consistent (one object per `sid`); every recorded node
is a forward primitive with canonically keyed argument lists; records
hold resolved values keyed by the input arguments; the symbol is a
declared input or has a producing record before all consuming records;
the symbol is not itself a declared output; the adjoint names derived
from every other symbol avoid the symbol's own adjoint names; the
symbol's adjoint names are pairwise distinct; and the auto-generated
output names of the reverse primitives avoid them as well. -/
def accHypsB (tape : Tape) (v : Sym) (n : String) : Bool :=
  let k := refcount tape.model v.sid
  decide (v.kind = .plain) && decide (v.name = some n)
  && decide (tapeOrds tape v.sid = List.range' 1 k) && decide (1 ≤ k)
  && (tapeSyms tape).all (fun s => !decide (s.sid = v.sid) || decide (s = v))
  && (tapeNodes tape).all (fun nd =>
        (oprToVjp nd.op).isSome
        && decide (nd.varin.map (fun p => p.1) = (prim nd.op).ain)
        && decide (nd.varinInfo.map (fun p => p.1) = (prim nd.op).ain)
        && decide (nd.varout.map (fun p => p.1) = (prim nd.op).aout))
  && tape.records.all (fun r =>
        decide (r.implKwargs.map (fun p => p.1)
          = r.node.varin.map (fun p => p.1)))
  && (tapeNodes tape).all (fun nd =>
        decide ((nd.kwargs.map (fun p => p.1)).Nodup))
  && (tape.model.vin.any (fun w => w.sid = v.sid) || prodOKb tape v.sid)
  && tape.model.vout.all (fun w => !decide (w.sid = v.sid))
  && (tapeSyms tape).all (fun s =>
        decide (s.sid = v.sid)
        || (match s.name with
            | none => true
            | some nw =>
                !((advNames n k).contains (vjpName nw))
                && (infoVals tape).all (fun j =>
                      !((advNames n k).contains (privName nw j)))))
  && decide ((advNames n k).Nodup)
  && (List.range (counterBound tape)).all (fun c =>
        vjpKlsNames.all (fun b =>
          vjpAoutArgs.all (fun a =>
            !((advNames n k).contains (b ++ "@" ++ toString (c + 1) ++ "-" ++ a)))))

/-- Well-formedness of the symbol table: `Model.define` only ever
registers a fresh plain symbol under its own name, so every `_syms`
entry is a plain symbol named by its key. -/
def SymsWF (st : ModelState) : Prop :=
  ∀ nm s, dget st.syms nm = some s → s.kind = .plain ∧ s.name = some nm

/-- The shape half of `vTagFact` (everything except the liveness of the
node's result, which is only settled once the whole reverse model is
assembled). -/
def vTagShape (n : String) (k : Nat) : Node → VTag → Prop
  | nd, .w G =>
      nd.op ≠ .addO ∧ nd.op ≠ .terminalO
      ∧ (nd.varout.filterMap (fun p => p.2.name)).filter
          (fun nm => (advNames n k).contains nm) = G.map (wName n k)
  | nd, .a j =>
      nd.op = .addO
      ∧ ∃ s1 s2 sy, nd.varin = [("x1", s1), ("x2", s2)]
          ∧ s1.kind = .plain ∧ s1.name = some (vjpName n)
          ∧ s2.kind = .plain ∧ s2.name = some (privName n j)
          ∧ nd.varout = [("y", sy)] ∧ sy.name = some (vjpName n)
  | nd, .e =>
      nd.op = .terminalO
      ∧ ∃ sx sy, nd.varin = [("x", sx)]
          ∧ sx.kind = .plain ∧ sx.name = some (vjpName n)
          ∧ nd.varout = [("y", sy)] ∧ sy.name = some (vjpName n)

/-- The pending-liveness bookkeeping of the reverse walk: every emitted
adjoint-chain node either already has a referenced output or outputs
the current accumulation head `H` (whose reference arrives with the
next chain consumer). -/
def PendD (n : String) (k : Nat) (st : ModelState) (H : Sym) : Prop :=
  ∀ nd ∈ st.nodes.filter (touchesN n k),
    nd.varout.any (fun q => hasReference st q.2.sid) = true
    ∨ ∃ a, (a, H) ∈ nd.varout

/-- The walk invariant of the emission phase: a well-formed symbol
table, the adjoint-touching nodes realise the blocks of the processed
ordinal groups, and once a block exists the canonical name holds the
accumulation head, with the pending-liveness bookkeeping. -/
def EmitInv (n : String) (k : Nat) (st : ModelState)
    (groups : List (List Nat)) : Prop :=
  SymsWF st
  ∧ List.Forall₂ (vTagShape n k) (st.nodes.filter (touchesN n k))
      (groups.flatMap (blockStream k))
  ∧ (groups ≠ [] → ∃ H, getSym st (vjpName n) = some H ∧ PendD n k st H)

/-- The per-record well-formedness facts of a tape record, as the
reverse walk needs them: the node is a forward primitive with
canonically keyed argument lists and recorded values, every occurrence
of the tracked symbol is the one tracked object, the adjoint names
derived from the other input symbols avoid the tracked symbol's adjoint
names, and the recorded occurrence ordinals are distinct and lie in
`1..k`. -/
def RecOK (vs : Nat) (n : String) (k : Nat) (r : TapeRec) : Prop :=
  (oprToVjp r.node.op).isSome = true
  ∧ r.node.varin.map (fun p => p.1) = (prim r.node.op).ain
  ∧ r.node.varinInfo.map (fun p => p.1) = (prim r.node.op).ain
  ∧ r.node.varout.map (fun p => p.1) = (prim r.node.op).aout
  ∧ r.implKwargs.map (fun p => p.1) = r.node.varin.map (fun p => p.1)
  ∧ (r.node.kwargs.map (fun p => p.1)).Nodup
  ∧ (∀ q ∈ r.node.varin, q.2.sid = vs →
      q.2.kind = .plain ∧ q.2.name = some n)
  ∧ (∀ q ∈ r.node.varout, q.2.sid = vs →
      q.2.kind = .plain ∧ q.2.name = some n)
  ∧ (∀ q ∈ r.node.varin, ¬ q.2.sid = vs → ∀ nw, q.2.name = some nw →
      (advNames n k).contains (vjpName nw) = false
      ∧ ∀ j, dget r.node.varinInfo q.1 = some j →
          (advNames n k).contains (privName nw j) = false)
  ∧ nodupB (ordsOf vs r.node) = true
  ∧ (∀ j, j ∈ ordsOf vs r.node → j ∈ List.range' 1 k)

/-- Every adjoint-touching node's result is used (so the execution loop
runs each of them). -/
def AllUsed (n : String) (k : Nat) (st : ModelState) : Prop :=
  ∀ nd ∈ st.nodes.filter (touchesN n k),
    resultUsed st nd = true

/-- The nonempty occurrence-ordinal groups of a record list, in list
order. -/
def walkGroups (vs : Nat) (RL : List TapeRec) : List (List Nat) :=
  (RL.map (fun r => ordsOf vs r.node)).filter (fun l => !l.isEmpty)

/-- The canonical-name discipline along a record list: the first record
with occurrences carries the largest ordinal `k` (so the reverse walk
binds the canonical adjoint name first), and no later record does.  The
flag records whether the canonical block has already been processed. -/
def kseq (vs k : Nat) : List TapeRec → Bool → Bool
  | [], _ => true
  | r :: t, c =>
      if (ordsOf vs r.node).isEmpty then kseq vs k t c
      else if c then !((ordsOf vs r.node).contains k) && kseq vs k t true
      else (ordsOf vs r.node).contains k && kseq vs k t true

/-- The triple-fan graph: input `a`, `t = add(x1=a, x2=a)`,
`u = mul(x1=a, x2=3)`, outputs `c = t` and `d = u`; the symbol `a` has
reference count 3 spread over two consuming nodes. -/
def tri0 : ModelState × Sym := inputOne emptyModel "a"

/-- The triple-fan graph: the node `t = add(x1=a, x2=a)`. -/
def tri1 : ModelState × Except Err Node :=
  construct .addO [.kw "x1" (.sym tri0.2), .kw "x2" (.sym tri0.2)] tri0.1

/-- The `add` node of the triple-fan graph. -/
def triAddNode : Node :=
  match tri1.2 with
  | .ok n => n
  | .error _ => dummyNode

/-- The triple-fan graph: the node `u = mul(x1=a, x2=3)`. -/
def tri2 : ModelState × Except Err Node :=
  construct .mulO [.kw "x1" (.sym tri0.2), .kw "x2" (.val (.num 3))] tri1.1

/-- The `mul` node of the triple-fan graph. -/
def triMulNode : Node :=
  match tri2.2 with
  | .ok n => n
  | .error _ => dummyNode

/-- The triple-fan graph: mark `c = t` as an output. -/
def tri3 : ModelState × Except Err Unit := outputOne tri2.1 "c" (.nd triAddNode)

/-- The triple-fan graph: mark `d = u` as an output. -/
def tri4 : ModelState × Except Err Unit := outputOne tri3.1 "d" (.nd triMulNode)

/-- The completed triple-fan graph. -/
def triM : ModelState := tri4.1

/-- The tape recorded by computing `c, d` on the triple-fan graph with
`a = 5`. -/
def triTape : Tape :=
  match compute triM [("a", .num 5)] (.list ["c", "d"]) true with
  | .ok (_, some t) => t
  | _ => { model := emptyModel, records := [] }

/-- The reverse-derivative graph of the triple-fan tape. -/
def triVjpM : ModelState :=
  match vjp triTape with
  | .ok m => m
  | .error _ => emptyModel

/-- The seed context of the triple-fan reverse run: `_c = 1`,
`_d = 10`. -/
def triInit : Ctx := [("_c", .num 1), ("_d", .num 10)]

/-- The execution state after running the triple-fan reverse graph. -/
def triRun : ExecState :=
  match computeLoop triVjpM triVjpM.nodes (initState triInit) with
  | .ok es => es
  | .error _ => { ctx := [], rdict := [], recs := [], hist := [] }

/-! ## Theorems -/

/-- C3: for the Graph `y = mul(x, 1.0); c = to_scalar(y)` over
`x = [0..9]`: `compute` returns `c = 285` and the reverse transform at
`_c = 1` returns `_x = [0, 2, ..., 18]`, as the claim states — but the
forward transform at the tangent `x_ = e_1` returns the *vector*
`2 * e_1 * x = [0, 2, 0, ..., 0]`, not the scalar `2 * x[1] = 2` the
claim (and the repository's own `BaseScalarTest.test_jvp_finite`)
expects: `to_scalar.jvp` in `lib/linalg.py` omits the `.sum()`. -/
theorem scenario_compute_vjp_jvp :
    compute scenM scenInit (.one "c") false
      = .ok (.one (.num 285), none)
    ∧ compute scenVjpM [("_c", .num 1)] (.one "_x") false
      = .ok (.one (.vec [0, 2, 4, 6, 8, 10, 12, 14, 16, 18]), none)
    ∧ compute scenJvpM [("x_", unitVec 1)] (.one "c_") false
      = .ok (.one (.vec [0, 2, 0, 0, 0, 0, 0, 0, 0, 0]), none)
    ∧ Value.vec [0, 2, 0, 0, 0, 0, 0, 0, 0, 0] ≠ Value.num 2 := by
  refine ⟨by decide, by decide, by decide, by decide⟩

/-- C1 (counterexample): on the dead-node graph (`x` input, an unused
`mul` node, output `c = x`), `compute` with tape recording succeeds but
the tape holds one record while the graph has two nodes — the unused
`mul` node is skipped entirely and no `(node, resolved-inputs)` record
is appended for it, so the tape does *not* contain one record per node
of the Graph. -/
theorem tape_skips_unused_node :
    deadM.nodes.length = 2
    ∧ compute deadM [("x", .num 5)] (.one "c") true
        = .ok (.one (.num 5), some deadTape)
    ∧ deadTape.records.length = 1
    ∧ deadTape.records.map (fun r => r.node.nid)
        ≠ deadM.nodes.map (fun n => n.nid) := by
  refine ⟨by decide, by decide, by decide, by decide⟩

/-- C2 (counterexample): on the dead-node tape, the symbol `y`
(`mul@1-y`) is consumed by `k = 0` nodes, yet in the graph produced by
`vjp` its canonical reverse-adjoint name `_mul@1-y` is not bound at
all — it is not in the symbol table, never written during execution and
not a declared output — rather than being bound to the additive
identity; and the input `x` is consumed by `k = 2` nodes, yet no
private partial-adjoint name `_x#1` exists and no addition node is
emitted (the `mul` consumer is absent from the tape), so the adjoint
written to `_x` is the single `terminal` partial `1`, not a sum of two
per-consumer partials. -/
theorem vjp_accumulation_counterexample :
    vjp deadTape = .ok deadVjpM
    ∧ deadYSym.name = some "mul@1-y"
    ∧ refcount deadM deadYSym.sid = 0
    ∧ hasSym deadVjpM (vjpName "mul@1-y") = false
    ∧ deadVjpM.vout.map Sym.name = [some "_x"]
    ∧ computeLoop deadVjpM deadVjpM.nodes
        { ctx := [("_c", .num 1)], rdict := [], recs := [], hist := [] }
        = .ok deadVjpRun
    ∧ deadVjpRun.hist.filter (fun p => p.1 = vjpName "mul@1-y") = []
    ∧ refcount deadM dead0.2.sid = 2
    ∧ hasSym deadVjpM "_x#1" = false
    ∧ (deadVjpM.nodes.filter (fun n => n.op = .addO)).length = 0
    ∧ compute deadVjpM [("_c", .num 1)] (.one "_x") false
        = .ok (.one (.num 1), none) := by
  refine ⟨by decide, by decide, by decide, by decide, by decide, by decide,
    by decide, by decide, by decide, by decide, by decide⟩

/-- C6 (counterexample): executing a graph whose required input `a` is
absent from the context fails with Python's `KeyError`
(`Symbol.resolve` is `return context[self.name]`), which is neither
`ResolveError` nor any error of the engine taxonomy — `ResolveError` is
declared in `error.py` but never raised. -/
theorem resolve_missing_raises_keyerror :
    compute twoM [] (.one "c") false = .error .keyError
    ∧ Err.keyError ≠ Err.resolveError
    ∧ Err.keyError.isModelError = false := by
  refine ⟨by decide, by decide, by decide⟩

/-- C7 (counterexample): declaring the output name `c` a second time
fails with an instance of the bare `ModelError` base class
(`raise ModelError(...)` in `Model.output`), not with the
`DuplicatedOutput` subclass, and leaves the model state (in particular
the declared outputs) unchanged. -/
theorem duplicate_output_raises_base_modelerror :
    outputOne two2.1 "c" (.sym two0.2) = (two2.1, .error .modelError)
    ∧ Err.modelError ≠ Err.duplicatedOutput := by
  refine ⟨by decide, by decide⟩

/-- C8 (counterexample): supplying a positional argument to a node
construction fails with Python's `TypeError` — raised by the
`__init__(self, **kwargs)` calling convention before the body runs —
not with `BadArgument`, which does not exist in `error.py`; the error
is not part of the engine's taxonomy and the state is untouched. -/
theorem positional_arg_raises_typeerror :
    construct .addO
        [.pos (.val (.num 1)), .kw "x1" (.val (.num 1)),
         .kw "x2" (.val (.num 2))] two0.1
      = (two0.1, .error .typeError)
    ∧ Err.typeError.isModelError = false := by
  refine ⟨by decide, by decide⟩

/-- C8 (amended): for every node kind, every argument list containing
at least one positional argument and every model state, node
construction fails with Python's `TypeError` (only keyword-addressed
arguments are accepted), leaving the state unchanged. -/
theorem construct_positional_typeerror (op : OpId) (args : List CallArg)
    (st : ModelState)
    (h : args.any (fun a => match a with
      | .pos _ => true
      | .kw _ _ => false) = true) :
    construct op args st = (st, .error .typeError) := by
  unfold construct
  rw [if_pos h]

/-- Witness for `construct_positional_typeerror` at a concrete call. -/
theorem construct_positional_typeerror_witness :
    construct .mulO [.pos (.val (.num 3))] emptyModel
      = (emptyModel, .error .typeError) :=
  construct_positional_typeerror .mulO [.pos (.val (.num 3))] emptyModel
    (by decide)

/-- C7 (amended): for every model state, every name already recorded as
a declared output and every supplied value, a further `output` call for
that name fails with the bare `ModelError`, and the state — hence the
set of declared outputs — is exactly unchanged. -/
theorem output_duplicate_base_modelerror (st : ModelState) (n : String)
    (v : ArgVal) (h : st.vout.any (fun s => s.name = some n) = true) :
    outputOne st n v = (st, .error .modelError)
    ∧ (outputOne st n v).1.vout = st.vout := by
  unfold outputOne
  rw [if_pos h]
  exact ⟨rfl, rfl⟩

/-- Witness for `output_duplicate_base_modelerror` at a concrete
model. -/
theorem output_duplicate_base_modelerror_witness :
    outputOne twoM "d" (.sym two0.2) = (twoM, .error .modelError) :=
  (output_duplicate_base_modelerror twoM "d" (.sym two0.2)
    (by decide)).1

/-- C9: `compute` is deterministic — all the embedded node procedures
are side-effect-free functions, and two executions of the same graph
from equal initial contexts with the same requested outputs and tape
recording yield equal values and tapes of equal length with the same
recorded node sequence. -/
theorem compute_deterministic (st : ModelState) (init : Ctx)
    (vreq : VoutReq) (r1 r2 : RetVal) (t1 t2 : Tape)
    (h1 : compute st init vreq true = .ok (r1, some t1))
    (h2 : compute st init vreq true = .ok (r2, some t2)) :
    r1 = r2 ∧ t1.records.length = t2.records.length
    ∧ t1.records.map (fun r => r.node) = t2.records.map (fun r => r.node) := by
  have h := h1.symm.trans h2
  injection h with h
  injection h with hr ht
  injection ht with ht
  subst hr
  subst ht
  exact ⟨rfl, rfl, rfl⟩

/-- Witness for `compute_deterministic` on the two-output graph. -/
theorem compute_deterministic_witness :
    compute twoM [("a", .num 3)] (.one "c") true
      = .ok (.one (.num 3), some twoTape)
    ∧ RetVal.one (.num 3) = RetVal.one (.num 3)
    ∧ twoTape.records.length = twoTape.records.length
    ∧ twoTape.records.map (fun r => r.node)
        = twoTape.records.map (fun r => r.node) := by
  have h : compute twoM [("a", .num 3)] (.one "c") true
      = .ok (.one (.num 3), some twoTape) := by decide
  have h2 := compute_deterministic twoM [("a", .num 3)] (.one "c")
    (.one (.num 3)) (.one (.num 3)) twoTape twoTape h h
  exact ⟨h, h2.1 ▸ rfl, h2.2.1, h2.2.2⟩

/-- `bind` on a successful `Except` computation. -/
theorem except_bind_ok {ε α β : Type _} (v : α) (f : α → Except ε β) :
    (Except.ok v >>= f) = f v := rfl

/-- `bind` on a failed `Except` computation. -/
theorem except_bind_err {ε α β : Type _} (e : ε) (f : α → Except ε β) :
    ((Except.error e : Except ε α) >>= f) = .error e := rfl

/-- `bind` on a thrown `Except` computation. -/
theorem except_throw_bind {ε α β : Type _} (e : ε) (f : α → Except ε β) :
    ((throw e : Except ε α) >>= f) = .error e := rfl

/-- A thrown `Except` computation is an error. -/
theorem except_throw_eq {ε α : Type _} (e : ε) :
    (throw e : Except ε α) = .error e := rfl

/-- A plain named symbol absent from the context resolves to
`KeyError`. -/
theorem resolveSym_plain_missing (ctx : Ctx) (s : Sym) (nm : String)
    (hk : s.kind = .plain) (hn : s.name = some nm)
    (hc : dget ctx nm = none) :
    resolveSym ctx s = .error .keyError := by
  unfold resolveSym
  unfold dget at hc
  rw [hk, hn]
  simp only [hc]

/-- If every input before a given one resolves and that one raises
`KeyError`, the whole input resolution raises `KeyError`. -/
theorem resolveVarin_keyerror (ctx : Ctx) (a : String) (s : Sym)
    (rest : List (String × Sym)) (pre : List (String × Sym))
    (hpre : ∀ p ∈ pre, ∃ v, resolveSym ctx p.2 = .ok v)
    (hs : resolveSym ctx s = .error .keyError) :
    resolveVarin ctx (pre ++ (a, s) :: rest) = .error .keyError := by
  induction pre with
  | nil =>
      simp only [List.nil_append, resolveVarin, hs, except_bind_err]
  | cons p t ih =>
      obtain ⟨v, hv⟩ := hpre p (List.mem_cons_self p t)
      have ht : ∀ q ∈ t, ∃ v, resolveSym ctx q.2 = .ok v :=
        fun q hq => hpre q (List.mem_cons_of_mem p hq)
      simp only [List.cons_append, resolveVarin, hv, except_bind_ok,
        List.append_eq, ih ht, except_bind_err]

/-- C6 (amended): if a node has a required input whose plain symbol
name is absent from the context (all earlier inputs resolving), then
`Context.execute` on that node fails with Python's `KeyError`, and so
does the surrounding `compute` node loop when it reaches that node with
its result in use. -/
theorem execute_missing_input_keyerror (n : Node) (ctx : Ctx)
    (pre : List (String × Sym)) (a : String) (s : Sym)
    (rest : List (String × Sym)) (nm : String)
    (hsplit : n.varin = pre ++ (a, s) :: rest)
    (hpre : ∀ p ∈ pre, ∃ v, resolveSym ctx p.2 = .ok v)
    (hk : s.kind = .plain) (hn : s.name = some nm)
    (hc : dget ctx nm = none) :
    execNode n ctx = .error .keyError
    ∧ ∀ st nodes es, resultUsed st n = true → es.ctx = ctx →
        computeLoop st (n :: nodes) es = .error .keyError := by
  have hres : resolveVarin ctx n.varin = .error .keyError := by
    rw [hsplit]
    exact resolveVarin_keyerror ctx a s rest pre hpre
      (resolveSym_plain_missing ctx s nm hk hn hc)
  have hexec : execNode n ctx = .error .keyError := by
    unfold execNode
    rw [hres]
    rfl
  refine ⟨hexec, fun st nodes es hused hctx => ?_⟩
  unfold computeLoop
  rw [hused]
  simp only [if_true, hctx, hexec, Except.bind]
  rfl

/-- Witness for `execute_missing_input_keyerror`: the `add` node of the
two-output graph executed on the empty context. -/
theorem execute_missing_input_keyerror_witness :
    execNode twoAddNode [] = .error .keyError :=
  (execute_missing_input_keyerror twoAddNode [] [] "x1" two0.2
    (twoAddNode.varin.drop 1) "a" (by decide)
    (fun p hp => absurd hp (List.not_mem_nil p))
    (by decide) (by decide) (by decide)).1

/-- `refcount` reads only the reference list, which `defineSym` leaves
untouched. -/
theorem refcount_defineSym (st : ModelState) (n : String) (sid : Nat) :
    refcount (defineSym st n).1 sid = refcount st sid := rfl

/-- Appending one reference entry can only grow a reference count. -/
theorem refcount_le_refs_append (st : ModelState) (p : Nat × Nat) (sid : Nat) :
    refcount st sid ≤ refcount { st with refs := st.refs ++ [p] } sid := by
  unfold refcount
  simp only [List.filter_append, List.length_append]
  exact Nat.le_add_right _ _

/-- The input-argument loop leaves the node list unchanged and never
shrinks a reference count. -/
theorem ainLoop_nodes_refs (nid : Nat) (kwargs : List (String × ArgVal)) :
    ∀ (l : List String) (st : ModelState) (varin : List (String × Sym))
      (vinfo : List (String × Nat)),
      (ainLoop nid kwargs l st varin vinfo).1.nodes = st.nodes
      ∧ ∀ sid, refcount st sid
          ≤ refcount (ainLoop nid kwargs l st varin vinfo).1 sid := by
  intro l
  induction l with
  | nil => intro st varin vinfo; exact ⟨rfl, fun _ => Nat.le_refl _⟩
  | cons a t ih =>
      intro st varin vinfo
      unfold ainLoop
      cases hv : dget kwargs a with
      | none => exact ⟨rfl, fun _ => Nat.le_refl _⟩
      | some av =>
          cases av with
          | sym s =>
              simp only [makeSymbolArg]
              refine ⟨(ih _ _ _).1, fun sid => Nat.le_trans ?_ ((ih _ _ _).2 sid)⟩
              exact refcount_le_refs_append st (s.sid, nid) sid
          | val v =>
              simp only [makeSymbolArg, mkLiteral, allocSym]
              refine ⟨(ih _ _ _).1, fun sid => Nat.le_trans ?_ ((ih _ _ _).2 sid)⟩
              exact refcount_le_refs_append _ _ sid
          | nd n =>
              simp only [makeSymbolArg]
              by_cases h : n.varout.length > 1
              · simp only [if_pos h]
                exact ⟨by trivial, fun _ => Nat.le_refl _⟩
              · simp only [if_neg h]
                cases n.varout with
                | nil => exact ⟨by trivial, fun _ => Nat.le_refl _⟩
                | cons p t' =>
                    refine ⟨(ih _ _ _).1,
                      fun sid => Nat.le_trans ?_ ((ih _ _ _).2 sid)⟩
                    exact refcount_le_refs_append st (p.2.sid, nid) sid

/-- The output-argument loop: when every supplied output argument is a
symbol and some supplied output symbol already has a reference, the
loop fails with `OverwritePrecaution` and appends no node. -/
theorem aoutLoop_overwrite (nodeName : String)
    (kwargs : List (String × ArgVal)) :
    ∀ (l : List String) (st : ModelState) (acc : List (String × Sym)),
      (l.all fun a => match dget kwargs a with
        | some (.sym _) => true
        | none => true
        | some _ => false) = true →
      (l.any fun a => match dget kwargs a with
        | some (.sym s) => hasReference st s.sid
        | _ => false) = true →
      ∃ st', aoutLoop nodeName kwargs l st acc
          = (st', .error .overwritePrecaution) ∧ st'.nodes = st.nodes := by
  intro l
  induction l with
  | nil => intro st acc _ hoff; simp at hoff
  | cons a t ih =>
      intro st acc hall hoff
      rw [List.all_cons, Bool.and_eq_true] at hall
      rw [List.any_cons, Bool.or_eq_true] at hoff
      unfold aoutLoop
      cases hv : dget kwargs a with
      | none =>
          rw [hv] at hall hoff
          simp only [] at hall hoff
          have hofft : (t.any fun a => match dget kwargs a with
              | some (.sym s) => hasReference st s.sid
              | _ => false) = true := by
            rcases hoff with h | h
            · exact absurd h (by simp)
            · exact h
          have hofft' : (t.any fun a => match dget kwargs a with
              | some (.sym s) => hasReference (defineSym st
                  (nodeName ++ "-" ++ a)).1 s.sid
              | _ => false) = true := by
            rw [List.any_eq_true] at hofft ⊢
            obtain ⟨a', ha', hp⟩ := hofft
            refine ⟨a', ha', ?_⟩
            cases hx : dget kwargs a' with
            | none => rw [hx] at hp; exact hp
            | some av =>
                rw [hx] at hp
                cases av with
                | sym s =>
                    simp only [] at hp ⊢
                    unfold hasReference at hp ⊢
                    rw [refcount_defineSym]
                    exact hp
                | val v => exact hp
                | nd n => exact hp
          obtain ⟨st', h1, h2⟩ := ih (defineSym st (nodeName ++ "-" ++ a)).1
            (acc ++ [(a, (defineSym st (nodeName ++ "-" ++ a)).2)])
            hall.2 hofft'
          exact ⟨st', h1, h2⟩
      | some av =>
          rw [hv] at hall hoff
          cases av with
          | sym s =>
              simp only [] at hall hoff ⊢
              by_cases h : refcount st s.sid ≠ 0
              · rw [if_pos h]
                exact ⟨st, rfl, rfl⟩
              · rw [if_neg h]
                have hofft : (t.any fun a => match dget kwargs a with
                    | some (.sym s) => hasReference st s.sid
                    | _ => false) = true := by
                  rcases hoff with hh | hh
                  · exfalso
                    unfold hasReference at hh
                    rw [decide_eq_true_iff] at hh
                    exact h hh
                  · exact hh
                exact ih _ _ hall.2 hofft
          | val v => simp only [] at hall; exact absurd hall.1 (by simp)
          | nd n => simp only [] at hall; exact absurd hall.1 (by simp)

/-- C5: for every node kind, model state and keyword argument list that
passes the earlier construction stages (no positional argument, model
inference succeeds, the input loop succeeds), if some output argument
is supplied a Symbol that already has one or more consumers then the
construction fails with `OverwritePrecaution` and no node is appended
to the Graph. -/
theorem construct_overwrite_precaution (op : OpId) (args : List CallArg)
    (st : ModelState)
    (hnopos : (args.any fun a => match a with
      | .pos _ => true
      | .kw _ _ => false) = false)
    (hinfer : inferModel (prim op) (kwargsOf args) = .ok ())
    (hain : (ainLoop (constructPre op st).2.1 (kwargsOf args)
        (prim op).ain (constructPre op st).1 [] []).2.isOk = true)
    (hall : ((prim op).aout.all fun a =>
        match dget (kwargsOf args) a with
        | some (.sym _) => true
        | none => true
        | some _ => false) = true)
    (hoff : ((prim op).aout.any fun a =>
        match dget (kwargsOf args) a with
        | some (.sym s) => hasReference st s.sid
        | _ => false) = true) :
    ∃ st', construct op args st = (st', .error .overwritePrecaution)
      ∧ st'.nodes = st.nodes := by
  unfold construct
  rw [hnopos]
  simp only [Bool.false_eq_true, if_false, hinfer]
  rcases hal : ainLoop (constructPre op st).2.1 (kwargsOf args)
      (prim op).ain (constructPre op st).1 [] [] with ⟨stB, r⟩
  rw [hal] at hain
  cases r with
  | error e => exact absurd hain (by simp [Except.isOk, Except.toBool])
  | ok vr =>
      rcases vr with ⟨vi, vf⟩
      have hpre1 : (constructPre op st).1.nodes = st.nodes := rfl
      have hpre2 : ∀ sid, refcount (constructPre op st).1 sid
          = refcount st sid := fun _ => rfl
      have hnodesB : stB.nodes = st.nodes := by
        have := (ainLoop_nodes_refs (constructPre op st).2.1 (kwargsOf args)
          (prim op).ain (constructPre op st).1 [] []).1
        rw [hal] at this
        rw [← hpre1]
        exact this
      have hrefsB : ∀ sid, refcount st sid ≤ refcount stB sid := by
        intro sid
        have := (ainLoop_nodes_refs (constructPre op st).2.1 (kwargsOf args)
          (prim op).ain (constructPre op st).1 [] []).2 sid
        rw [hal] at this
        rw [← hpre2 sid]
        exact this
      have hoffB : ((prim op).aout.any fun a =>
          match dget (kwargsOf args) a with
          | some (.sym s) => hasReference stB s.sid
          | _ => false) = true := by
        rw [List.any_eq_true] at hoff ⊢
        obtain ⟨a, ha, hp⟩ := hoff
        refine ⟨a, ha, ?_⟩
        cases hx : dget (kwargsOf args) a with
        | none => rw [hx] at hp; exact hp
        | some av =>
            rw [hx] at hp
            cases av with
            | sym s =>
                simp only [] at hp ⊢
                unfold hasReference at hp ⊢
                rw [decide_eq_true_iff] at hp ⊢
                intro hz
                exact hp (Nat.le_antisymm (hz ▸ hrefsB s.sid) (Nat.zero_le _))
            | val v => exact hp
            | nd n => exact hp
      obtain ⟨st', h1, h2⟩ := aoutLoop_overwrite (constructPre op st).2.2
        (kwargsOf args) (prim op).aout stB [] hall hoffB
      rcases hpre : constructPre op st with ⟨stP, nid, nodeName⟩
      rw [hpre] at hal h1
      simp only [hal, h1]
      exact ⟨st', rfl, h2.trans hnodesB⟩

/-- Inversion of a successful `compute` call into its stages. -/
theorem compute_inv (st : ModelState) (init : Ctx) (vreq : VoutReq)
    (rt : Bool) (r : RetVal × Option Tape)
    (h : compute st init vreq rt = .ok r) :
    ((vnamesOf vreq).all fun n => (voutnamesOf st).contains n) = true
    ∧ ∃ es rlist rv,
        computeLoop st st.nodes (initState init) = .ok es
        ∧ collectVout es.rdict (vnamesOf vreq) = .ok rlist
        ∧ shapeResult vreq rlist = .ok rv
        ∧ r = (rv, if rt then some { model := st, records := es.recs }
                   else none) := by
  unfold compute at h
  by_cases hval : ((vnamesOf vreq).all fun n =>
      (voutnamesOf st).contains n) = true
  · rw [if_pos hval] at h
    refine ⟨hval, ?_⟩
    cases hes : computeLoop st st.nodes (initState init) with
    | error e => rw [hes] at h; exact absurd h (by simp [except_bind_err])
    | ok es =>
        rw [hes, except_bind_ok] at h
        cases hcol : collectVout es.rdict (vnamesOf vreq) with
        | error e => rw [hcol] at h; exact absurd h (by simp [except_bind_err])
        | ok rlist =>
            rw [hcol, except_bind_ok] at h
            cases hsh : shapeResult vreq rlist with
            | error e => rw [hsh] at h; exact absurd h (by simp [except_bind_err])
            | ok rv =>
                rw [hsh, except_bind_ok] at h
                injection h with h
                exact ⟨es, rlist, rv, rfl, hcol, hsh, h.symm⟩
  · rw [if_neg hval] at h
    exact absurd h (by simp)

/-- Reassembly of a successful `compute` call from its stages. -/
theorem compute_eq (st : ModelState) (init : Ctx) (vreq : VoutReq)
    (rt : Bool) (es : ExecState) (rlist : List Value) (rv : RetVal)
    (hval : ((vnamesOf vreq).all fun n => (voutnamesOf st).contains n) = true)
    (hes : computeLoop st st.nodes (initState init) = .ok es)
    (hcol : collectVout es.rdict (vnamesOf vreq) = .ok rlist)
    (hsh : shapeResult vreq rlist = .ok rv) :
    compute st init vreq rt
      = .ok (rv, if rt then some { model := st, records := es.recs }
                 else none) := by
  unfold compute
  rw [if_pos hval, hes, except_bind_ok, hcol, except_bind_ok, hsh,
    except_bind_ok]
  rfl

/-- What a successful `collectVout` returns: one value per requested
name, each obtained by looking the name up in the collected `r`. -/
theorem collectVout_spec (rdict : KwDict) :
    ∀ (names : List String) (vs : List Value),
      collectVout rdict names = .ok vs →
      vs.length = names.length
      ∧ ∀ i (hi : i < names.length) (hv : i < vs.length),
          dget rdict (names.get ⟨i, hi⟩) = some (vs.get ⟨i, hv⟩) := by
  intro names
  induction names with
  | nil =>
      intro vs h
      unfold collectVout at h
      injection h with h
      subst h
      exact ⟨rfl, fun i hi _ => absurd hi (Nat.not_lt_zero i)⟩
  | cons n t ih =>
      intro vs h
      unfold collectVout at h
      cases hd : dget rdict n with
      | none => rw [hd] at h; exact absurd h (by simp)
      | some v =>
          rw [hd] at h
          simp only [] at h
          cases hr : collectVout rdict t with
          | error e => rw [hr] at h; exact absurd h (by simp [except_bind_err])
          | ok vs' =>
              rw [hr, except_bind_ok] at h
              injection h with h
              subst h
              obtain ⟨hlen, hget⟩ := ih vs' hr
              refine ⟨by simp [hlen], ?_⟩
              intro i hi hv
              cases i with
              | zero => exact hd
              | succ j =>
                  exact hget j (Nat.lt_of_succ_lt_succ hi)
                    (Nat.lt_of_succ_lt_succ hv)

/-- C10: return-shape behavior of `Context.compute` — (1) requesting a
single output name as a bare string returns the bare value, and this
agrees with requesting the one-element list of that name, which returns
the one-element list of the value; (2) requesting a list of names
returns a list of values of the same length, whose `i`-th element is
exactly what requesting the `i`-th name alone returns; (3) the result
is paired with the tape exactly when tape recording is requested. -/
theorem compute_return_shape (st : ModelState) (init : Ctx) :
    (∀ (n : String) (rt : Bool) (v : Value) (t : Option Tape),
        compute st init (.one n) rt = .ok (.one v, t)
          ↔ compute st init (.list [n]) rt = .ok (.many [v], t))
    ∧ (∀ names vs t,
        compute st init (.list names) false = .ok (.many vs, t) →
        vs.length = names.length
        ∧ ∀ i (hi : i < names.length) (hv : i < vs.length),
            compute st init (.one (names.get ⟨i, hi⟩)) false
              = .ok (.one (vs.get ⟨i, hv⟩), none))
    ∧ (∀ vreq r, compute st init vreq true = .ok r → ∃ tp, r.2 = some tp)
    ∧ (∀ vreq r, compute st init vreq false = .ok r → r.2 = none) := by
  have hvn : ∀ n : String, vnamesOf (.one n) = vnamesOf (.list [n]) :=
    fun _ => rfl
  refine ⟨?_, ?_, ?_, ?_⟩
  · intro n rt v t
    constructor
    · intro h
      obtain ⟨hval, es, rlist, rv, hes, hcol, hsh, hr⟩ := compute_inv _ _ _ _ _ h
      have hone : rlist = [v] := by
        cases rlist with
        | nil => exact absurd hsh (by simp [shapeResult])
        | cons a l =>
            cases l with
            | nil =>
                unfold shapeResult at hsh
                injection hsh with hsh
                injection hr with hr1 hr2
                rw [← hr1] at hsh
                injection hsh with hsh
                rw [hsh]
            | cons b l' => exact absurd hsh (by simp [shapeResult])
      subst hone
      injection hr with hr1 hr2
      have := compute_eq st init (.list [n]) rt es [v] (.many [v])
        hval hes hcol (by rfl)
      rw [this, hr2]
    · intro h
      obtain ⟨hval, es, rlist, rv, hes, hcol, hsh, hr⟩ := compute_inv _ _ _ _ _ h
      unfold shapeResult at hsh
      injection hsh with hsh
      injection hr with hr1 hr2
      rw [← hr1] at hsh
      injection hsh with hsh
      subst hsh
      have := compute_eq st init (.one n) rt es [v] (.one v)
        hval hes hcol (by rfl)
      rw [this, hr2]
  · intro names vs t h
    obtain ⟨hval, es, rlist, rv, hes, hcol, hsh, hr⟩ := compute_inv _ _ _ _ _ h
    unfold shapeResult at hsh
    injection hsh with hsh
    injection hr with hr1 hr2
    rw [← hr1] at hsh
    injection hsh with hsh
    subst hsh
    obtain ⟨hlen, hget⟩ := collectVout_spec es.rdict names rlist hcol
    refine ⟨hlen, ?_⟩
    intro i hi hv
    have hmem : names.get ⟨i, hi⟩ ∈ names := List.get_mem names i hi
    have hval1 : ((vnamesOf (.one (names.get ⟨i, hi⟩))).all fun m =>
        (voutnamesOf st).contains m) = true := by
      rw [List.all_eq_true] at hval
      simp only [vnamesOf, List.all_cons, List.all_nil, Bool.and_true]
      exact hval _ hmem
    have hcol1 : collectVout es.rdict
        (vnamesOf (.one (names.get ⟨i, hi⟩))) = .ok [rlist.get ⟨i, hv⟩] := by
      simp only [vnamesOf]
      unfold collectVout
      rw [hget i hi hv]
      rfl
    exact compute_eq st init (.one (names.get ⟨i, hi⟩)) false es
      [rlist.get ⟨i, hv⟩] (.one (rlist.get ⟨i, hv⟩)) hval1 hes hcol1 (by rfl)
  · intro vreq r h
    obtain ⟨hval, es, rlist, rv, hes, hcol, hsh, hr⟩ := compute_inv _ _ _ _ _ h
    rw [hr]
    exact ⟨_, rfl⟩
  · intro vreq r h
    obtain ⟨hval, es, rlist, rv, hes, hcol, hsh, hr⟩ := compute_inv _ _ _ _ _ h
    rw [hr]
    rfl

/-- Witness for `compute_return_shape`: on the two-output graph, the
list request `['c', 'd']` returns the value list and the single-string
request `'d'` returns the bare second value. -/
theorem compute_return_shape_witness :
    compute twoM [("a", .num 3)] (.list ["c", "d"]) false
      = .ok (.many [.num 3, .num 4], none)
    ∧ compute twoM [("a", .num 3)] (.one "d") false
      = .ok (.one (.num 4), none) := by
  have h : compute twoM [("a", .num 3)] (.list ["c", "d"]) false
      = .ok (.many [.num 3, .num 4], none) := by decide
  have h2 := ((compute_return_shape twoM [("a", .num 3)]).2.1
    ["c", "d"] [.num 3, .num 4] none h).2 1 (by decide) (by decide)
  exact ⟨h, h2⟩

/-- Inversion of a successful `Context.execute`: the tape record holds
the executed node and exactly its resolved inputs. -/
theorem execNode_inv (n : Node) (ctx ctx' : Ctx) (record : TapeRec)
    (ws : List (String × Value))
    (h : execNode n ctx = .ok (ctx', record, ws)) :
    record.node = n ∧ resolveVarin ctx n.varin = .ok record.implKwargs := by
  unfold execNode at h
  cases hres : resolveVarin ctx n.varin with
  | error e => rw [hres] at h; exact absurd h (by simp [except_bind_err])
  | ok resolved =>
      rw [hres, except_bind_ok] at h
      cases hside : addSideArgs n (prim n.op).argnames resolved with
      | error e => rw [hside] at h; exact absurd h (by simp [except_bind_err])
      | ok kw =>
          rw [hside, except_bind_ok] at h
          cases himpl : (prim n.op).impl kw with
          | error e => rw [himpl] at h; exact absurd h (by simp [except_bind_err])
          | ok r =>
              rw [himpl, except_bind_ok] at h
              cases hst : storeOuts r n.varout ctx [] with
              | error e => rw [hst] at h; exact absurd h (by simp [except_bind_err])
              | ok p =>
                  rw [hst, except_bind_ok] at h
                  injection h with h
                  rcases p with ⟨c2, w2⟩
                  injection h with h1 h
                  injection h with h2 h3
                  rw [← h2]
                  exact ⟨rfl, rfl⟩

/-- `captureOuts` only updates the collected `r` dict. -/
theorem captureOuts_recs (n : Node) :
    ∀ (es es' : ExecState), captureOuts n es = .ok es' →
      es'.recs = es.recs ∧ es'.ctx = es.ctx ∧ es'.hist = es.hist := by
  suffices hgo : ∀ (l : List (String × Sym)) (es es' : ExecState),
      captureList l es = .ok es' →
      es'.recs = es.recs ∧ es'.ctx = es.ctx ∧ es'.hist = es.hist by
    intro es es' h
    exact hgo n.varout es es' h
  intro l
  induction l with
  | nil =>
      intro es es' h
      unfold captureList at h
      injection h with h
      rw [← h]
      exact ⟨rfl, rfl, rfl⟩
  | cons p t ih =>
      intro es es' h
      unfold captureList at h
      cases hn : p.2.name with
      | none => rw [hn] at h; exact absurd h (by simp)
      | some nm =>
          rw [hn] at h
          simp only [] at h
          cases hd : dget es.ctx nm with
          | none => rw [hd] at h; exact absurd h (by simp)
          | some v =>
              rw [hd] at h
              simp only [] at h
              obtain ⟨h1, h2, h3⟩ :=
                ih { es with rdict := dset es.rdict nm v } es' h
              exact ⟨h1, h2, h3⟩

/-- The node loop of `compute` appends, to the tape, exactly one record
per node whose result is used, in declaration order, each record
carrying its node's inputs as resolved in the context the node executed
in. -/
theorem computeLoop_records (st : ModelState) :
    ∀ (nodes : List Node) (es es' : ExecState),
      computeLoop st nodes es = .ok es' →
      es'.recs.map (fun r => r.node)
        = es.recs.map (fun r => r.node)
          ++ (nodes.filter fun n => resultUsed st n).map id
      ∧ ∀ r ∈ es'.recs, r ∈ es.recs
          ∨ ∃ c, resolveVarin c r.node.varin = .ok r.implKwargs := by
  intro nodes
  induction nodes with
  | nil =>
      intro es es' h
      unfold computeLoop at h
      injection h with h
      subst h
      exact ⟨by simp, fun r hr => Or.inl hr⟩
  | cons n rest ih =>
      intro es es' h
      unfold computeLoop at h
      by_cases hres : resultUsed st n = true
      · rw [hres] at h
        simp only [if_true, except_bind_ok, pure_bind] at h
        cases hex : execNode n es.ctx with
        | error e => rw [hex] at h; exact absurd h (by simp [except_bind_err])
        | ok p =>
            rcases p with ⟨ctx', record, ws⟩
            rw [hex] at h
            simp only [except_bind_ok, pure_bind] at h
            obtain ⟨hnode, hresv⟩ := execNode_inv n es.ctx ctx' record ws hex
            set es1 : ExecState :=
              { es with ctx := ctx', recs := es.recs ++ [record]
                        hist := es.hist ++ ws } with hes1
            by_cases hop : n.op = .terminalO
            · rw [if_pos hop] at h
              cases hcap : captureOuts n es1 with
              | error e =>
                  rw [hcap] at h; exact absurd h (by simp [except_bind_err])
              | ok es2 =>
                  rw [hcap, except_bind_ok] at h
                  obtain ⟨hrecs2, _, _⟩ := captureOuts_recs n es1 es2 hcap
                  obtain ⟨ha, hb⟩ := ih _ _ h
                  constructor
                  · rw [ha]
                    simp only [hrecs2, hes1, List.map_append, List.map_cons,
                      List.map_nil, List.filter_cons, hres, List.map_id,
                      hnode, List.append_assoc, List.map_id]
                    rfl
                  · intro r hr
                    rcases hb r hr with hin | hc
                    · rw [hrecs2, hes1] at hin
                      simp only [List.mem_append, List.mem_singleton] at hin
                      rcases hin with hin | hin
                      · exact Or.inl hin
                      · subst hin
                        exact Or.inr ⟨es.ctx, by rw [hnode]; exact hresv⟩
                    · exact Or.inr hc
            · rw [if_neg hop] at h
              obtain ⟨ha, hb⟩ := ih _ _ h
              constructor
              · rw [ha]
                simp only [hes1, List.map_append, List.map_cons,
                  List.map_nil, List.filter_cons, hres, List.map_id,
                  hnode, List.append_assoc]
                rfl
              · intro r hr
                rcases hb r hr with hin | hc
                · simp only [List.mem_append, List.mem_singleton] at hin
                  rcases hin with hin | hin
                  · exact Or.inl hin
                  · subst hin
                    exact Or.inr ⟨es.ctx, by rw [hnode]; exact hresv⟩
                · exact Or.inr hc
      · rw [Bool.not_eq_true] at hres
        rw [hres] at h
        simp only [Bool.false_eq_true, if_false, except_bind_ok, pure_bind] at h
        by_cases hop : n.op = .terminalO
        · rw [if_pos hop] at h
          cases hcap : captureOuts n es with
          | error e => rw [hcap] at h; exact absurd h (by simp [except_bind_err])
          | ok es2 =>
              rw [hcap, except_bind_ok] at h
              obtain ⟨hrecs2, _, _⟩ := captureOuts_recs n es es2 hcap
              obtain ⟨ha, hb⟩ := ih _ _ h
              constructor
              · rw [ha, hrecs2]
                simp only [List.filter_cons, hres]
                rfl
              · intro r hr
                rcases hb r hr with hin | hc
                · rw [hrecs2] at hin
                  exact Or.inl hin
                · exact Or.inr hc
        · rw [if_neg hop] at h
          obtain ⟨ha, hb⟩ := ih _ _ h
          constructor
          · rw [ha]
            simp only [List.filter_cons, hres]
            rfl
          · exact hb

/-- C1 (amended): for every Graph, initial Context and requested
outputs, a successful `compute` with tape recording yields a tape over
that Graph whose records are exactly the nodes whose result is used (a
terminal node, or one with a referenced output), in declaration order —
nodes with unused results are skipped and recorded nowhere — and every
record pairs its node with the node's inputs as resolved in the context
it executed in, the record being appended immediately before the node's
procedure is invoked. -/
theorem tape_records_executed_nodes (st : ModelState) (init : Ctx)
    (vreq : VoutReq) (rv : RetVal) (tp : Tape)
    (h : compute st init vreq true = .ok (rv, some tp)) :
    tp.model = st
    ∧ tp.records.map (fun r => r.node)
        = st.nodes.filter (fun n => resultUsed st n)
    ∧ ∀ r ∈ tp.records, ∃ c, resolveVarin c r.node.varin
        = .ok r.implKwargs := by
  obtain ⟨hval, es, rlist, rv', hes, hcol, hsh, hr⟩ :=
    compute_inv st init vreq true (rv, some tp) h
  injection hr with hr1 hr2
  simp only [if_true] at hr2
  injection hr2 with hr2
  obtain ⟨ha, hb⟩ := computeLoop_records st st.nodes (initState init) es hes
  subst hr2
  refine ⟨rfl, ?_, ?_⟩
  · simpa using ha
  · intro r hrr
    rcases hb r hrr with hin | hc
    · exact absurd hin (by simp [initState])
    · exact hc

/-- Witness for `tape_records_executed_nodes` on the dead-node graph:
the tape skips the unused `mul` node and records only the terminal. -/
theorem tape_records_executed_nodes_witness :
    deadTape.model = deadM
    ∧ deadTape.records.map (fun r => r.node)
        = deadM.nodes.filter (fun n => resultUsed deadM n)
    ∧ ∀ r ∈ deadTape.records, ∃ c, resolveVarin c r.node.varin
        = .ok r.implKwargs :=
  tape_records_executed_nodes deadM [("x", .num 5)] (.one "c")
    (.one (.num 5)) deadTape (by decide)

/-- The input-argument loop leaves `_vin` and `_vout` unchanged. -/
theorem ainLoop_vinout (nid : Nat) (kwargs : List (String × ArgVal)) :
    ∀ (l : List String) (st : ModelState) (varin : List (String × Sym))
      (vinfo : List (String × Nat)),
      (ainLoop nid kwargs l st varin vinfo).1.vin = st.vin
      ∧ (ainLoop nid kwargs l st varin vinfo).1.vout = st.vout := by
  intro l
  induction l with
  | nil => intro st varin vinfo; exact ⟨rfl, rfl⟩
  | cons a t ih =>
      intro st varin vinfo
      unfold ainLoop
      cases hv : dget kwargs a with
      | none => exact ⟨by trivial, by trivial⟩
      | some av =>
          cases av with
          | sym s => exact ⟨(ih _ _ _).1, (ih _ _ _).2⟩
          | val v =>
              simp only [makeSymbolArg, mkLiteral, allocSym]
              exact ⟨(ih _ _ _).1, (ih _ _ _).2⟩
          | nd n =>
              simp only [makeSymbolArg]
              by_cases h : n.varout.length > 1
              · simp only [if_pos h]
                exact ⟨by trivial, by trivial⟩
              · simp only [if_neg h]
                cases n.varout with
                | nil => exact ⟨by trivial, by trivial⟩
                | cons p t' => exact ⟨(ih _ _ _).1, (ih _ _ _).2⟩

/-- The output-argument loop leaves `_vin` and `_vout` unchanged. -/
theorem aoutLoop_vinout (nodeName : String)
    (kwargs : List (String × ArgVal)) :
    ∀ (l : List String) (st : ModelState) (acc : List (String × Sym)),
      (aoutLoop nodeName kwargs l st acc).1.vin = st.vin
      ∧ (aoutLoop nodeName kwargs l st acc).1.vout = st.vout := by
  intro l
  induction l with
  | nil => intro st acc; exact ⟨rfl, rfl⟩
  | cons a t ih =>
      intro st acc
      unfold aoutLoop
      cases hv : dget kwargs a with
      | none => exact ⟨(ih _ _).1, (ih _ _).2⟩
      | some av =>
          cases av with
          | sym s =>
              by_cases h : refcount st s.sid ≠ 0
              · simp only [if_pos h]
                exact ⟨by trivial, by trivial⟩
              · simp only [if_neg h]
                exact ⟨(ih _ _).1, (ih _ _).2⟩
          | val v => exact ⟨by trivial, by trivial⟩
          | nd n => exact ⟨by trivial, by trivial⟩

/-- Node construction leaves `_vin` and `_vout` unchanged. -/
theorem construct_vinout (op : OpId) (args : List CallArg) (st : ModelState) :
    (construct op args st).1.vin = st.vin
    ∧ (construct op args st).1.vout = st.vout := by
  rcases hres : construct op args st with ⟨st2, r⟩
  unfold construct at hres
  split at hres
  · injection hres with h1 h2
    subst h1
    exact ⟨rfl, rfl⟩
  · split at hres
    rename_i stP nid nodeName hpre
    have hPvin : stP.vin = st.vin := by
      have h := congrArg (fun p => p.1.vin) hpre
      exact h.symm.trans rfl
    have hPvout : stP.vout = st.vout := by
      have h := congrArg (fun p => p.1.vout) hpre
      exact h.symm.trans rfl
    simp only [] at hres
    split at hres
    · injection hres with h1 h2
      subst h1
      exact ⟨rfl, rfl⟩
    · split at hres
      · rename_i stA e heqA
        have hA := (ainLoop_vinout nid (kwargsOf args) (prim op).ain stP [] [])
        rw [heqA] at hA
        injection hres with h1 h2
        subst h1
        exact ⟨hA.1.trans hPvin, hA.2.trans hPvout⟩
      · rename_i stA varin vinfo heqA
        have hA := (ainLoop_vinout nid (kwargsOf args) (prim op).ain stP [] [])
        rw [heqA] at hA
        split at hres
        · rename_i stB e heqB
          have hB := (aoutLoop_vinout nodeName (kwargsOf args)
            (prim op).aout stA [])
          rw [heqB] at hB
          injection hres with h1 h2
          subst h1
          exact ⟨(hB.1.trans hA.1).trans hPvin, (hB.2.trans hA.2).trans hPvout⟩
        · rename_i stB varout heqB
          have hB := (aoutLoop_vinout nodeName (kwargsOf args)
            (prim op).aout stA [])
          rw [heqB] at hB
          injection hres with h1 h2
          subst h1
          exact ⟨(hB.1.trans hA.1).trans hPvin, (hB.2.trans hA.2).trans hPvout⟩

/-- Shape of a successful single-binding `output` call on a symbol
value: exactly one `terminal` node is appended, wired from the given
symbol to a fresh symbol carrying the output name, which is appended to
`_vout`; `_vin` is untouched and name lookups for other names are
preserved. -/
theorem outputOne_shape (st : ModelState) (n : String) (z : Sym)
    (st' : ModelState) (h : outputOne st n (.sym z) = (st', .ok ())) :
    ∃ nd s, st'.nodes = st.nodes ++ [nd]
      ∧ nd.op = .terminalO
      ∧ nd.varin = [("x", z)]
      ∧ nd.varout = [("y", s)]
      ∧ s.name = some n
      ∧ st'.vout = st.vout ++ [s]
      ∧ st'.vin = st.vin
      ∧ st'.syms = dset st.syms n s := by
  unfold outputOne at h
  by_cases hdup : st.vout.any (fun s => s.name = some n) = true
  · rw [if_pos hdup] at h
    exact absurd (congrArg Prod.snd h) (by simp)
  · rw [Bool.not_eq_true] at hdup
    rw [hdup] at h
    simp only [Bool.false_eq_true, if_false] at h
    revert h
    unfold construct
    have hkw : kwargsOf [CallArg.kw "x" (.sym z),
        CallArg.kw "y" (.sym (defineSym st n).2)]
        = [("x", .sym z), ("y", .sym (defineSym st n).2)] := rfl
    rw [hkw]
    simp only [List.any_cons, List.any_nil, Bool.or_false,
      Bool.false_eq_true, if_false]
    have hinf : inferModel (prim .terminalO)
        [("x", .sym z), ("y", .sym (defineSym st n).2)] = .ok () := rfl
    rw [hinf]
    rcases hpre : constructPre .terminalO (defineSym st n).1
      with ⟨stP, nid, nodeName⟩
    have hal : ainLoop nid [("x", .sym z), ("y", .sym (defineSym st n).2)]
        (prim .terminalO).ain stP [] []
        = ({ stP with refs := stP.refs ++ [(z.sid, nid)] }, .ok
            ([("x", z)], [("x", refcount { stP with
              refs := stP.refs ++ [(z.sid, nid)] } z.sid)])) := rfl
    rw [hal]
    set stA := { stP with refs := stP.refs ++ [(z.sid, nid)] } with hstA
    have hstep : aoutLoop nodeName
        [("x", .sym z), ("y", .sym (defineSym st n).2)]
        (prim .terminalO).aout stA []
        = if refcount stA (defineSym st n).2.sid ≠ 0
          then (stA, .error .overwritePrecaution)
          else (stA, .ok [("y", (defineSym st n).2)]) := rfl
    by_cases hrc : refcount stA (defineSym st n).2.sid ≠ 0
    · simp only []
      rw [hstep, if_pos hrc]
      intro h
      exact absurd (congrArg Prod.snd h) (by simp)
    · simp only []
      rw [hstep, if_neg hrc]
      intro h
      injection h with h1 h2
      have hstPnodes : stP.nodes = st.nodes := by
        have hh := congrArg (fun p => p.1.nodes) hpre
        exact hh.symm.trans rfl
      have hstPvout : stP.vout = st.vout := by
        have hh := congrArg (fun p => p.1.vout) hpre
        exact hh.symm.trans rfl
      have hstPvin : stP.vin = st.vin := by
        have hh := congrArg (fun p => p.1.vin) hpre
        exact hh.symm.trans rfl
      have hstPsyms : stP.syms = dset st.syms n (defineSym st n).2 := by
        have hh := congrArg (fun p => p.1.syms) hpre
        exact hh.symm.trans rfl
      refine ⟨{ nid := nid, nodeName := nodeName, op := .terminalO
                varin := [("x", z)]
                varinInfo := [("x", refcount stA z.sid)]
                varout := [("y", (defineSym st n).2)]
                kwargs := sideKwargs (prim .terminalO)
                  [("x", .sym z), ("y", .sym (defineSym st n).2)] },
        (defineSym st n).2, ?_, rfl, rfl, rfl, rfl, ?_, ?_, ?_⟩
      · rw [← h1]
        exact congrArg (fun l => l ++
          [{ nid := nid, nodeName := nodeName, op := OpId.terminalO
             varin := [("x", z)]
             varinInfo := [("x", refcount stA z.sid)]
             varout := [("y", (defineSym st n).2)]
             kwargs := sideKwargs (prim .terminalO)
               [("x", .sym z), ("y", .sym (defineSym st n).2)] }]) hstPnodes
      · rw [← h1]
        exact congrArg (fun l => l ++ [(defineSym st n).2]) hstPvout
      · rw [← h1]
        exact hstPvin
      · rw [← h1]
        exact hstPsyms

/-- `dset` leaves lookups of other keys unchanged. -/
theorem dget_dset_ne {α : Type} (k k' : String) (v : α) (hk : k ≠ k') :
    ∀ l : List (String × α), dget (dset l k v) k' = dget l k' := by
  intro l
  induction l with
  | nil =>
      simp only [dset, dget, List.lookup]
      cases hbeq : k' == k with
      | true => exact absurd (beq_iff_eq.mp hbeq).symm hk
      | false => rfl
  | cons p t ih =>
      rcases p with ⟨pk, pv⟩
      by_cases hp : pk = k
      · subst hp
        simp only [dset, if_pos rfl, dget, List.lookup]
        cases hbeq : k' == pk with
        | true => exact absurd (beq_iff_eq.mp hbeq).symm hk
        | false => rfl
      · simp only [dset, if_neg hp, dget, List.lookup]
        cases hbeq : k' == pk with
        | true => rfl
        | false => exact ih

/-- A `ZeroLiteral` resolves to the additive identity in every
context. -/
theorem resolveSym_zero (z : Sym) (hz : z.kind = .zero) :
    ∀ ctx : Ctx, resolveSym ctx z = .ok (.num 0) := by
  intro ctx
  unfold resolveSym
  rw [hz]

/-- The input-marking phase of `vjp` declares exactly the adjoint names
of the given symbols as inputs, touching neither outputs nor nodes. -/
theorem vjpInputs_spec :
    ∀ (l : List Sym) (st st' : ModelState), vjpInputs l st = .ok st' →
      st'.vin.map Sym.name
        = st.vin.map Sym.name ++ l.map (fun v => v.name.map (fun n => vjpName n))
      ∧ st'.vout = st.vout ∧ st'.nodes = st.nodes := by
  intro l
  induction l with
  | nil =>
      intro st st' h
      unfold vjpInputs at h
      injection h with h
      subst h
      exact ⟨by simp, rfl, rfl⟩
  | cons v t ih =>
      intro st st' h
      unfold vjpInputs at h
      cases hn : v.name with
      | none => rw [hn] at h; exact absurd h (by simp)
      | some n =>
          rw [hn] at h
          simp only [] at h
          obtain ⟨h1, h2, h3⟩ := ih _ _ h
          refine ⟨?_, h2, h3⟩
          rw [h1]
          simp [inputOne, defineSym, allocSym, hn, Option.map]

/-- `prepare_opr_kwargs` leaves `_vin`, `_vout` and the node list
unchanged (it only allocates literal symbols). -/
theorem prepareOprKwargs_state (p : Node) :
    ∀ (implK : KwDict) (st : ModelState) (kw : List (String × ArgVal)),
      (prepareOprKwargs.goPrep p implK st kw).1.vin = st.vin
      ∧ (prepareOprKwargs.goPrep p implK st kw).1.vout = st.vout
      ∧ (prepareOprKwargs.goPrep p implK st kw).1.nodes = st.nodes := by
  intro implK
  induction implK with
  | nil => intro st kw; exact ⟨rfl, rfl, rfl⟩
  | cons q t ih =>
      intro st kw
      unfold prepareOprKwargs.goPrep
      by_cases hq : (dget p.varin q.1).isSome = true
      · simp only [hq, if_true, mkLiteral, allocSym]
        exact ⟨(ih _ _).1, (ih _ _).2.1, (ih _ _).2.2⟩
      · rw [Bool.not_eq_true] at hq
        simp only [hq, Bool.false_eq_true, if_false]
        exact ⟨(ih _ _).1, (ih _ _).2.1, (ih _ _).2.2⟩

/-- The output-vjp creation loop leaves `_vin` and `_vout` unchanged. -/
theorem vjpInArgs_vinout (orig : ModelState) (p : Node) :
    ∀ (l : List (String × Sym)) (st : ModelState)
      (kw : List (String × ArgVal)),
      (vjpInArgs orig p st l kw).1.vin = st.vin
      ∧ (vjpInArgs orig p st l kw).1.vout = st.vout := by
  intro l
  induction l with
  | nil => intro st kw; exact ⟨rfl, rfl⟩
  | cons q t ih =>
      intro st kw
      unfold vjpInArgs
      by_cases hl : isLiteral q.2 = true
      · simp only [hl, if_true]
        exact ⟨(ih _ _).1, (ih _ _).2⟩
      · rw [Bool.not_eq_true] at hl
        simp only [hl, Bool.false_eq_true, if_false]
        cases hri : dget p.varinInfo q.1 with
        | none => exact ⟨by trivial, by trivial⟩
        | some refId =>
            cases hn : q.2.name with
            | none => exact ⟨by trivial, by trivial⟩
            | some n =>
                simp only []
                exact ⟨(ih _ _).1, (ih _ _).2⟩

/-- The partial-derivative combination loop leaves `_vin` and `_vout`
unchanged. -/
theorem vjpCombine_vinout (orig : ModelState) (p : Node) :
    ∀ (l : List (String × Sym)) (st : ModelState),
      (vjpCombine orig p l st).1.vin = st.vin
      ∧ (vjpCombine orig p l st).1.vout = st.vout := by
  intro l
  induction l with
  | nil => intro st; exact ⟨rfl, rfl⟩
  | cons q t ih =>
      intro st
      unfold vjpCombine
      by_cases hl : isLiteral q.2 = true
      · simp only [hl, if_true]
        exact ⟨(ih _).1, (ih _).2⟩
      · rw [Bool.not_eq_true] at hl
        simp only [hl, Bool.false_eq_true, if_false]
        cases hri : dget p.varinInfo q.1 with
        | none => exact ⟨by trivial, by trivial⟩
        | some refId =>
            cases hn : q.2.name with
            | none => exact ⟨by trivial, by trivial⟩
            | some n =>
                simp only []
                by_cases hr : refId = refcount orig q.2.sid
                · simp only [hr, if_pos rfl]
                  exact ⟨(ih _).1, (ih _).2⟩
                · rw [if_neg hr]
                  cases hf : getSym st (vjpName n) with
                  | none => exact ⟨by trivial, by trivial⟩
                  | some varF =>
                      cases hp : getSym st (vjpName n ++ "#" ++ toString refId) with
                      | none => exact ⟨by trivial, by trivial⟩
                      | some varP =>
                          simp only []
                          rcases hc : construct .addO
                              [.kw "x1" (.sym varF), .kw "x2" (.sym varP),
                               .kw "y" (.sym (defineSym st (vjpName n)).2)]
                              (defineSym st (vjpName n)).1 with ⟨stC, rc⟩
                          have hcv := construct_vinout .addO
                            [.kw "x1" (.sym varF), .kw "x2" (.sym varP),
                             .kw "y" (.sym (defineSym st (vjpName n)).2)]
                            (defineSym st (vjpName n)).1
                          rw [hc] at hcv
                          cases rc with
                          | error e => exact ⟨hcv.1, hcv.2⟩
                          | ok nd =>
                              refine ⟨Eq.trans (ih _).1 hcv.1,
                                Eq.trans (ih _).2 hcv.2⟩

/-- Processing one record during the reverse walk leaves `_vin` and
`_vout` unchanged. -/
theorem vjpRecord_vinout (orig : ModelState) (st : ModelState) (r : TapeRec)
    (st' : ModelState) (h : vjpRecord orig st r = .ok st') :
    st'.vin = st.vin ∧ st'.vout = st.vout := by
  unfold vjpRecord at h
  simp only [] at h
  cases hop : oprToVjp r.node.op with
  | none =>
      rw [hop] at h
      exact absurd h (by simp [except_throw_bind])
  | some vop =>
      rw [hop] at h
      simp only [except_bind_ok, pure_bind] at h
      rcases hprep : prepareOprKwargs r.node r.implKwargs st with ⟨stPr, kw0⟩
      rw [hprep] at h
      have hprepv := prepareOprKwargs_state r.node r.implKwargs st
        (r.node.kwargs.map (fun q => (q.1, ArgVal.val q.2)))
      rw [show prepareOprKwargs.goPrep r.node r.implKwargs st
          (r.node.kwargs.map (fun q => (q.1, ArgVal.val q.2))) =
          prepareOprKwargs r.node r.implKwargs st from rfl, hprep] at hprepv
      simp only [] at h
      cases hout : vjpOutArgs stPr r.node.varout kw0 with
      | error e => rw [hout] at h; exact absurd h (by simp [except_bind_err])
      | ok kw1 =>
          rw [hout, except_bind_ok] at h
          rcases hin : vjpInArgs orig r.node stPr r.node.varin kw1
            with ⟨stIn, rin⟩
          have hinv := vjpInArgs_vinout orig r.node r.node.varin stPr kw1
          rw [hin] at hinv
          rw [hin] at h
          cases rin with
          | error e => exact absurd h (by simp)
          | ok kw2 =>
              simp only [] at h
              rcases hc : construct vop
                  (kw2.map (fun q => CallArg.kw q.1 q.2)) stIn with ⟨stC, rc⟩
              have hcv := construct_vinout vop
                (kw2.map (fun q => CallArg.kw q.1 q.2)) stIn
              rw [hc] at hcv
              rw [hc] at h
              cases rc with
              | error e => exact absurd h (by simp)
              | ok nd =>
                  simp only [] at h
                  rcases hcb : vjpCombine orig r.node r.node.varin stC
                    with ⟨stD, rd⟩
                  have hcbv := vjpCombine_vinout orig r.node r.node.varin stC
                  rw [hcb] at hcbv
                  rw [hcb] at h
                  cases rd with
                  | error e => exact absurd h (by simp)
                  | ok u =>
                      simp only [] at h
                      injection h with h
                      subst h
                      constructor
                      · exact ((hcbv.1.trans hcv.1).trans hinv.1).trans hprepv.1
                      · exact ((hcbv.2.trans hcv.2).trans hinv.2).trans hprepv.2.1

/-- The reverse walk leaves `_vin` and `_vout` unchanged. -/
theorem vjpWalk_vinout (orig : ModelState) :
    ∀ (l : List TapeRec) (st st' : ModelState),
      vjpWalk orig l st = .ok st' → st'.vin = st.vin ∧ st'.vout = st.vout := by
  intro l
  induction l with
  | nil =>
      intro st st' h
      unfold vjpWalk at h
      injection h with h
      subst h
      exact ⟨rfl, rfl⟩
  | cons r t ih =>
      intro st st' h
      unfold vjpWalk at h
      cases hr : vjpRecord orig st r with
      | error e => rw [hr] at h; exact absurd h (by simp [except_bind_err])
      | ok st1 =>
          rw [hr, except_bind_ok] at h
          obtain ⟨h1, h2⟩ := ih _ _ h
          obtain ⟨h3, h4⟩ := vjpRecord_vinout orig st r st1 hr
          exact ⟨h1.trans h3, h2.trans h4⟩

/-- A successful single-binding `output` call implies the name was not
already a declared output. -/
theorem outputOne_ok_nodup (st : ModelState) (n : String) (v : ArgVal)
    (st' : ModelState) (h : outputOne st n v = (st', .ok ())) :
    (st.vout.any fun s => s.name = some n) = false := by
  by_cases hdup : (st.vout.any fun s => s.name = some n) = true
  · unfold outputOne at h
    rw [if_pos hdup] at h
    exact absurd (congrArg Prod.snd h) (by simp)
  · exact Bool.not_eq_true _ ▸ hdup

/-- A successful marking phase implies no marked adjoint name was
already a declared output when the phase began. -/
theorem vjpMarkList_no_dup :
    ∀ (l : List Sym) (st st' : ModelState), vjpMarkList l st = .ok st' →
      ∀ v ∈ l, ∀ n, v.name = some n →
        (st.vout.any fun s => s.name = some (vjpName n)) = false := by
  intro l
  induction l with
  | nil => intro st st' _ v hv; exact absurd hv (List.not_mem_nil v)
  | cons w t ih =>
      intro st st' h v hv n hn
      unfold vjpMarkList at h
      cases hw : w.name with
      | none => rw [hw] at h; exact absurd h (by simp)
      | some nw =>
          rw [hw] at h
          simp only [] at h
          by_cases hhas : hasSym st (vjpName nw) = true
          · rw [if_pos hhas] at h
            cases hg : getSym st (vjpName nw) with
            | none => rw [hg] at h; exact absurd h (by simp)
            | some s0 =>
                rw [hg] at h
                simp only [] at h
                rcases ho : outputOne st (vjpName nw) (.sym s0) with ⟨st1, ro⟩
                rw [ho] at h
                cases ro with
                | error e => exact absurd h (by simp)
                | ok u =>
                    cases u
                    simp only [] at h
                    rcases List.mem_cons.1 hv with hveq | hvt
                    · subst hveq
                      rw [hw] at hn
                      injection hn with hn
                      rw [← hn]
                      exact outputOne_ok_nodup st (vjpName nw) (.sym s0) st1 ho
                    · have hih := ih st1 st' h v hvt n hn
                      obtain ⟨nd, s, _, _, _, _, _, hvout, _, _⟩ :=
                        outputOne_shape st (vjpName nw) s0 st1 ho
                      rw [hvout, List.any_append, Bool.or_eq_false_iff] at hih
                      exact hih.1
          · rw [Bool.not_eq_true] at hhas
            rw [hhas] at h
            simp only [Bool.false_eq_true, if_false] at h
            rcases ho : outputOne (mkZero st).1 (vjpName nw)
              (.sym (mkZero st).2) with ⟨st1, ro⟩
            rw [ho] at h
            cases ro with
            | error e => exact absurd h (by simp)
            | ok u =>
                cases u
                simp only [] at h
                rcases List.mem_cons.1 hv with hveq | hvt
                · subst hveq
                  rw [hw] at hn
                  injection hn with hn
                  rw [← hn]
                  have := outputOne_ok_nodup (mkZero st).1 (vjpName nw)
                    (.sym (mkZero st).2) st1 ho
                  exact this
                · have hih := ih st1 st' h v hvt n hn
                  obtain ⟨nd, s, _, _, _, _, _, hvout, _, _⟩ :=
                    outputOne_shape (mkZero st).1 (vjpName nw)
                      (mkZero st).2 st1 ho
                  rw [hvout, List.any_append, Bool.or_eq_false_iff] at hih
                  exact hih.1

/-- What a successful marking phase produces: `_vin` untouched, one
declared output per marked symbol carrying its adjoint name (in order),
nodes only appended — and every marked symbol whose adjoint name had no
accumulated entry is wired, through a fresh `terminal` node, from a
`ZeroLiteral` to the declared output symbol of its adjoint name. -/
theorem vjpMarkList_spec :
    ∀ (l : List Sym) (st st' : ModelState), vjpMarkList l st = .ok st' →
      st'.vin = st.vin
      ∧ st'.vout.map Sym.name
          = st.vout.map Sym.name
            ++ l.map (fun v => v.name.map (fun n => vjpName n))
      ∧ (∃ suf, st'.nodes = st.nodes ++ suf)
      ∧ ∀ v ∈ l, ∀ n, v.name = some n → hasSym st (vjpName n) = false →
          ∃ nd z s, nd ∈ st'.nodes ∧ nd.op = .terminalO
            ∧ nd.varin = [("x", z)] ∧ z.kind = .zero
            ∧ nd.varout = [("y", s)] ∧ s.name = some (vjpName n) := by
  intro l
  induction l with
  | nil =>
      intro st st' h
      unfold vjpMarkList at h
      injection h with h
      subst h
      exact ⟨rfl, by simp, ⟨[], by simp⟩,
        fun v hv => absurd hv (List.not_mem_nil v)⟩
  | cons w t ih =>
      intro st st' h
      unfold vjpMarkList at h
      cases hw : w.name with
      | none => rw [hw] at h; exact absurd h (by simp)
      | some nw =>
          rw [hw] at h
          simp only [] at h
          by_cases hhas : hasSym st (vjpName nw) = true
          · rw [if_pos hhas] at h
            cases hg : getSym st (vjpName nw) with
            | none => rw [hg] at h; exact absurd h (by simp)
            | some s0 =>
                rw [hg] at h
                simp only [] at h
                rcases ho : outputOne st (vjpName nw) (.sym s0) with ⟨st1, ro⟩
                rw [ho] at h
                cases ro with
                | error e => exact absurd h (by simp)
                | ok u =>
                    cases u
                    simp only [] at h
                    obtain ⟨nd0, s, hnodes1, _, _, _, hsname, hvout1, hvin1,
                      hsyms1⟩ := outputOne_shape st (vjpName nw) s0 st1 ho
                    obtain ⟨ih1, ih2, ⟨suf, ihsuf⟩, ih4⟩ := ih st1 st' h
                    refine ⟨ih1.trans hvin1, ?_, ?_, ?_⟩
                    · rw [ih2, hvout1]
                      simp [hw, hsname, Option.map]
                    · exact ⟨[nd0] ++ suf, by rw [ihsuf, hnodes1]; simp⟩
                    · intro v hv n hn hhasn
                      rcases List.mem_cons.1 hv with hveq | hvt
                      · subst hveq
                        rw [hw] at hn
                        injection hn with hn
                        rw [← hn] at hhasn
                        exact absurd hhas (by rw [hhasn]; simp)
                      · have hne : vjpName nw ≠ vjpName n := by
                          intro heq
                          have hnd := vjpMarkList_no_dup t st1 st' h v hvt n hn
                          rw [hvout1, List.any_append,
                            Bool.or_eq_false_iff] at hnd
                          have : ([s].any fun s => s.name
                              = some (vjpName n)) = false := hnd.2
                          simp only [List.any_cons, List.any_nil,
                            Bool.or_false] at this
                          rw [hsname, ← heq] at this
                          simp at this
                        have hhas1 : hasSym st1 (vjpName n) = false := by
                          unfold hasSym at hhasn ⊢
                          rw [show st1.syms = dset st.syms (vjpName nw) s
                            from hsyms1]
                          rw [dget_dset_ne (vjpName nw) (vjpName n) s hne]
                          exact hhasn
                        exact ih4 v hvt n hn hhas1
          · rw [Bool.not_eq_true] at hhas
            rw [hhas] at h
            simp only [Bool.false_eq_true, if_false] at h
            rcases ho : outputOne (mkZero st).1 (vjpName nw)
              (.sym (mkZero st).2) with ⟨st1, ro⟩
            rw [ho] at h
            cases ro with
            | error e => exact absurd h (by simp)
            | ok u =>
                cases u
                simp only [] at h
                obtain ⟨nd0, s, hnodes1, hop0, hvarin0, hvarout0, hsname,
                  hvout1, hvin1, hsyms1⟩ :=
                  outputOne_shape (mkZero st).1 (vjpName nw) (mkZero st).2
                    st1 ho
                obtain ⟨ih1, ih2, ⟨suf, ihsuf⟩, ih4⟩ := ih st1 st' h
                refine ⟨ih1.trans hvin1, ?_, ?_, ?_⟩
                · rw [ih2, hvout1]
                  simp [hw, hsname, Option.map, mkZero, allocSym]
                · exact ⟨[nd0] ++ suf,
                    by rw [ihsuf, hnodes1]; simp [mkZero, allocSym]⟩
                · intro v hv n hn hhasn
                  rcases List.mem_cons.1 hv with hveq | hvt
                  · subst hveq
                    rw [hw] at hn
                    injection hn with hn
                    refine ⟨nd0, (mkZero st).2, s, ?_, hop0, hvarin0, rfl,
                      hvarout0, ?_⟩
                    · rw [ihsuf]
                      exact List.mem_append_left _
                        (hnodes1 ▸ List.mem_append_right _
                          (List.mem_singleton.2 rfl))
                    · rw [hsname, ← hn]
                  · have hne : vjpName nw ≠ vjpName n := by
                      intro heq
                      have hnd := vjpMarkList_no_dup t st1 st' h v hvt n hn
                      rw [hvout1, List.any_append,
                        Bool.or_eq_false_iff] at hnd
                      have : ([s].any fun s => s.name
                          = some (vjpName n)) = false := hnd.2
                      simp only [List.any_cons, List.any_nil,
                        Bool.or_false] at this
                      rw [hsname, ← heq] at this
                      simp at this
                    have hhas1 : hasSym st1 (vjpName n) = false := by
                      unfold hasSym at hhasn ⊢
                      rw [show st1.syms = dset (mkZero st).1.syms
                        (vjpName nw) s from hsyms1]
                      rw [dget_dset_ne (vjpName nw) (vjpName n) s hne]
                      exact hhasn
                    exact ih4 v hvt n hn hhas1

/-- C4: for every Tape on which `vjp` succeeds, the derivative Graph
declares as inputs exactly the reverse-adjoint names of the original
Graph's declared outputs (in order), declares as outputs exactly the
reverse-adjoint names of the original Graph's declared inputs, and
every original input whose adjoint name accumulated nothing during the
reverse walk is bound, through a terminal node, to a `ZeroLiteral` —
which resolves to `0` in every context, so executing the derivative
Graph never fails with a missing key for such inputs. -/
theorem vjp_inputs_outputs_zero_seeded (tape : Tape) (m' : ModelState)
    (h : vjp tape = .ok m') :
    m'.vin.map Sym.name
      = tape.model.vout.map (fun s => s.name.map (fun n => vjpName n))
    ∧ m'.vout.map Sym.name
      = tape.model.vin.map (fun s => s.name.map (fun n => vjpName n))
    ∧ ∃ st1 st2,
        vjpInputs tape.model.vout emptyModel = .ok st1
        ∧ vjpWalk tape.model tape.records.reverse st1 = .ok st2
        ∧ ∀ v ∈ tape.model.vin, ∀ n, v.name = some n →
            hasSym st2 (vjpName n) = false →
            ∃ nd z s, nd ∈ m'.nodes ∧ nd.op = .terminalO
              ∧ nd.varin = [("x", z)] ∧ z.kind = .zero
              ∧ nd.varout = [("y", s)] ∧ s.name = some (vjpName n)
              ∧ ∀ ctx, resolveSym ctx z = .ok (.num 0) := by
  unfold vjp at h
  cases h1 : vjpInputs tape.model.vout emptyModel with
  | error e => rw [h1] at h; exact absurd h (by simp [except_bind_err])
  | ok st1 =>
      rw [h1, except_bind_ok] at h
      cases h2 : vjpWalk tape.model tape.records.reverse st1 with
      | error e => rw [h2] at h; exact absurd h (by simp [except_bind_err])
      | ok st2 =>
          rw [h2, except_bind_ok] at h
          unfold vjpMark at h
          obtain ⟨hm1, hm2, _, hm4⟩ := vjpMarkList_spec tape.model.vin st2 m' h
          obtain ⟨hi1, hi2, _⟩ := vjpInputs_spec tape.model.vout emptyModel
            st1 h1
          obtain ⟨hw1, hw2⟩ := vjpWalk_vinout tape.model
            tape.records.reverse st1 st2 h2
          refine ⟨?_, ?_, st1, st2, rfl, h2, ?_⟩
          · rw [hm1, hw1, hi1]
            rfl
          · rw [hm2, hw2, hi2]
            rfl
          · intro v hv n hn hhasn
            obtain ⟨nd, z, s, hmem, hop, hvarin, hkind, hvarout, hname⟩ :=
              hm4 v hv n hn hhasn
            exact ⟨nd, z, s, hmem, hop, hvarin, hkind, hvarout, hname,
              resolveSym_zero z hkind⟩

/-- Witness for `vjp_inputs_outputs_zero_seeded` on the dead-end-input
graph (`x`, `w` inputs, `c = x` output): the derivative graph takes
`_c`, declares `_x` and `_w`, and binds the dead end `_w` through a
zero literal. -/
theorem vjp_inputs_outputs_zero_seeded_witness :
    zeroVjpM.vin.map Sym.name
      = zeroM.vout.map (fun s => s.name.map (fun n => vjpName n))
    ∧ zeroVjpM.vout.map Sym.name
      = zeroM.vin.map (fun s => s.name.map (fun n => vjpName n))
    ∧ ∃ st1 st2,
        vjpInputs zeroM.vout emptyModel = .ok st1
        ∧ vjpWalk zeroM zeroTape.records.reverse st1 = .ok st2
        ∧ ∀ v ∈ zeroM.vin, ∀ n, v.name = some n →
            hasSym st2 (vjpName n) = false →
            ∃ nd z s, nd ∈ zeroVjpM.nodes ∧ nd.op = .terminalO
              ∧ nd.varin = [("x", z)] ∧ z.kind = .zero
              ∧ nd.varout = [("y", s)] ∧ s.name = some (vjpName n)
              ∧ ∀ ctx, resolveSym ctx z = .ok (.num 0) := by
  have h := vjp_inputs_outputs_zero_seeded zeroTape zeroVjpM (by decide)
  have hmodel : zeroTape.model = zeroM := by decide
  rw [hmodel] at h
  exact h

/-! ### Generic execution lemmas for the accumulation law -/

/-- Unfolding an ordered-dict lookup one entry at a time. -/
theorem dget_cons {α : Type} (pk : String) (pv : α) (t : List (String × α))
    (key : String) :
    dget ((pk, pv) :: t) key = if key = pk then some pv else dget t key := by
  simp only [dget, List.lookup]
  cases hbeq : key == pk with
  | true =>
      rw [if_pos (beq_iff_eq.mp hbeq)]
  | false =>
      rw [if_neg (beq_eq_false_iff_ne.mp hbeq)]

/-- A lookup that succeeds in a key-filtered list implies the key
passes the filter. -/
theorem dget_filter_key_pass {α : Type} (f : String → Bool) :
    ∀ (l : List (String × α)) (key : String) (v : α),
      dget (l.filter (fun p => f p.1)) key = some v → f key = true := by
  intro l
  induction l with
  | nil => intro key v h; exact absurd h (by simp [dget])
  | cons p t ih =>
      rcases p with ⟨pk, pv⟩
      intro key v h
      rw [List.filter_cons] at h
      by_cases hf : f pk = true
      · simp only [hf, if_true] at h
        rw [dget_cons] at h
        by_cases hk : key = pk
        · rw [hk]; exact hf
        · rw [if_neg hk] at h; exact ih key v h
      · simp only [Bool.not_eq_true] at hf
        simp only [hf, Bool.false_eq_true, if_false] at h
        exact ih key v h

/-- Filtering by a key predicate preserves successful lookups. -/
theorem dget_filter_key {α : Type} (f : String → Bool) :
    ∀ (l : List (String × α)) (key : String) (v : α),
      dget (l.filter (fun p => f p.1)) key = some v → dget l key = some v := by
  intro l
  induction l with
  | nil => intro key v h; exact h
  | cons p t ih =>
      rcases p with ⟨pk, pv⟩
      intro key v h
      have hpass := dget_filter_key_pass f ((pk, pv) :: t) key v h
      rw [List.filter_cons] at h
      by_cases hf : f pk = true
      · simp only [hf, if_true] at h
        rw [dget_cons] at h
        rw [dget_cons]
        by_cases hk : key = pk
        · rw [if_pos hk] at h
          rw [if_pos hk]
          exact h
        · rw [if_neg hk] at h
          rw [if_neg hk]
          exact ih key v h
      · simp only [Bool.not_eq_true] at hf
        simp only [hf, Bool.false_eq_true, if_false] at h
        rw [dget_cons]
        by_cases hk : key = pk
        · rw [hk] at hpass
          rw [hpass] at hf
          exact absurd hf (by simp)
        · rw [if_neg hk]
          exact ih key v h

/-- Updating a key makes it look up to the new value. -/
theorem dget_dset_self {α : Type} (k : String) (v : α) :
    ∀ l : List (String × α), dget (dset l k v) k = some v := by
  intro l
  induction l with
  | nil =>
      unfold dset
      rw [dget_cons, if_pos rfl]
  | cons p t ih =>
      rcases p with ⟨pk, pv⟩
      by_cases hp : pk = k
      · subst hp
        unfold dset
        rw [if_pos rfl, dget_cons, if_pos rfl]
      · unfold dset
        rw [if_neg hp, dget_cons, if_neg (fun hc => hp hc.symm)]
        exact ih

/-- The write history under one name distributes over appending. -/
theorem histAt_append (h1 h2 : List (String × Value)) (nm : String) :
    histAt (h1 ++ h2) nm = histAt h1 nm ++ histAt h2 nm := by
  unfold histAt
  rw [List.filter_append, List.map_append]

/-- A single write to the name is its whole one-name history. -/
theorem histAt_single_self (nm : String) (v : Value) :
    histAt [(nm, v)] nm = [v] := by
  simp [histAt]

/-- A single write to a different name contributes nothing. -/
theorem histAt_single_other (nm w : String) (v : Value) (hne : w ≠ nm) :
    histAt [(w, v)] nm = [] := by
  simp [histAt, hne]

/-- After writing a name, its last value is the written one. -/
theorem lastVal_append_self (init : Ctx) (h : List (String × Value))
    (nm : String) (v : Value) :
    lastVal init (h ++ [(nm, v)]) nm = some v := by
  unfold lastVal
  rw [histAt_append, histAt_single_self, List.getLast?_concat]

/-- Writing a different name leaves a name's last value unchanged. -/
theorem lastVal_append_other (init : Ctx) (h : List (String × Value))
    (nm w : String) (v : Value) (hne : w ≠ nm) :
    lastVal init (h ++ [(w, v)]) nm = lastVal init h nm := by
  unfold lastVal
  rw [histAt_append, histAt_single_other _ _ _ hne, List.append_nil]

/-- Context consistency holds initially. -/
theorem ctxInv_init (init : Ctx) : CtxInv init init [] := by
  intro nm v hv
  unfold lastVal histAt
  simpa using hv

/-- Context consistency is preserved by one store
(`context[name] = value` paired with its history entry). -/
theorem ctxInv_write (init ctx : Ctx) (h : List (String × Value))
    (inv : CtxInv init ctx h) (nm : String) (v : Value) :
    CtxInv init (dset ctx nm v) (h ++ [(nm, v)]) := by
  intro nm' v' hget
  by_cases hk : nm' = nm
  · subst hk
    rw [dget_dset_self] at hget
    injection hget with hv
    rw [lastVal_append_self, hv]
  · rw [dget_dset_ne nm nm' v (fun hc => hk hc.symm) ctx] at hget
    rw [lastVal_append_other init h nm' nm v (fun hc => hk hc.symm)]
    exact inv nm' v' hget

/-- Context consistency is preserved by the eviction of unused entries
(`Context.remove_unused`), which filters by key only. -/
theorem ctxInv_removeUnused (init ctx : Ctx) (h : List (String × Value))
    (nodes : List Node) (inv : CtxInv init ctx h) :
    CtxInv init (removeUnused ctx nodes) h := by
  intro nm v hget
  unfold removeUnused at hget
  exact inv nm v (dget_filter_key _ ctx nm v hget)

/-- Full inversion of a successful output store: the writes performed
are appended in output order, named by the output symbols, and context
consistency is preserved across the store. -/
theorem storeOuts_spec (r : KwDict) :
    ∀ (vout : List (String × Sym)) (ctx : Ctx) (ws0 : List (String × Value))
      (ctx' : Ctx) (ws' : List (String × Value)),
      storeOuts r vout ctx ws0 = .ok (ctx', ws') →
      ∃ ws1, ws' = ws0 ++ ws1
        ∧ List.Forall₂ (fun (w : String × Value) (p : String × Sym) =>
            some w.1 = p.2.name) ws1 vout
        ∧ ∀ (init : Ctx) (h : List (String × Value)),
            CtxInv init ctx h → CtxInv init ctx' (h ++ ws1) := by
  intro vout
  induction vout with
  | nil =>
      intro ctx ws0 ctx' ws' h
      unfold storeOuts at h
      injection h with h
      injection h with h1 h2
      refine ⟨[], by rw [← h2, List.append_nil], List.Forall₂.nil, ?_⟩
      intro init hh hinv
      rw [List.append_nil, ← h1]
      exact hinv
  | cons p t ih =>
      rcases p with ⟨a, s⟩
      intro ctx ws0 ctx' ws' h
      unfold storeOuts at h
      cases hv : dget r a with
      | none => rw [hv] at h; exact absurd h (by simp)
      | some v =>
          rw [hv] at h
          simp only [] at h
          cases hn : s.name with
          | none => rw [hn] at h; exact absurd h (by simp)
          | some nm =>
              rw [hn] at h
              obtain ⟨ws1, hws, hfa, hinv⟩ :=
                ih (dset ctx nm v) (ws0 ++ [(nm, v)]) ctx' ws' h
              refine ⟨(nm, v) :: ws1, ?_, ?_, ?_⟩
              · rw [hws, List.append_assoc]
                rfl
              · exact List.Forall₂.cons (by rw [hn]) hfa
              · intro init hh hinv0
                have h2 := hinv init (hh ++ [(nm, v)])
                  (ctxInv_write init ctx hh hinv0 nm v)
                rwa [List.append_assoc] at h2

/-- Full inversion of a successful `Context.execute` into its stages. -/
theorem execNode_full (nd : Node) (ctx ctx' : Ctx) (record : TapeRec)
    (ws : List (String × Value))
    (h : execNode nd ctx = .ok (ctx', record, ws)) :
    ∃ resolved kw r,
      resolveVarin ctx nd.varin = .ok resolved
      ∧ addSideArgs nd (prim nd.op).argnames resolved = .ok kw
      ∧ (prim nd.op).impl kw = .ok r
      ∧ storeOuts r nd.varout ctx [] = .ok (ctx', ws)
      ∧ record = { node := nd, implKwargs := resolved } := by
  unfold execNode at h
  cases hres : resolveVarin ctx nd.varin with
  | error e => rw [hres] at h; exact absurd h (by simp [except_bind_err])
  | ok resolved =>
      rw [hres, except_bind_ok] at h
      cases hside : addSideArgs nd (prim nd.op).argnames resolved with
      | error e => rw [hside] at h; exact absurd h (by simp [except_bind_err])
      | ok kw =>
          rw [hside, except_bind_ok] at h
          cases himpl : (prim nd.op).impl kw with
          | error e => rw [himpl] at h; exact absurd h (by simp [except_bind_err])
          | ok r =>
              rw [himpl, except_bind_ok] at h
              cases hst : storeOuts r nd.varout ctx [] with
              | error e => rw [hst] at h; exact absurd h (by simp [except_bind_err])
              | ok q =>
                  rw [hst, except_bind_ok] at h
                  injection h with h
                  rcases q with ⟨c2, w2⟩
                  injection h with h1 h
                  injection h with h2 h3
                  simp only [] at h1 h3
                  refine ⟨resolved, kw, r, rfl, hside, himpl, ?_, h2.symm⟩
                  rw [← h1, ← h3]
                  exact hst

/-- Inversion of one step of the node loop of `Context.compute`. -/
theorem computeLoop_cons (st : ModelState) (nd : Node) (rest : List Node)
    (es es' : ExecState) (h : computeLoop st (nd :: rest) es = .ok es') :
    ∃ es1 es2,
      (if resultUsed st nd then
         ∃ ctx' record ws, execNode nd es.ctx = .ok (ctx', record, ws)
           ∧ es1 = { es with ctx := ctx', recs := es.recs ++ [record]
                             hist := es.hist ++ ws }
       else es1 = es)
      ∧ (if nd.op = .terminalO then captureOuts nd es1 = .ok es2
         else es2 = es1)
      ∧ computeLoop st rest { es2 with ctx := removeUnused es2.ctx rest }
          = .ok es' := by
  unfold computeLoop at h
  by_cases hres : resultUsed st nd = true
  · rw [hres] at h
    simp only [if_true, except_bind_ok, pure_bind] at h
    cases hex : execNode nd es.ctx with
    | error e => rw [hex] at h; exact absurd h (by simp [except_bind_err])
    | ok p =>
        rcases p with ⟨ctx', record, ws⟩
        rw [hex] at h
        simp only [except_bind_ok, pure_bind] at h
        set es1 : ExecState :=
          { es with ctx := ctx', recs := es.recs ++ [record]
                    hist := es.hist ++ ws } with hes1
        by_cases hop : nd.op = .terminalO
        · rw [if_pos hop] at h
          cases hcap : captureOuts nd es1 with
          | error e => rw [hcap] at h; exact absurd h (by simp [except_bind_err])
          | ok es2 =>
              rw [hcap, except_bind_ok] at h
              exact ⟨es1, es2, by rw [if_pos hres]; exact ⟨ctx', record, ws, rfl, rfl⟩,
                by rw [if_pos hop]; exact hcap, h⟩
        · rw [if_neg hop] at h
          exact ⟨es1, es1, by rw [if_pos hres]; exact ⟨ctx', record, ws, rfl, rfl⟩,
            by rw [if_neg hop], h⟩
  · rw [Bool.not_eq_true] at hres
    rw [hres] at h
    simp only [Bool.false_eq_true, if_false, except_bind_ok, pure_bind] at h
    by_cases hop : nd.op = .terminalO
    · rw [if_pos hop] at h
      cases hcap : captureOuts nd es with
      | error e => rw [hcap] at h; exact absurd h (by simp [except_bind_err])
      | ok es2 =>
          rw [hcap, except_bind_ok] at h
          refine ⟨es, es2, ?_, by rw [if_pos hop]; exact hcap, h⟩
          rw [hres]
          simp
    · rw [if_neg hop] at h
      refine ⟨es, es, ?_, by rw [if_neg hop], h⟩
      rw [hres]
      simp

/-- `contains` agrees with membership (naturals). -/
theorem contains_iff_mem_nat (l : List Nat) (a : Nat) :
    l.contains a = true ↔ a ∈ l := by
  simp [List.contains]

/-- `contains` agrees with membership (strings). -/
theorem contains_iff_mem_str (l : List String) (a : String) :
    l.contains a = true ↔ a ∈ l := by
  simp [List.contains]

/-- The equation of the Boolean no-duplicates check on a cons cell. -/
theorem nodupB_cons (x : Nat) (t : List Nat) :
    nodupB (x :: t) = (!(t.contains x) && nodupB t) := rfl

/-- Unfolding the Boolean no-duplicates check one element at a time. -/
theorem nodupB_cons_iff (x : Nat) (t : List Nat) :
    nodupB (x :: t) = true ↔ ¬ x ∈ t ∧ nodupB t = true := by
  rw [nodupB_cons, Bool.and_eq_true, Bool.not_eq_true']
  constructor
  · rintro ⟨h1, h2⟩
    refine ⟨fun hm => ?_, h2⟩
    rw [(contains_iff_mem_nat t x).mpr hm] at h1
    exact absurd h1 (by simp)
  · rintro ⟨h1, h2⟩
    refine ⟨?_, h2⟩
    cases hc : t.contains x with
    | false => rfl
    | true => exact absurd ((contains_iff_mem_nat t x).mp hc) h1

/-- Disjoint duplicate-free lists concatenate duplicate-free. -/
theorem nodupB_append : ∀ (A B : List Nat), nodupB A = true →
    nodupB B = true → (∀ a ∈ A, ¬ a ∈ B) → nodupB (A ++ B) = true := by
  intro A
  induction A with
  | nil => intro B _ hB _; exact hB
  | cons x t ih =>
      intro B hA hB hd
      obtain ⟨hx, ht⟩ := (nodupB_cons_iff x t).mp hA
      rw [List.cons_append]
      refine (nodupB_cons_iff _ _).mpr
        ⟨?_, ih B ht hB (fun a ha => hd a (List.mem_cons_of_mem x ha))⟩
      intro hm
      rcases List.mem_append.mp hm with h | h
      · exact hx h
      · exact hd x (List.mem_cons_self x t) h

/-- Filtering preserves the Boolean no-duplicates check. -/
theorem nodupB_filter (f : Nat → Bool) :
    ∀ l : List Nat, nodupB l = true → nodupB (l.filter f) = true := by
  intro l
  induction l with
  | nil => intro h; exact h
  | cons x t ih =>
      intro h
      obtain ⟨hx, ht⟩ := (nodupB_cons_iff x t).mp h
      rw [List.filter_cons]
      cases hf : f x with
      | false =>
          simp only [Bool.false_eq_true, if_false]
          exact ih ht
      | true =>
          simp only [if_true]
          exact (nodupB_cons_iff _ _).mpr
            ⟨fun hm => hx (List.mem_of_mem_filter hm), ih ht⟩

/-- On a duplicate-free key list, erasing a key equals filtering the
pairs by that key. -/
theorem erase_eq_filter_fst (j : Nat) :
    ∀ (p : List (Nat × Value)),
      nodupB (p.map (fun q => q.1)) = true →
      (p.map (fun q => q.1)).erase j
        = (p.filter (fun q => q.1 ≠ j)).map (fun q => q.1) := by
  intro p
  induction p with
  | nil => intro _; rfl
  | cons q t ih =>
      rcases q with ⟨x, v⟩
      intro h
      rw [List.map_cons] at h ⊢
      obtain ⟨hx, ht⟩ := (nodupB_cons_iff _ _).mp h
      rw [List.filter_cons, List.erase_cons]
      by_cases hxj : x = j
      · subst hxj
        rw [if_pos (beq_self_eq_true x)]
        have hcond : (decide ((x, v).1 ≠ x)) = false := by simp
        rw [hcond]
        simp only [Bool.false_eq_true, if_false]
        have hself : t.filter (fun q => decide (q.1 ≠ x)) = t := by
          refine List.filter_eq_self.mpr ?_
          intro q hq
          simp only [decide_eq_true_eq]
          intro hc
          exact hx (hc ▸ List.mem_map_of_mem (fun q => q.1) hq)
        rw [hself]
      · rw [if_neg (fun hc => hxj (beq_iff_eq.mp hc))]
        have hcond : (decide ((x, v).1 ≠ j)) = true := by simp [hxj]
        rw [hcond]
        simp only [if_true, List.map_cons]
        rw [ih ht]

/-- Erasing preserves the Boolean no-duplicates check. -/
theorem nodupB_erase (j : Nat) :
    ∀ l : List Nat, nodupB l = true → nodupB (l.erase j) = true := by
  intro l
  induction l with
  | nil => intro h; exact h
  | cons x t ih =>
      intro h
      obtain ⟨hx, ht⟩ := (nodupB_cons_iff x t).mp h
      rw [List.erase_cons]
      by_cases hxj : x = j
      · rw [if_pos (by simpa using hxj)]
        exact ht
      · rw [if_neg (by simpa using hxj)]
        exact (nodupB_cons_iff _ _).mpr
          ⟨fun hm => hx (List.mem_of_mem_erase hm), ih ht⟩

/-- A key-duplicate-free association list looks its members up. -/
theorem lookup_of_mem_nodupB :
    ∀ (P : List (Nat × Value)) (q : Nat × Value),
      nodupB (P.map (fun r => r.1)) = true → q ∈ P →
      P.lookup q.1 = some q.2 := by
  intro P
  induction P with
  | nil => intro q _ hm; exact absurd hm (by simp)
  | cons r t ih =>
      rcases r with ⟨x, v⟩
      intro q h hm
      rw [List.map_cons] at h
      obtain ⟨hx, ht⟩ := (nodupB_cons_iff _ _).mp h
      rcases List.mem_cons.mp hm with hq | hq
      · subst hq
        rw [List.lookup_cons]
        simp
      · have hqx : q.1 ≠ x := by
          intro hc
          exact hx (hc ▸ List.mem_map_of_mem (fun r => r.1) hq)
        rw [List.lookup_cons]
        rw [show (q.1 == x) = false from beq_eq_false_iff_ne.mpr hqx]
        exact ih q ht hq

/-- A key absent from an association list looks up to nothing. -/
theorem lookup_eq_none_of_not_mem :
    ∀ (P : List (Nat × Value)) (j : Nat),
      ¬ j ∈ P.map (fun r => r.1) → P.lookup j = none := by
  intro P
  induction P with
  | nil => intro j _; rfl
  | cons r t ih =>
      rcases r with ⟨x, v⟩
      intro j hj
      rw [List.map_cons] at hj
      rw [List.lookup_cons]
      have hjx : j ≠ x := fun hc => hj (hc ▸ List.mem_cons_self x _)
      rw [show (j == x) = false from beq_eq_false_iff_ne.mpr hjx]
      exact ih j (fun hm => hj (List.mem_cons_of_mem x hm))

/-- Unfolding the one-name history one write at a time. -/
theorem histAt_cons (x : String × Value) (l : List (String × Value))
    (nm : String) :
    histAt (x :: l) nm
      = if x.1 = nm then x.2 :: histAt l nm else histAt l nm := by
  unfold histAt
  rw [List.filter_cons]
  by_cases h : x.1 = nm
  · simp [h]
  · simp [h]

/-- The occurrence name equals the canonical adjoint name exactly for
the largest ordinal. -/
theorem wName_eq_canon (n : String) (k j : Nat) (hj : j ∈ List.range' 1 k)
    (hN : (advNames n k).Nodup) :
    wName n k j = vjpName n ↔ j = k := by
  unfold wName
  by_cases h : j = k
  · simp [h]
  · simp only [if_neg h]
    constructor
    · intro hc
      exfalso
      have hN' : (vjpName n :: (List.range' 1 k).map (privName n)).Nodup := hN
      have hmem : privName n j ∈ (List.range' 1 k).map (privName n) :=
        List.mem_map_of_mem _ hj
      exact (List.nodup_cons.mp hN').1 (hc ▸ hmem)
    · intro hc
      exact absurd hc h

/-- Private partial names are injective on the ordinal range. -/
theorem privName_inj_on (n : String) (k : Nat)
    (hN : (advNames n k).Nodup) (j j' : Nat)
    (hj : j ∈ List.range' 1 k) (hj' : j' ∈ List.range' 1 k)
    (heq : privName n j = privName n j') : j = j' := by
  have hN' : (vjpName n :: (List.range' 1 k).map (privName n)).Nodup := hN
  exact List.inj_on_of_nodup_map (List.nodup_cons.mp hN').2 hj hj' heq

/-- The canonical adjoint name differs from every in-range private
name. -/
theorem canon_ne_priv (n : String) (k j : Nat) (hj : j ∈ List.range' 1 k)
    (hN : (advNames n k).Nodup) : vjpName n ≠ privName n j := by
  intro hc
  have hN' : (vjpName n :: (List.range' 1 k).map (privName n)).Nodup := hN
  exact (List.nodup_cons.mp hN').1 (hc ▸ List.mem_map_of_mem _ hj)

/-- A write block with no largest-ordinal tag writes nothing to the
canonical name. -/
theorem histAt_block_canon_none (n : String) (k : Nat)
    (hN : (advNames n k).Nodup) :
    ∀ (P : List (Nat × Value)),
      (∀ q ∈ P, q.1 ∈ List.range' 1 k) →
      (∀ q ∈ P, q.1 ≠ k) →
      histAt (P.map (fun q => (wName n k q.1, q.2))) (vjpName n) = [] := by
  intro P
  induction P with
  | nil => intro _ _; rfl
  | cons q t ih =>
      rcases q with ⟨j, v⟩
      intro hr hk
      rw [List.map_cons, histAt_cons]
      have hjk : j ≠ k := hk (j, v) (List.mem_cons_self _ _)
      have hname : wName n k j ≠ vjpName n := by
        rw [Ne, wName_eq_canon n k j (hr (j, v) (List.mem_cons_self _ _)) hN]
        exact hjk
      rw [if_neg hname]
      exact ih (fun q hq => hr q (List.mem_cons_of_mem _ hq))
        (fun q hq => hk q (List.mem_cons_of_mem _ hq))

/-- The canonical-name writes of one write block: the value tagged with
the largest ordinal, if present. -/
theorem histAt_block_canon (n : String) (k : Nat)
    (hN : (advNames n k).Nodup) :
    ∀ (P : List (Nat × Value)),
      (∀ q ∈ P, q.1 ∈ List.range' 1 k) →
      nodupB (P.map (fun q => q.1)) = true →
      histAt (P.map (fun q => (wName n k q.1, q.2))) (vjpName n)
        = match P.lookup k with
          | some v => [v]
          | none => [] := by
  intro P
  induction P with
  | nil => intro _ _; rfl
  | cons q t ih =>
      rcases q with ⟨j, v⟩
      intro hr hnd
      rw [List.map_cons] at hnd
      obtain ⟨hj, hndt⟩ := (nodupB_cons_iff _ _).mp hnd
      rw [List.map_cons, histAt_cons, List.lookup_cons]
      by_cases hjk : j = k
      · rw [if_pos ((wName_eq_canon n k j
            (hr (j, v) (List.mem_cons_self _ _)) hN).mpr hjk)]
        rw [show (k == j) = true from beq_iff_eq.mpr hjk.symm]
        have hnone := histAt_block_canon_none n k hN t
          (fun q hq => hr q (List.mem_cons_of_mem _ hq))
          (fun q hq hc => hj (by
            rw [← hjk] at hc
            exact hc ▸ List.mem_map_of_mem (fun q => q.1) hq))
        rw [hnone]
      · have hname : wName n k j ≠ vjpName n := by
          rw [Ne, wName_eq_canon n k j (hr (j, v) (List.mem_cons_self _ _)) hN]
          exact hjk
        rw [if_neg hname]
        rw [show (k == j) = false from
          beq_eq_false_iff_ne.mpr (fun hc => hjk hc.symm)]
        exact ih (fun q hq => hr q (List.mem_cons_of_mem _ hq)) hndt

/-- A write block not mentioning an ordinal writes nothing to its
private name. -/
theorem histAt_block_priv_none (n : String) (k : Nat)
    (hN : (advNames n k).Nodup) (j0 : Nat) (hj0 : j0 ∈ List.range' 1 k) :
    ∀ (P : List (Nat × Value)),
      (∀ q ∈ P, q.1 ∈ List.range' 1 k) →
      (∀ q ∈ P, q.1 ≠ j0) →
      histAt (P.map (fun q => (wName n k q.1, q.2))) (privName n j0) = [] := by
  intro P
  induction P with
  | nil => intro _ _; rfl
  | cons q t ih =>
      rcases q with ⟨j, v⟩
      intro hr hk
      rw [List.map_cons, histAt_cons]
      have hjj0 : j ≠ j0 := hk (j, v) (List.mem_cons_self _ _)
      have hname : wName n k j ≠ privName n j0 := by
        unfold wName
        by_cases hjk : j = k
        · rw [if_pos hjk]
          exact canon_ne_priv n k j0 hj0 hN
        · rw [if_neg hjk]
          intro hc
          exact hjj0 (privName_inj_on n k hN j j0
            (hr (j, v) (List.mem_cons_self _ _)) hj0 hc)
      rw [if_neg hname]
      exact ih (fun q hq => hr q (List.mem_cons_of_mem _ hq))
        (fun q hq => hk q (List.mem_cons_of_mem _ hq))

/-- The private-name writes of one write block: the value tagged with
that ordinal, if present. -/
theorem histAt_block_priv (n : String) (k : Nat)
    (hN : (advNames n k).Nodup) (j0 : Nat) (hj0 : j0 ∈ List.range' 1 k)
    (hj0k : j0 ≠ k) :
    ∀ (P : List (Nat × Value)),
      (∀ q ∈ P, q.1 ∈ List.range' 1 k) →
      nodupB (P.map (fun q => q.1)) = true →
      histAt (P.map (fun q => (wName n k q.1, q.2))) (privName n j0)
        = match P.lookup j0 with
          | some v => [v]
          | none => [] := by
  intro P
  induction P with
  | nil => intro _ _; rfl
  | cons q t ih =>
      rcases q with ⟨j, v⟩
      intro hr hnd
      rw [List.map_cons] at hnd
      obtain ⟨hj, hndt⟩ := (nodupB_cons_iff _ _).mp hnd
      rw [List.map_cons, histAt_cons, List.lookup_cons]
      by_cases hjj0 : j = j0
      · have hname : wName n k j = privName n j0 := by
          unfold wName
          rw [hjj0, if_neg hj0k]
        rw [if_pos hname]
        rw [show (j0 == j) = true from beq_iff_eq.mpr hjj0.symm]
        have hnone := histAt_block_priv_none n k hN j0 hj0 t
          (fun q hq => hr q (List.mem_cons_of_mem _ hq))
          (fun q hq hc => hj (by
            rw [← hjj0] at hc
            exact hc ▸ List.mem_map_of_mem (fun q => q.1) hq))
        rw [hnone]
      · have hname : wName n k j ≠ privName n j0 := by
          unfold wName
          by_cases hjk : j = k
          · rw [if_pos hjk]
            exact canon_ne_priv n k j0 hj0 hN
          · rw [if_neg hjk]
            intro hc
            exact hjj0 (privName_inj_on n k hN j j0
              (hr (j, v) (List.mem_cons_self _ _)) hj0 hc)
        rw [if_neg hname]
        rw [show (j0 == j) = false from
          beq_eq_false_iff_ne.mpr (fun hc => hjj0 hc.symm)]
        exact ih (fun q hq => hr q (List.mem_cons_of_mem _ hq)) hndt

/-- The names of the adjoint-name writes a store performs are the
output symbols' adjoint-name sublist, in order. -/
theorem writes_filter_names (n : String) (k : Nat) :
    ∀ (ws1 : List (String × Value)) (vout : List (String × Sym)),
      List.Forall₂ (fun (w : String × Value) (p : String × Sym) =>
        some w.1 = p.2.name) ws1 vout →
      (ws1.filter (inN n k)).map (fun w => w.1)
        = (vout.filterMap (fun p => p.2.name)).filter
            (fun nm => (advNames n k).contains nm) := by
  intro ws1 vout h
  induction h with
  | nil => rfl
  | @cons w p ws vouts hpq hrest ih =>
      cases hn : p.2.name with
      | none => exact absurd (hpq.trans hn) (by simp)
      | some nm =>
          have hw : w.1 = nm := by
            have := hpq.trans hn
            injection this
          rw [List.filter_cons,
            @List.filterMap_cons_some (String × Sym) String
              (fun p => p.2.name) p vouts nm hn,
            List.filter_cons]
          simp only [inN, hw]
          cases hc : (advNames n k).contains nm with
          | false =>
              simp only [Bool.false_eq_true, if_false]
              exact ih
          | true =>
              simp only [if_true]
              rw [List.map_cons, hw, ih]

/-- A list of pairs whose first components are `L` is a zip with its
second components. -/
theorem eq_zip_of_map_fst :
    ∀ (l : List (String × Value)) (L : List String),
      l.map (fun w => w.1) = L →
      ∃ vals, vals.length = L.length ∧ l = L.zip vals := by
  intro l
  induction l with
  | nil =>
      intro L h
      rw [← h]
      exact ⟨[], rfl, rfl⟩
  | cons w t ih =>
      rcases w with ⟨wn, wv⟩
      intro L h
      cases L with
      | nil => exact absurd h (by simp)
      | cons a L' =>
          rw [List.map_cons] at h
          injection h with h1 h2
          obtain ⟨vals, hlen, hzip⟩ := ih L' h2
          refine ⟨wv :: vals, by simp [hlen], ?_⟩
          rw [List.zip_cons_cons, ← h1, ← hzip]

/-- Zipping a mapped list equals mapping the zipped pairs. -/
theorem zip_map_left_pair (f : Nat → String) :
    ∀ (G : List Nat) (vals : List Value),
      (G.map f).zip vals = (G.zip vals).map (fun q => (f q.1, q.2)) := by
  intro G
  induction G with
  | nil => intro vals; rfl
  | cons j t ih =>
      intro vals
      cases vals with
      | nil => rfl
      | cons v vs =>
          rw [List.map_cons, List.zip_cons_cons, List.zip_cons_cons,
            List.map_cons, ih vs]

/-- A store by a node that touches no adjoint name contributes no
adjoint-name writes. -/
theorem writes_filter_nil_of_not_touches (n : String) (k : Nat) :
    ∀ (ws1 : List (String × Value)) (vout : List (String × Sym)),
      List.Forall₂ (fun (w : String × Value) (p : String × Sym) =>
        some w.1 = p.2.name) ws1 vout →
      vout.any (fun p =>
        match p.2.name with
        | some nm => (advNames n k).contains nm
        | none => false) = false →
      ws1.filter (inN n k) = [] := by
  intro ws1 vout h
  induction h with
  | nil => intro _; rfl
  | @cons w p ws vouts hpq hrest ih =>
      intro hany
      rw [List.any_cons, Bool.or_eq_false_iff] at hany
      cases hn : p.2.name with
      | none => exact absurd (hpq.trans hn) (by simp)
      | some nm =>
          have hw : w.1 = nm := by
            have := hpq.trans hn
            injection this
          have hc : (advNames n k).contains nm = false := by
            have := hany.1
            rw [hn] at this
            exact this
          rw [List.filter_cons]
          have : inN n k w = false := by
            unfold inN
            rw [hw]
            exact hc
          rw [this]
          simp only [Bool.false_eq_true, if_false]
          exact ih hany.2

/-- For an adjoint name, the one-name history of the adjoint-filtered
writes equals that of the full writes. -/
theorem histAt_filter_inN (n : String) (k : Nat) (nm : String)
    (hnm : (advNames n k).contains nm = true) :
    ∀ l : List (String × Value),
      histAt (l.filter (inN n k)) nm = histAt l nm := by
  intro l
  induction l with
  | nil => rfl
  | cons w t ih =>
      rw [List.filter_cons, histAt_cons]
      by_cases hw : w.1 = nm
      · have hiw : inN n k w = true := by
          unfold inN
          rw [hw]
          exact hnm
        rw [hiw, if_pos rfl, histAt_cons, if_pos hw, ih, if_pos hw]
      · cases hi : inN n k w with
        | true =>
            simp only [if_true, if_neg hw]
            rw [histAt_cons, if_neg hw, ih]
        | false =>
            simp only [Bool.false_eq_true, if_false, if_neg hw]
            exact ih

/-- Mapping first components commutes with filtering on them. -/
theorem map_fst_filter_ne (j : Nat) :
    ∀ P : List (Nat × Value),
      (P.filter (fun q => q.1 ≠ j)).map (fun q => q.1)
        = (P.map (fun q => q.1)).filter (fun x => x ≠ j) := by
  intro P
  induction P with
  | nil => rfl
  | cons q t ih =>
      rcases q with ⟨x, v⟩
      rw [List.filter_cons, List.map_cons, List.filter_cons]
      by_cases hx : x = j
      · have h1 : (decide ((x, v).1 ≠ j)) = false := by simp [hx]
        rw [h1]
        rw [if_neg Bool.false_ne_true, if_neg Bool.false_ne_true]
        exact ih
      · have h1 : (decide ((x, v).1 ≠ j)) = true := by simp [hx]
        rw [h1]
        rw [if_pos rfl, if_pos rfl, List.map_cons, ih]

/-- A zip of equal lengths looks a key up exactly when the key list
contains it. -/
theorem zip_lookup_contains :
    ∀ (G : List Nat) (vals : List Value), vals.length = G.length →
      ∀ x, ((G.zip vals).lookup x).isSome = G.contains x := by
  intro G
  induction G with
  | nil => intro vals _ x; rfl
  | cons j t ih =>
      intro vals hlen x
      cases vals with
      | nil => exact absurd hlen (by simp)
      | cons v vs =>
          rw [List.zip_cons_cons, List.lookup_cons]
          have hlen' : vs.length = t.length := by
            simpa using hlen
          have hcont : (j :: t).contains x = (x == j || t.contains x) := rfl
          rw [hcont]
          cases hx : x == j with
          | true => rfl
          | false =>
              rw [Bool.false_or]
              exact ih vs hlen' x

/-- A successful plain-symbol resolution is a context lookup. -/
theorem resolveSym_plain_ok (ctx : Ctx) (s : Sym) (nm : String) (v : Value)
    (hk : s.kind = .plain) (hn : s.name = some nm)
    (h : resolveSym ctx s = .ok v) : dget ctx nm = some v := by
  unfold resolveSym at h
  rw [hk] at h
  simp only [] at h
  rw [hn] at h
  simp only [] at h
  cases hl : ctx.lookup nm with
  | none => rw [hl] at h; exact absurd h (by simp)
  | some w =>
      rw [hl] at h
      injection h with h
      rw [← h]
      exact hl

/-- Inversion of resolving one more input argument. -/
theorem resolveVarin_cons_ok (ctx : Ctx) (a : String) (s : Sym)
    (t : List (String × Sym)) (res : KwDict)
    (h : resolveVarin ctx ((a, s) :: t) = .ok res) :
    ∃ v res', resolveSym ctx s = .ok v
      ∧ resolveVarin ctx t = .ok res' ∧ res = (a, v) :: res' := by
  unfold resolveVarin at h
  cases hs : resolveSym ctx s with
  | error e => rw [hs] at h; exact absurd h (by simp [except_bind_err])
  | ok v =>
      rw [hs, except_bind_ok] at h
      cases ht : resolveVarin ctx t with
      | error e => rw [ht] at h; exact absurd h (by simp [except_bind_err])
      | ok res' =>
          rw [ht, except_bind_ok] at h
          injection h with h
          exact ⟨v, res', rfl, rfl, h.symm⟩

/-- Side arguments change nothing when every formal parameter is
already bound. -/
theorem addSideArgs_all_present (nd : Node) :
    ∀ (l : List String) (kw : KwDict),
      (∀ a ∈ l, (dget kw a).isSome = true) →
      addSideArgs nd l kw = .ok kw := by
  intro l
  induction l with
  | nil => intro kw _; rfl
  | cons a t ih =>
      intro kw hall
      unfold addSideArgs
      cases hd : dget kw a with
      | none =>
          have hmem := hall a (List.mem_cons_self _ _)
          rw [hd] at hmem
          exact absurd hmem (by simp)
      | some v =>
          exact ih kw (fun b hb => hall b (List.mem_cons_of_mem _ hb))

/-- The `add` procedure on a bound argument dict: the sum, or the
error `pyAdd` raises. -/
theorem addO_impl_ok (kw : KwDict) (v1 v2 : Value) (r : KwDict)
    (h1 : dget kw "x1" = some v1) (h2 : dget kw "x2" = some v2)
    (h : (prim OpId.addO).impl kw = .ok r) :
    ∃ y, pyAdd v1 v2 = .ok y ∧ r = [("y", y)] := by
  have hred : (prim OpId.addO).impl kw
      = ((g kw "x1") >>= (fun x1 => (g kw "x2") >>= (fun x2 =>
          (pyAdd x1 x2) >>= (fun y => pure [("y", y)])))) := rfl
  rw [hred] at h
  unfold g at h
  rw [h1, h2] at h
  simp only [] at h
  rw [except_bind_ok, except_bind_ok] at h
  cases hadd : pyAdd v1 v2 with
  | error e =>
      rw [hadd, except_bind_err] at h
      exact absurd h (by simp)
  | ok y =>
      rw [hadd, except_bind_ok] at h
      injection h with h
      exact ⟨y, rfl, h.symm⟩

/-- The `terminal` procedure passes its input through. -/
theorem terminalO_impl_ok (kw : KwDict) (v : Value) (r : KwDict)
    (h1 : dget kw "x" = some v)
    (h : (prim OpId.terminalO).impl kw = .ok r) :
    r = [("y", v)] := by
  have hred : (prim OpId.terminalO).impl kw
      = ((g kw "x") >>= (fun x => pure [("y", x)])) := rfl
  rw [hred] at h
  unfold g at h
  rw [h1] at h
  simp only [] at h
  rw [except_bind_ok] at h
  injection h with h
  exact h.symm

/-- Storing the single output of a chain node. -/
theorem storeOuts_single (t' : Value) (sy : Sym) (nm : String) (ctx : Ctx)
    (ctx' : Ctx) (ws : List (String × Value)) (hny : sy.name = some nm)
    (h : storeOuts [("y", t')] [("y", sy)] ctx [] = .ok (ctx', ws)) :
    ctx' = dset ctx nm t' ∧ ws = [(nm, t')] := by
  unfold storeOuts at h
  rw [show dget [("y", t')] "y" = some t' from by
    rw [dget_cons, if_pos rfl]] at h
  simp only [] at h
  rw [hny] at h
  unfold storeOuts at h
  injection h with h
  injection h with h1 h2
  exact ⟨h1.symm, by rw [← h2, List.nil_append]⟩

/-- Executing a partial-adjoint `add` node: it reads the canonical
total and the private partial from the context and writes their sum to
the canonical name. -/
theorem execNode_acc (n : String) (j : Nat) (nd : Node) (ctx ctx' : Ctx)
    (record : TapeRec) (ws : List (String × Value)) (s1 s2 sy : Sym)
    (hop : nd.op = .addO)
    (hvin : nd.varin = [("x1", s1), ("x2", s2)])
    (hk1 : s1.kind = .plain) (hn1 : s1.name = some (vjpName n))
    (hk2 : s2.kind = .plain) (hn2 : s2.name = some (privName n j))
    (hvout : nd.varout = [("y", sy)]) (hny : sy.name = some (vjpName n))
    (h : execNode nd ctx = .ok (ctx', record, ws)) :
    ∃ v1 v2 t', dget ctx (vjpName n) = some v1
      ∧ dget ctx (privName n j) = some v2
      ∧ pyAdd v1 v2 = .ok t'
      ∧ ws = [(vjpName n, t')]
      ∧ ctx' = dset ctx (vjpName n) t' := by
  obtain ⟨resolved, kw, r, hres, hside, himpl, hst, hrec⟩ :=
    execNode_full nd ctx ctx' record ws h
  rw [hvin] at hres
  obtain ⟨v1, res1, hsym1, hres1, hres_eq⟩ := resolveVarin_cons_ok _ _ _ _ _ hres
  obtain ⟨v2, res2, hsym2, hres2, hres1_eq⟩ :=
    resolveVarin_cons_ok _ _ _ _ _ hres1
  have hres2_nil : res2 = [] := by
    unfold resolveVarin at hres2
    injection hres2 with h'
    exact h'.symm
  have hget1 := resolveSym_plain_ok ctx s1 _ v1 hk1 hn1 hsym1
  have hget2 := resolveSym_plain_ok ctx s2 _ v2 hk2 hn2 hsym2
  subst hres2_nil
  subst hres1_eq
  subst hres_eq
  rw [hop] at hside himpl
  have hpres : ∀ a ∈ ["x1", "x2"],
      (dget [("x1", v1), ("x2", v2)] a).isSome = true := by
    intro a ha
    rcases List.mem_cons.mp ha with h' | h'
    · subst h'
      rw [dget_cons, if_pos rfl]
      rfl
    · rcases List.mem_cons.mp h' with h'' | h''
      · subst h''
        rw [dget_cons, if_neg (by decide), dget_cons, if_pos rfl]
        rfl
      · exact absurd h'' (by simp)
  have hside_eq : addSideArgs nd (prim OpId.addO).argnames
      [("x1", v1), ("x2", v2)] = .ok [("x1", v1), ("x2", v2)] :=
    addSideArgs_all_present nd (prim OpId.addO).argnames _
      (by
        intro a ha
        exact hpres a ha)
  have hkw : kw = [("x1", v1), ("x2", v2)] := by
    have := hside_eq.symm.trans hside
    injection this with h'
    exact h'.symm
  subst hkw
  obtain ⟨y, hadd, hr⟩ := addO_impl_ok _ v1 v2 r
    (by rw [dget_cons, if_pos rfl])
    (by rw [dget_cons, if_neg (by decide), dget_cons, if_pos rfl])
    himpl
  subst hr
  rw [hvout] at hst
  obtain ⟨hctx', hws⟩ := storeOuts_single y sy (vjpName n) ctx ctx' ws hny hst
  exact ⟨v1, v2, y, hget1, hget2, hadd, hws, hctx'⟩

/-- Executing the echo `terminal` node: it reads the canonical total
and re-writes it to the canonical name. -/
theorem execNode_echo (n : String) (nd : Node) (ctx ctx' : Ctx)
    (record : TapeRec) (ws : List (String × Value)) (sx sy : Sym)
    (hop : nd.op = .terminalO)
    (hvin : nd.varin = [("x", sx)])
    (hkx : sx.kind = .plain) (hnx : sx.name = some (vjpName n))
    (hvout : nd.varout = [("y", sy)]) (hny : sy.name = some (vjpName n))
    (h : execNode nd ctx = .ok (ctx', record, ws)) :
    ∃ t, dget ctx (vjpName n) = some t
      ∧ ws = [(vjpName n, t)]
      ∧ ctx' = dset ctx (vjpName n) t := by
  obtain ⟨resolved, kw, r, hres, hside, himpl, hst, hrec⟩ :=
    execNode_full nd ctx ctx' record ws h
  rw [hvin] at hres
  obtain ⟨v1, res1, hsym1, hres1, hres_eq⟩ := resolveVarin_cons_ok _ _ _ _ _ hres
  have hres1_nil : res1 = [] := by
    unfold resolveVarin at hres1
    injection hres1 with h'
    exact h'.symm
  have hget1 := resolveSym_plain_ok ctx sx _ v1 hkx hnx hsym1
  subst hres1_nil
  subst hres_eq
  rw [hop] at hside himpl
  have hside_eq : addSideArgs nd (prim OpId.terminalO).argnames
      [("x", v1)] = .ok [("x", v1)] :=
    addSideArgs_all_present nd (prim OpId.terminalO).argnames _
      (by
        intro a ha
        rcases List.mem_cons.mp ha with h' | h'
        · subst h'
          rw [dget_cons, if_pos rfl]
          rfl
        · exact absurd h' (by simp))
  have hkw : kw = [("x", v1)] := by
    have := hside_eq.symm.trans hside
    injection this with h'
    exact h'.symm
  subst hkw
  have hr := terminalO_impl_ok _ v1 r (by rw [dget_cons, if_pos rfl]) himpl
  subst hr
  rw [hvout] at hst
  obtain ⟨hctx', hws⟩ := storeOuts_single v1 sy (vjpName n) ctx ctx' ws hny hst
  exact ⟨v1, hget1, hws, hctx'⟩

/-- The first components of an equal-length zip are the key list. -/
theorem zip_map_fst : ∀ (G : List Nat) (vals : List Value),
    vals.length = G.length → (G.zip vals).map (fun q => q.1) = G := by
  intro G
  induction G with
  | nil => intro vals _; rfl
  | cons j t ih =>
      intro vals hlen
      cases vals with
      | nil => exact absurd hlen (by simp)
      | cons v vs =>
          rw [List.zip_cons_cons, List.map_cons]
          rw [ih vs (by simpa using hlen)]

/-- The canonical adjoint name is one of the adjoint names. -/
theorem contains_canon (n : String) (k : Nat) :
    (advNames n k).contains (vjpName n) = true :=
  (contains_iff_mem_str _ _).mpr (List.mem_cons_self _ _)

/-- Every in-range private name is one of the adjoint names. -/
theorem contains_priv (n : String) (k : Nat) (j : Nat)
    (hj : j ∈ List.range' 1 k) :
    (advNames n k).contains (privName n j) = true :=
  (contains_iff_mem_str _ _).mpr
    (List.mem_cons_of_mem _ (List.mem_map_of_mem _ hj))

/-- The invariant is preserved by writes to no adjoint name. -/
theorem accMatch_append_silent (n : String) (k : Nat)
    (h W : List (String × Value)) (s : AccState) (seen : List Nat)
    (hM : AccMatch n k h s seen) (hWnil : W.filter (inN n k) = []) :
    AccMatch n k (h ++ W) s seen := by
  obtain ⟨h1, h2, h3, h4, h5, h6⟩ := hM
  have hsil : ∀ nm, (advNames n k).contains nm = true →
      histAt (h ++ W) nm = histAt h nm := by
    intro nm hnm
    rw [histAt_append]
    have hz : histAt W nm = [] := by
      rw [← histAt_filter_inN n k nm hnm W, hWnil]
      rfl
    rw [hz, List.append_nil]
  refine ⟨?_, ?_, ?_, h4, h5, h6⟩
  · cases hs1 : s.1 with
    | some t =>
        rw [hs1] at h1
        simp only []
        rw [hsil (vjpName n) (contains_canon n k)]
        exact h1
    | none =>
        rw [hs1] at h1
        simp only []
        rw [hsil (vjpName n) (contains_canon n k)]
        exact h1
  · intro q hq
    rw [hsil (privName n q.1) (contains_priv n k q.1 (h6 q.1 (h5 q hq)))]
    exact h2 q hq
  · intro j hj hjs
    rw [hsil (privName n j) (contains_priv n k j hj)]
    exact h3 j hj hjs

/-- The invariant step of a `w` schedule entry: after a node writes one
partial per fresh ordinal, the canonical total follows the
largest-ordinal tag and the fresh private partials join the pending
table. -/
theorem accMatch_wr (n : String) (k : Nat) (hN : (advNames n k).Nodup)
    (h ws1 : List (String × Value)) (sc : Option Value)
    (sp : List (Nat × Value)) (seen G : List Nat) (vals : List Value)
    (hM : AccMatch n k h (sc, sp) seen)
    (hvlen : vals.length = G.length)
    (hzip : ws1.filter (inN n k)
      = (G.zip vals).map (fun q => (wName n k q.1, q.2)))
    (hGrange : ∀ j ∈ G, j ∈ List.range' 1 k)
    (hGseen : ∀ j ∈ G, ¬ j ∈ seen)
    (hndG : nodupB G = true) :
    AccMatch n k (h ++ ws1)
      (updCur k (G.zip vals) sc, sp ++ (G.zip vals).filter (fun q => q.1 ≠ k))
      (seen ++ G) := by
  obtain ⟨h1, h2, h3, h4, h5, h6⟩ := hM
  have hPfst : (G.zip vals).map (fun q => q.1) = G := zip_map_fst G vals hvlen
  have hPrange : ∀ q ∈ G.zip vals, q.1 ∈ List.range' 1 k := by
    intro q hq
    exact hGrange q.1 (hPfst ▸ List.mem_map_of_mem (fun q => q.1) hq)
  have hPnodup : nodupB ((G.zip vals).map (fun q => q.1)) = true := by
    rw [hPfst]
    exact hndG
  have hblock : ∀ nm, (advNames n k).contains nm = true →
      histAt (h ++ ws1) nm
        = histAt h nm
          ++ histAt ((G.zip vals).map (fun q => (wName n k q.1, q.2))) nm := by
    intro nm hnm
    rw [histAt_append, ← histAt_filter_inN n k nm hnm ws1, hzip]
  refine ⟨?_, ?_, ?_, ?_, ?_, ?_⟩
  · -- canonical component
    simp only []
    rw [hblock (vjpName n) (contains_canon n k)]
    rw [histAt_block_canon n k hN (G.zip vals) hPrange hPnodup]
    unfold updCur
    cases hcur : (G.zip vals).lookup k with
    | some v =>
        simp only []
        rw [List.getLast?_concat]
    | none =>
        simp only [List.append_nil]
        cases hs1 : sc with
        | some t =>
            rw [hs1] at h1
            exact h1
        | none =>
            rw [hs1] at h1
            exact h1
  · -- pending component
    intro q hq
    simp only [] at hq
    rcases List.mem_append.mp hq with hmem | hmem
    · have hq1seen : q.1 ∈ seen := h5 q hmem
      have hq1range : q.1 ∈ List.range' 1 k := h6 q.1 hq1seen
      rw [hblock (privName n q.1) (contains_priv n k q.1 hq1range)]
      rw [histAt_block_priv_none n k hN q.1 hq1range (G.zip vals) hPrange
        (fun p hp hc => hGseen q.1 (by
          rw [← hc]
          exact hPfst ▸ List.mem_map_of_mem (fun q => q.1) hp) hq1seen)]
      rw [List.append_nil]
      exact h2 q hmem
    · have hqP : q ∈ G.zip vals := List.mem_of_mem_filter hmem
      have hq1G : q.1 ∈ G := hPfst ▸ List.mem_map_of_mem (fun q => q.1) hqP
      have hq1range : q.1 ∈ List.range' 1 k := hGrange q.1 hq1G
      have hq1k : q.1 ≠ k := by
        have := List.of_mem_filter hmem
        simpa using this
      rw [hblock (privName n q.1) (contains_priv n k q.1 hq1range)]
      rw [h3 q.1 hq1range (hGseen q.1 hq1G), List.nil_append]
      rw [histAt_block_priv n k hN q.1 hq1range hq1k (G.zip vals) hPrange
        hPnodup]
      rw [lookup_of_mem_nodupB (G.zip vals) q hPnodup hqP]
  · -- unseen component
    intro j hj hjs
    have hjseen : ¬ j ∈ seen := fun hc => hjs (List.mem_append.mpr (Or.inl hc))
    have hjG : ¬ j ∈ G := fun hc => hjs (List.mem_append.mpr (Or.inr hc))
    rw [hblock (privName n j) (contains_priv n k j hj)]
    rw [h3 j hj hjseen, List.nil_append]
    exact histAt_block_priv_none n k hN j hj (G.zip vals) hPrange
      (fun p hp hc => hjG (by
        rw [← hc]
        exact hPfst ▸ List.mem_map_of_mem (fun q => q.1) hp))
  · -- pending keys distinct
    simp only [List.map_append]
    refine nodupB_append _ _ h4 ?_ ?_
    · rw [map_fst_filter_ne k (G.zip vals), hPfst]
      exact nodupB_filter _ G hndG
    · intro a ha hb
      obtain ⟨q, hqmem, hqa⟩ := List.mem_map.mp ha
      rw [map_fst_filter_ne k (G.zip vals), hPfst] at hb
      have haG : a ∈ G := List.mem_of_mem_filter hb
      exact hGseen a haG (hqa ▸ h5 q hqmem)
  · -- pending keys seen
    intro q hq
    simp only [] at hq ⊢
    rcases List.mem_append.mp hq with hmem | hmem
    · exact List.mem_append.mpr (Or.inl (h5 q hmem))
    · refine List.mem_append.mpr (Or.inr ?_)
      exact hPfst ▸ List.mem_map_of_mem (fun q => q.1)
        (List.mem_of_mem_filter hmem)
  · -- seen in range
    intro j hj
    rcases List.mem_append.mp hj with hmem | hmem
    · exact h6 j hmem
    · exact hGrange j hmem

/-- The invariant step of an `a` schedule entry: folding a pending
private partial into the canonical total. -/
theorem accMatch_acc (n : String) (k : Nat) (hN : (advNames n k).Nodup)
    (h : List (String × Value)) (sp : List (Nat × Value)) (seen : List Nat)
    (t t' : Value) (j : Nat)
    (hM : AccMatch n k h (some t, sp) seen) :
    AccMatch n k (h ++ [(vjpName n, t')])
      (some t', sp.filter (fun q => q.1 ≠ j)) seen := by
  obtain ⟨h1, h2, h3, h4, h5, h6⟩ := hM
  refine ⟨?_, ?_, ?_, ?_, ?_, h6⟩
  · simp only []
    rw [histAt_append, histAt_single_self, List.getLast?_concat]
  · intro q hq
    have hqmem : q ∈ sp := List.mem_of_mem_filter hq
    have hq1range : q.1 ∈ List.range' 1 k := h6 q.1 (h5 q hqmem)
    rw [histAt_append,
      histAt_single_other (privName n q.1) (vjpName n) t'
        (canon_ne_priv n k q.1 hq1range hN),
      List.append_nil]
    exact h2 q hqmem
  · intro j' hj' hjs
    rw [histAt_append,
      histAt_single_other (privName n j') (vjpName n) t'
        (canon_ne_priv n k j' hj' hN),
      List.append_nil]
    exact h3 j' hj' hjs
  · rw [map_fst_filter_ne j sp]
    exact nodupB_filter _ _ h4
  · intro q hq
    exact h5 q (List.mem_of_mem_filter hq)

/-- The invariant step of the `e` schedule entry: echoing the canonical
total. -/
theorem accMatch_echo (n : String) (k : Nat) (hN : (advNames n k).Nodup)
    (h : List (String × Value)) (sp : List (Nat × Value)) (seen : List Nat)
    (t : Value)
    (hM : AccMatch n k h (some t, sp) seen) :
    AccMatch n k (h ++ [(vjpName n, t)]) (some t, sp) seen := by
  obtain ⟨h1, h2, h3, h4, h5, h6⟩ := hM
  refine ⟨?_, ?_, ?_, h4, h5, h6⟩
  · simp only []
    rw [histAt_append, histAt_single_self, List.getLast?_concat]
  · intro q hq
    have hq1range : q.1 ∈ List.range' 1 k := h6 q.1 (h5 q hq)
    rw [histAt_append,
      histAt_single_other (privName n q.1) (vjpName n) t
        (canon_ne_priv n k q.1 hq1range hN),
      List.append_nil]
    exact h2 q hq
  · intro j' hj' hjs
    rw [histAt_append,
      histAt_single_other (privName n j') (vjpName n) t
        (canon_ne_priv n k j' hj' hN),
      List.append_nil]
    exact h3 j' hj' hjs

/-- A `w` step's new state has the canonical total exactly when it was
there before or the largest ordinal was written. -/
theorem updCur_isSome (k : Nat) (Z : List (Nat × Value)) (c : Option Value) :
    (updCur k Z c).isSome = (c.isSome || (Z.lookup k).isSome) := by
  unfold updCur
  cases hl : Z.lookup k with
  | some v => simp
  | none => simp

/-- The execution half of the accumulation law: a successful node loop
whose adjoint-touching nodes realise a sane schedule performs, under
the adjoint names, exactly the write sequence the schedule semantics
`StreamRun` prescribes. -/
theorem exec_stream (stM : ModelState) (n : String) (k : Nat) (init : Ctx)
    (hN : (advNames n k).Nodup) :
    ∀ (nodes : List Node) (stream : List VTag) (es es' : ExecState)
      (s : AccState) (seen : List Nat),
      computeLoop stM nodes es = .ok es' →
      List.Forall₂ (vTagFact stM n k) (nodes.filter (touchesN n k)) stream →
      CtxInv init es.ctx es.hist →
      AccMatch n k es.hist s seen →
      streamOK k stream s.1.isSome (s.2.map (fun q => q.1)) seen = true →
      streamTagsOK k stream = true →
      ∃ sF hNew,
        es'.hist.filter (inN n k) = es.hist.filter (inN n k) ++ hNew
        ∧ StreamRun n k stream s sF hNew := by
  intro nodes
  induction nodes with
  | nil =>
      intro stream es es' s seen hLoop hFa _ _ _ _
      unfold computeLoop at hLoop
      injection hLoop with hLoop
      subst hLoop
      have hstream : stream = [] := by
        rw [List.filter_nil] at hFa
        cases hFa
        rfl
      subst hstream
      exact ⟨s, [], by rw [List.append_nil], StreamRun.nil s⟩
  | cons nd rest ih =>
      intro stream es es' s seen hLoop hFa hInv hMatch hOK hTags
      obtain ⟨es1, es2, hstep1, hstep2, hLoopRest⟩ :=
        computeLoop_cons stM nd rest es es' hLoop
      by_cases hT : touchesN n k nd = true
      · -- a scheduled node
        rw [List.filter_cons, hT] at hFa
        simp only [if_true] at hFa
        cases hFa with
        | cons hfact hFa' =>
        rename_i tag stream'
        cases tag with
        | w G =>
            obtain ⟨hru, hopAdd, hopTerm, hnames⟩ := hfact
            rw [if_pos hru] at hstep1
            obtain ⟨ctx', record, ws, hex, hes1⟩ := hstep1
            rw [if_neg hopTerm] at hstep2
            subst hstep2
            obtain ⟨resolved, kw, r, hres, hside, himpl, hst, hrec⟩ :=
              execNode_full nd es.ctx ctx' record ws hex
            obtain ⟨ws1, hws, hfa2, hctxpres⟩ :=
              storeOuts_spec r nd.varout es.ctx [] ctx' ws hst
            rw [List.nil_append] at hws
            subst hws
            have hnamesF := writes_filter_names n k ws nd.varout hfa2
            rw [hnames] at hnamesF
            obtain ⟨vals, hvlen0, hzip⟩ :=
              eq_zip_of_map_fst (ws.filter (inN n k)) (G.map (wName n k))
                hnamesF
            have hvlen : vals.length = G.length := by
              rw [hvlen0, List.length_map]
            rw [zip_map_left_pair] at hzip
            -- schedule sanity
            have hOKparts := hOK
            unfold streamOK at hOKparts
            rw [Bool.and_eq_true, Bool.and_eq_true] at hOKparts
            have hTagsParts := hTags
            unfold streamTagsOK at hTagsParts
            rw [Bool.and_eq_true] at hTagsParts
            have hGseen : ∀ j ∈ G, ¬ j ∈ seen := by
              intro j hj hc
              have hb := List.all_eq_true.mp hOKparts.1.1 j hj
              rw [(contains_iff_mem_nat seen j).mpr hc] at hb
              exact absurd hb (by simp)
            have hndG : nodupB G = true := hOKparts.1.2
            have hGrange : ∀ j ∈ G, j ∈ List.range' 1 k := by
              intro j hj
              exact (contains_iff_mem_nat _ j).mp
                (List.all_eq_true.mp hTagsParts.1 j hj)
            -- state after this node
            have hh1 : es2.hist = es.hist ++ ws := by rw [hes1]
            have hc1 : es2.ctx = ctx' := by rw [hes1]
            have hinv2 : CtxInv init es2.ctx es2.hist := by
              rw [hh1, hc1]
              exact hctxpres init es.hist hInv
            have hmatch2 : AccMatch n k es2.hist
                (updCur k (G.zip vals) s.1,
                 s.2 ++ (G.zip vals).filter (fun q => q.1 ≠ k))
                (seen ++ G) := by
              rw [hh1]
              exact accMatch_wr n k hN es.hist ws s.1 s.2 seen G vals
                hMatch hvlen hzip hGrange hGseen hndG
            have hok2 : streamOK k stream'
                ((updCur k (G.zip vals) s.1,
                  s.2 ++ (G.zip vals).filter (fun q => q.1 ≠ k)).1.isSome)
                (((updCur k (G.zip vals) s.1,
                  s.2 ++ (G.zip vals).filter (fun q => q.1 ≠ k)).2).map
                    (fun q => q.1))
                (seen ++ G) = true := by
              simp only []
              rw [updCur_isSome, zip_lookup_contains G vals hvlen k,
                List.map_append, map_fst_filter_ne, zip_map_fst G vals hvlen]
              exact hOKparts.2
            have hinv3 : CtxInv init (removeUnused es2.ctx rest) es2.hist :=
              ctxInv_removeUnused init es2.ctx es2.hist rest hinv2
            obtain ⟨sF, hNew', hfeq, hrun'⟩ := ih stream'
              { es2 with ctx := removeUnused es2.ctx rest } es'
              (updCur k (G.zip vals) s.1,
               s.2 ++ (G.zip vals).filter (fun q => q.1 ≠ k))
              (seen ++ G) hLoopRest hFa' hinv3 hmatch2 hok2 hTagsParts.2
            have hfeq' : es'.hist.filter (inN n k)
                = es2.hist.filter (inN n k) ++ hNew' := hfeq
            refine ⟨sF,
              ((G.zip vals).map (fun q => (wName n k q.1, q.2))) ++ hNew',
              ?_, ?_⟩
            · rw [hfeq', hh1, List.filter_append, hzip, List.append_assoc]
            · exact StreamRun.wr G vals stream' s sF hNew' hvlen hrun'
        | a j =>
            obtain ⟨hru, hopAdd, s1, s2, sy, hvin, hk1, hn1, hk2, hn2,
              hvout, hny⟩ := hfact
            rw [if_pos hru] at hstep1
            obtain ⟨ctx', record, ws, hex, hes1⟩ := hstep1
            have hterm : nd.op ≠ .terminalO := by
              rw [hopAdd]
              intro hc
              cases hc
            rw [if_neg hterm] at hstep2
            subst hstep2
            -- schedule sanity
            have hOKparts := hOK
            unfold streamOK at hOKparts
            rw [Bool.and_eq_true, Bool.and_eq_true] at hOKparts
            have hTagsParts := hTags
            unfold streamTagsOK at hTagsParts
            rw [Bool.and_eq_true] at hTagsParts
            obtain ⟨t, hs1⟩ : ∃ t, s.1 = some t := by
              cases hs1 : s.1 with
              | some t => exact ⟨t, rfl⟩
              | none =>
                  rw [hs1] at hOKparts
                  exact absurd hOKparts.1.1 (by simp)
            have hjmem : j ∈ s.2.map (fun q => q.1) :=
              (contains_iff_mem_nat _ _).mp hOKparts.1.2
            obtain ⟨q0, hq0mem, hq0fst⟩ := List.mem_map.mp hjmem
            obtain ⟨v1, v2, t', hget1, hget2, hadd, hws, hctx'⟩ :=
              execNode_acc n j nd es.ctx ctx' record ws s1 s2 sy hopAdd
                hvin hk1 hn1 hk2 hn2 hvout hny hex
            obtain ⟨m1, m2, m3, m4, m5, m6⟩ := hMatch
            -- identify the two read values
            have hv1 : v1 = t := by
              have hl := hInv (vjpName n) v1 hget1
              rw [hs1] at m1
              simp only [] at m1
              unfold lastVal at hl
              rw [m1] at hl
              simp only [] at hl
              injection hl with h'
              exact h'.symm
            have hpriv : histAt es.hist (privName n j) = [q0.2] := by
              have hq := m2 q0 hq0mem
              rw [hq0fst] at hq
              exact hq
            have hv2 : v2 = q0.2 := by
              have hl := hInv (privName n j) v2 hget2
              unfold lastVal at hl
              rw [hpriv] at hl
              simp only [List.getLast?_singleton] at hl
              injection hl with h'
              exact h'.symm
            -- state after this node
            have hh1 : es2.hist = es.hist ++ [(vjpName n, t')] := by
              rw [hes1, hws]
            have hc1 : es2.ctx = dset es.ctx (vjpName n) t' := by
              rw [hes1, hctx']
            have hinv2 : CtxInv init es2.ctx es2.hist := by
              rw [hh1, hc1]
              exact ctxInv_write init es.ctx es.hist hInv (vjpName n) t'
            have hmatch2 : AccMatch n k es2.hist
                (some t', s.2.filter (fun q => q.1 ≠ j)) seen := by
              rw [hh1]
              refine accMatch_acc n k hN es.hist s.2 seen t t' j ?_
              have hs_eq : s = (some t, s.2) := by rw [← hs1]
              rw [← hs_eq]
              exact ⟨m1, m2, m3, m4, m5, m6⟩
            have hok2 : streamOK k stream'
                ((some t' : Option Value).isSome)
                ((s.2.filter (fun q => q.1 ≠ j)).map (fun q => q.1))
                seen = true := by
              rw [← erase_eq_filter_fst j s.2 m4]
              have hrec2 := hOKparts.2
              rw [hs1] at hrec2
              exact hrec2
            have hinv3 : CtxInv init (removeUnused es2.ctx rest) es2.hist :=
              ctxInv_removeUnused init es2.ctx es2.hist rest hinv2
            obtain ⟨sF, hNew', hfeq, hrun'⟩ := ih stream'
              { es2 with ctx := removeUnused es2.ctx rest } es'
              (some t', s.2.filter (fun q => q.1 ≠ j))
              seen hLoopRest hFa' hinv3 hmatch2 hok2 hTagsParts.2
            have hfeq' : es'.hist.filter (inN n k)
                = es2.hist.filter (inN n k) ++ hNew' := hfeq
            have hlook : s.2.lookup j = some q0.2 := by
              have hg := lookup_of_mem_nodupB s.2 q0 m4 hq0mem
              rw [hq0fst] at hg
              exact hg
            refine ⟨sF, (vjpName n, t') :: hNew', ?_, ?_⟩
            · rw [hfeq', hh1, List.filter_append]
              have hone : ([(vjpName n, t')].filter (inN n k))
                  = [(vjpName n, t')] := by
                rw [List.filter_cons]
                rw [show inN n k (vjpName n, t') = true from contains_canon n k]
                rfl
              rw [hone, List.append_assoc]
              rfl
            · have hs_eq : s = (some t, s.2) := by rw [← hs1]
              rw [hs_eq]
              refine StreamRun.acc j stream' t q0.2 t' s.2 sF hNew' hlook
                ?_ hrun'
              rw [← hv1, ← hv2]
              exact hadd
        | e =>
            obtain ⟨hop, sx, sy, hvin, hkx, hnx, hvout, hny⟩ := hfact
            have hru : resultUsed stM nd = true := by
              unfold resultUsed
              rw [hop]
              simp
            rw [if_pos hru] at hstep1
            obtain ⟨ctx', record, ws, hex, hes1⟩ := hstep1
            have hOKparts := hOK
            unfold streamOK at hOKparts
            rw [Bool.and_eq_true] at hOKparts
            obtain ⟨t, hs1⟩ : ∃ t, s.1 = some t := by
              cases hs1 : s.1 with
              | some t => exact ⟨t, rfl⟩
              | none =>
                  rw [hs1] at hOKparts
                  exact absurd hOKparts.1 (by simp)
            obtain ⟨v1, hget1, hws, hctx'⟩ :=
              execNode_echo n nd es.ctx ctx' record ws sx sy hop
                hvin hkx hnx hvout hny hex
            obtain ⟨m1, m2, m3, m4, m5, m6⟩ := hMatch
            have hv1 : v1 = t := by
              have hl := hInv (vjpName n) v1 hget1
              rw [hs1] at m1
              simp only [] at m1
              unfold lastVal at hl
              rw [m1] at hl
              simp only [] at hl
              injection hl with h'
              exact h'.symm
            subst hv1
            -- step2 : capture
            rw [if_pos hop] at hstep2
            obtain ⟨hrecs2, hctx2, hhist2⟩ := captureOuts_recs nd es1 es2 hstep2
            have hh1 : es2.hist = es.hist ++ [(vjpName n, v1)] := by
              rw [hhist2, hes1, hws]
            have hc1 : es2.ctx = dset es.ctx (vjpName n) v1 := by
              rw [hctx2, hes1, hctx']
            have hinv2 : CtxInv init es2.ctx es2.hist := by
              rw [hh1, hc1]
              exact ctxInv_write init es.ctx es.hist hInv (vjpName n) v1
            have hmatch2 : AccMatch n k es2.hist (some v1, s.2) seen := by
              rw [hh1]
              refine accMatch_echo n k hN es.hist s.2 seen v1 ?_
              have hs_eq : s = (some v1, s.2) := by rw [← hs1]
              rw [← hs_eq]
              exact ⟨m1, m2, m3, m4, m5, m6⟩
            have hok2 : streamOK k stream'
                ((some v1 : Option Value).isSome)
                (s.2.map (fun q => q.1)) seen = true := by
              have hrec2 := hOKparts.2
              rw [hs1] at hrec2
              exact hrec2
            have hinv3 : CtxInv init (removeUnused es2.ctx rest) es2.hist :=
              ctxInv_removeUnused init es2.ctx es2.hist rest hinv2
            obtain ⟨sF, hNew', hfeq, hrun'⟩ := ih stream'
              { es2 with ctx := removeUnused es2.ctx rest } es'
              (some v1, s.2) seen hLoopRest hFa' hinv3 hmatch2 hok2 hTags
            have hfeq' : es'.hist.filter (inN n k)
                = es2.hist.filter (inN n k) ++ hNew' := hfeq
            refine ⟨sF, (vjpName n, v1) :: hNew', ?_, ?_⟩
            · rw [hfeq', hh1, List.filter_append]
              have hone : ([(vjpName n, v1)].filter (inN n k))
                  = [(vjpName n, v1)] := by
                rw [List.filter_cons]
                rw [show inN n k (vjpName n, v1) = true from contains_canon n k]
                rfl
              rw [hone, List.append_assoc]
              rfl
            · have hs_eq : s = (some v1, s.2) := by rw [← hs1]
              rw [hs_eq]
              exact StreamRun.echo stream' v1 s.2 sF hNew' hrun'
      · -- an unscheduled node: its writes avoid every adjoint name
        have hTf : touchesN n k nd = false := by
          rw [Bool.not_eq_true] at hT
          exact hT
        rw [List.filter_cons, hTf] at hFa
        simp only [Bool.false_eq_true, if_false] at hFa
        have hkey : ∃ W, es2.hist = es.hist ++ W
            ∧ W.filter (inN n k) = []
            ∧ CtxInv init es2.ctx es2.hist := by
          by_cases hru : resultUsed stM nd = true
          · rw [if_pos hru] at hstep1
            obtain ⟨ctx', record, ws, hex, hes1⟩ := hstep1
            obtain ⟨resolved, kw, r, hres, hside, himpl, hst, hrec⟩ :=
              execNode_full nd es.ctx ctx' record ws hex
            obtain ⟨ws1, hws, hfa2, hctxpres⟩ :=
              storeOuts_spec r nd.varout es.ctx [] ctx' ws hst
            rw [List.nil_append] at hws
            subst hws
            have hwsnil : ws.filter (inN n k) = [] :=
              writes_filter_nil_of_not_touches n k ws nd.varout hfa2
                (by
                  have hTf2 := hTf
                  unfold touchesN at hTf2
                  exact hTf2)
            have hinv1 : CtxInv init es1.ctx es1.hist := by
              rw [hes1]
              exact hctxpres init es.hist hInv
            by_cases hterm : nd.op = .terminalO
            · rw [if_pos hterm] at hstep2
              obtain ⟨hrecs2, hctx2, hhist2⟩ :=
                captureOuts_recs nd es1 es2 hstep2
              refine ⟨ws, ?_, hwsnil, ?_⟩
              · rw [hhist2, hes1]
              · rw [hhist2, hctx2]
                exact hinv1
            · rw [if_neg hterm] at hstep2
              subst hstep2
              exact ⟨ws, by rw [hes1], hwsnil, hinv1⟩
          · rw [if_neg hru] at hstep1
            by_cases hterm : nd.op = .terminalO
            · rw [if_pos hterm] at hstep2
              rw [hstep1] at hstep2
              obtain ⟨hrecs2, hctx2, hhist2⟩ :=
                captureOuts_recs nd es es2 hstep2
              refine ⟨[], by rw [hhist2, List.append_nil], rfl, ?_⟩
              rw [hhist2, hctx2]
              exact hInv
            · rw [if_neg hterm] at hstep2
              rw [hstep1] at hstep2
              exact ⟨[], by rw [hstep2, List.append_nil], rfl,
                by rw [hstep2]; exact hInv⟩
        obtain ⟨W, hW, hWnil, hinv2⟩ := hkey
        have hmatch2 : AccMatch n k es2.hist s seen := by
          rw [hW]
          exact accMatch_append_silent n k es.hist W s seen hMatch hWnil
        have hinv3 : CtxInv init (removeUnused es2.ctx rest) es2.hist :=
          ctxInv_removeUnused init es2.ctx es2.hist rest hinv2
        obtain ⟨sF, hNew, hfeq, hrun⟩ := ih stream
          { es2 with ctx := removeUnused es2.ctx rest } es' s seen
          hLoopRest hFa hinv3 hmatch2 hOK hTags
        have hfeq' : es'.hist.filter (inN n k)
            = es2.hist.filter (inN n k) ++ hNew := hfeq
        refine ⟨sF, hNew, ?_, hrun⟩
        rw [hfeq', hW, List.filter_append, hWnil, List.append_nil]

/-! ### Emission lemmas for the accumulation law -/

/-- Updating one key: the updated lookup. -/
theorem dget_dset {α : Type} (l : List (String × α)) (key key' : String)
    (v : α) :
    dget (dset l key v) key' = if key' = key then some v else dget l key' := by
  by_cases h : key' = key
  · rw [if_pos h, h, dget_dset_self]
  · rw [if_neg h, dget_dset_ne key key' v (fun hc => h hc.symm) l]

/-- `Model.define` preserves symbol-table well-formedness. -/
theorem symsWF_defineSym (st : ModelState) (nm : String)
    (h : SymsWF st) : SymsWF (defineSym st nm).1 := by
  intro nm' s' hget
  unfold defineSym allocSym at hget
  simp only [] at hget
  rw [dget_dset] at hget
  by_cases hk : nm' = nm
  · rw [if_pos hk] at hget
    injection hget with hget
    rw [← hget, hk]
    exact ⟨rfl, rfl⟩
  · rw [if_neg hk] at hget
    exact h nm' s' hget

/-- A recorded reference makes `has_reference` true. -/
theorem hasReference_of_mem (st : ModelState) (w nid : Nat)
    (h : (w, nid) ∈ st.refs) : hasReference st w = true := by
  unfold hasReference refcount
  have hmem : (w, nid) ∈ st.refs.filter (fun r => r.1 = w) := by
    rw [List.mem_filter]
    exact ⟨h, by simp⟩
  cases hf : st.refs.filter (fun r => r.1 = w) with
  | nil => rw [hf] at hmem; exact absurd hmem (by simp)
  | cons x t => simp [hf]

/-- References only accumulate: a referenced symbol stays referenced. -/
theorem hasReference_mono (st st' : ModelState) (Δ : List (Nat × Nat))
    (hrefs : st'.refs = st.refs ++ Δ) (w : Nat)
    (h : hasReference st w = true) : hasReference st' w = true := by
  unfold hasReference refcount at h ⊢
  rw [hrefs, List.filter_append, List.length_append]
  simp only [ne_eq, decide_not] at h ⊢
  cases hf : (st.refs.filter (fun r => r.1 = w)).length with
  | zero => rw [hf] at h; exact absurd h (by simp)
  | succ m => simp

/-- Full inversion of a successful input-argument loop: the state only
gains reference entries, every symbol-valued argument is referenced,
and the produced input list extends the accumulator by one entry per
declared argument, each pinned to the supplied symbol when one was
supplied. -/
theorem ainLoop_ok_spec (nid : Nat) (kwargs : List (String × ArgVal)) :
    ∀ (ainL : List String) (st : ModelState) (varin : List (String × Sym))
      (vinfo : List (String × Nat)) (st' : ModelState)
      (res : List (String × Sym) × List (String × Nat)),
      ainLoop nid kwargs ainL st varin vinfo = (st', .ok res) →
      st'.nodes = st.nodes ∧ st'.syms = st.syms
      ∧ st'.counter = st.counter ∧ st'.vin = st.vin ∧ st'.vout = st.vout
      ∧ (∃ Δ, st'.refs = st.refs ++ Δ
          ∧ ∀ a s, a ∈ ainL → dget kwargs a = some (.sym s) →
              (s.sid, nid) ∈ Δ)
      ∧ ∃ L, res.1 = varin ++ L
          ∧ List.Forall₂ (fun (entry : String × Sym) (a : String) =>
              entry.1 = a
              ∧ ∀ s, dget kwargs a = some (.sym s) → entry.2 = s) L ainL := by
  intro ainL
  induction ainL with
  | nil =>
      intro st varin vinfo st' res h
      unfold ainLoop at h
      injection h with h1 h2
      subst h1
      injection h2 with h2
      subst h2
      exact ⟨rfl, rfl, rfl, rfl, rfl,
        ⟨[], by rw [List.append_nil], fun a s ha _ => absurd ha (by simp)⟩,
        [], by rw [List.append_nil], List.Forall₂.nil⟩
  | cons a t ih =>
      intro st varin vinfo st' res h
      unfold ainLoop at h
      cases hd : dget kwargs a with
      | none =>
          rw [hd] at h
          exact absurd (congrArg Prod.snd h) (by simp)
      | some av =>
          rw [hd] at h
          simp only [] at h
          cases av with
          | sym s =>
              simp only [makeSymbolArg] at h
              obtain ⟨h1, h2, h3, h4, h5, ⟨Δ, hΔ, hΔmem⟩, L, hL, hfa⟩ :=
                ih _ _ _ _ _ h
              refine ⟨h1, h2, h3, h4, h5,
                ⟨(s.sid, nid) :: Δ, ?_, ?_⟩, (a, s) :: L, ?_, ?_⟩
              · rw [hΔ]
                simp
              · intro a' s' ha' hget
                rcases List.mem_cons.mp ha' with hc | hc
                · subst hc
                  rw [hd] at hget
                  injection hget with hget
                  have hss : s = s' := ArgVal.sym.inj hget
                  rw [← hss]
                  exact List.mem_cons_self _ _
                · exact List.mem_cons_of_mem _ (hΔmem a' s' hc hget)
              · rw [hL, List.append_assoc]
                rfl
              · refine List.Forall₂.cons ⟨rfl, ?_⟩ hfa
                intro s' hget
                rw [hd] at hget
                injection hget with hget
                exact ArgVal.sym.inj hget
          | val v =>
              simp only [makeSymbolArg, mkLiteral, allocSym] at h
              obtain ⟨h1, h2, h3, h4, h5, ⟨Δ, hΔ, hΔmem⟩, L, hL, hfa⟩ :=
                ih _ _ _ _ _ h
              refine ⟨h1, h2, h3, h4, h5,
                ⟨(st.nextSid, nid) :: Δ, ?_, ?_⟩,
                (a, { sid := st.nextSid, name := none, kind := .lit v }) :: L,
                ?_, ?_⟩
              · rw [hΔ]
                simp
              · intro a' s' ha' hget
                rcases List.mem_cons.mp ha' with hc | hc
                · subst hc
                  rw [hd] at hget
                  injection hget with hget
                  cases hget
                · exact List.mem_cons_of_mem _ (hΔmem a' s' hc hget)
              · rw [hL, List.append_assoc]
                rfl
              · refine List.Forall₂.cons ⟨rfl, ?_⟩ hfa
                intro s' hget
                rw [hd] at hget
                injection hget with hget
                cases hget
          | nd ndn =>
              simp only [makeSymbolArg] at h
              by_cases hlen : ndn.varout.length > 1
              · rw [if_pos hlen] at h
                exact absurd (congrArg Prod.snd h) (by simp)
              · rw [if_neg hlen] at h
                cases hvo : ndn.varout with
                | nil =>
                    rw [hvo] at h
                    exact absurd (congrArg Prod.snd h) (by simp)
                | cons p t' =>
                    rw [hvo] at h
                    simp only [] at h
                    obtain ⟨h1, h2, h3, h4, h5, ⟨Δ, hΔ, hΔmem⟩, L, hL, hfa⟩ :=
                      ih _ _ _ _ _ h
                    refine ⟨h1, h2, h3, h4, h5,
                      ⟨(p.2.sid, nid) :: Δ, ?_, ?_⟩, (a, p.2) :: L, ?_, ?_⟩
                    · rw [hΔ]
                      simp
                    · intro a' s' ha' hget
                      rcases List.mem_cons.mp ha' with hc | hc
                      · subst hc
                        rw [hd] at hget
                        injection hget with hget
                        cases hget
                      · exact List.mem_cons_of_mem _ (hΔmem a' s' hc hget)
                    · rw [hL, List.append_assoc]
                      rfl
                    · refine List.Forall₂.cons ⟨rfl, ?_⟩ hfa
                      intro s' hget
                      rw [hd] at hget
                      injection hget with hget
                      cases hget

/-- Full inversion of a successful output-argument loop: the state is
unchanged except for possible automatic symbol definitions (whose names
all extend the node name), and the produced output list extends the
accumulator by one entry per declared output argument — the supplied
symbol, or an automatically defined one. -/
theorem aoutLoop_ok_spec (nodeName : String)
    (kwargs : List (String × ArgVal)) :
    ∀ (aoutL : List String) (st : ModelState)
      (acc : List (String × Sym)) (st' : ModelState)
      (varout : List (String × Sym)),
      aoutLoop nodeName kwargs aoutL st acc = (st', .ok varout) →
      st'.nodes = st.nodes ∧ st'.refs = st.refs
      ∧ st'.counter = st.counter ∧ st'.vin = st.vin ∧ st'.vout = st.vout
      ∧ (SymsWF st → SymsWF st')
      ∧ (∀ nm, (∀ a ∈ aoutL, nm ≠ nodeName ++ "-" ++ a) →
          getSym st' nm = getSym st nm)
      ∧ ∃ L, varout = acc ++ L
          ∧ List.Forall₂ (fun (entry : String × Sym) (a : String) =>
              entry.1 = a
              ∧ (dget kwargs a = some (.sym entry.2)
                 ∨ (dget kwargs a = none ∧ entry.2.kind = .plain
                    ∧ entry.2.name = some (nodeName ++ "-" ++ a)))) L aoutL := by
  intro aoutL
  induction aoutL with
  | nil =>
      intro st acc st' varout h
      unfold aoutLoop at h
      injection h with h1 h2
      subst h1
      injection h2 with h2
      subst h2
      exact ⟨rfl, rfl, rfl, rfl, rfl, fun hw => hw, fun nm _ => rfl,
        [], by rw [List.append_nil], List.Forall₂.nil⟩
  | cons a t ih =>
      intro st acc st' varout h
      unfold aoutLoop at h
      cases hd : dget kwargs a with
      | none =>
          rw [hd] at h
          simp only [] at h
          obtain ⟨h1, h2, h3, h4, h5, hwf, hsyms, L, hL, hfa⟩ :=
            ih _ _ _ _ h
          have hdefsyms : (defineSym st (nodeName ++ "-" ++ a)).1.syms
              = dset st.syms (nodeName ++ "-" ++ a)
                  (defineSym st (nodeName ++ "-" ++ a)).2 := rfl
          refine ⟨h1, h2, h3, h4, h5, ?_, ?_,
            (a, (defineSym st (nodeName ++ "-" ++ a)).2) :: L, ?_, ?_⟩
          · intro hwf0
            exact hwf (symsWF_defineSym st (nodeName ++ "-" ++ a) hwf0)
          · intro nm hnm
            rw [hsyms nm (fun b hb => hnm b (List.mem_cons_of_mem _ hb))]
            unfold getSym
            rw [hdefsyms, dget_dset,
              if_neg (hnm a (List.mem_cons_self _ _))]
          · rw [hL, List.append_assoc]
            rfl
          · refine List.Forall₂.cons ⟨rfl, Or.inr ⟨hd, rfl, rfl⟩⟩ hfa
      | some av =>
          rw [hd] at h
          cases av with
          | sym s =>
              simp only [] at h
              by_cases hrc : refcount st s.sid ≠ 0
              · rw [if_pos hrc] at h
                exact absurd (congrArg Prod.snd h) (by simp)
              · rw [if_neg hrc] at h
                obtain ⟨h1, h2, h3, h4, h5, hwf, hsyms, L, hL, hfa⟩ :=
                  ih _ _ _ _ h
                refine ⟨h1, h2, h3, h4, h5, hwf, ?_, (a, s) :: L, ?_, ?_⟩
                · intro nm hnm
                  exact hsyms nm (fun b hb => hnm b (List.mem_cons_of_mem _ hb))
                · rw [hL, List.append_assoc]
                  rfl
                · exact List.Forall₂.cons ⟨rfl, Or.inl hd⟩ hfa
          | val v =>
              simp only [] at h
              exact absurd (congrArg Prod.snd h) (by simp)
          | nd ndn =>
              simp only [] at h
              exact absurd (congrArg Prod.snd h) (by simp)

/-- Symbol-table well-formedness only depends on the symbol table. -/
theorem symsWF_of_syms_eq (st1 st2 : ModelState)
    (h : st1.syms = st2.syms) (hw : SymsWF st2) : SymsWF st1 := by
  intro nm s hget
  unfold dget at hget
  rw [h] at hget
  exact hw nm s hget

/-- Full inversion of a successful node construction: exactly one node
of the requested kind is appended; the counter advances once;
references only accumulate, with one entry per symbol-supplied input
argument; the node's inputs are pinned to the supplied symbols; the
node's outputs follow the declared output list (the supplied symbol, or
an automatically defined one); and the symbol table only gains
automatic names. -/
theorem construct_ok_spec (op : OpId) (args : List CallArg)
    (st st' : ModelState) (node : Node)
    (h : construct op args st = (st', .ok node)) :
    node.op = op
    ∧ st'.nodes = st.nodes ++ [node]
    ∧ st'.counter = st.counter + 1
    ∧ st'.vin = st.vin ∧ st'.vout = st.vout
    ∧ (∃ nid Δ, st'.refs = st.refs ++ Δ
        ∧ ∀ a s, a ∈ (prim op).ain →
            dget (kwargsOf args) a = some (.sym s) → (s.sid, nid) ∈ Δ)
    ∧ List.Forall₂ (fun (entry : String × Sym) (a : String) =>
        entry.1 = a
        ∧ ∀ s, dget (kwargsOf args) a = some (.sym s) → entry.2 = s)
        node.varin (prim op).ain
    ∧ List.Forall₂ (fun (entry : String × Sym) (a : String) =>
        entry.1 = a
        ∧ (dget (kwargsOf args) a = some (.sym entry.2)
           ∨ (dget (kwargsOf args) a = none ∧ entry.2.kind = .plain
              ∧ entry.2.name
                  = some ((prim op).klsName ++ "@"
                      ++ toString (st.counter + 1) ++ "-" ++ a))))
        node.varout (prim op).aout
    ∧ (∀ nm, (∀ a ∈ (prim op).aout,
          nm ≠ (prim op).klsName ++ "@" ++ toString (st.counter + 1)
              ++ "-" ++ a) →
        getSym st' nm = getSym st nm)
    ∧ (SymsWF st → SymsWF st') := by
  unfold construct at h
  split at h
  · exact absurd (congrArg Prod.snd h) (by simp)
  · split at h
    rename_i stP nid nodeName hpre
    have hPnodes : stP.nodes = st.nodes := by
      have hh := congrArg (fun p => p.1.nodes) hpre
      exact hh.symm.trans rfl
    have hPsyms : stP.syms = st.syms := by
      have hh := congrArg (fun p => p.1.syms) hpre
      exact hh.symm.trans rfl
    have hPrefs : stP.refs = st.refs := by
      have hh := congrArg (fun p => p.1.refs) hpre
      exact hh.symm.trans rfl
    have hPcounter : stP.counter = st.counter + 1 := by
      have hh := congrArg (fun p => p.1.counter) hpre
      exact hh.symm.trans rfl
    have hPvin : stP.vin = st.vin := by
      have hh := congrArg (fun p => p.1.vin) hpre
      exact hh.symm.trans rfl
    have hPvout : stP.vout = st.vout := by
      have hh := congrArg (fun p => p.1.vout) hpre
      exact hh.symm.trans rfl
    have hName : nodeName
        = (prim op).klsName ++ "@" ++ toString (st.counter + 1) := by
      have hh := congrArg (fun p => p.2.2) hpre
      exact hh.symm.trans rfl
    simp only [] at h
    split at h
    · exact absurd (congrArg Prod.snd h) (by simp)
    · split at h
      · exact absurd (congrArg Prod.snd h) (by simp)
      · rename_i stA varin vinfo heqA
        obtain ⟨hAnodes, hAsyms, hAcounter, hAvin, hAvout,
          ⟨Δ, hΔ, hΔmem⟩, LA, hLA, hfaA⟩ :=
          ainLoop_ok_spec nid (kwargsOf args) (prim op).ain stP [] []
            stA (varin, vinfo) heqA
        split at h
        · exact absurd (congrArg Prod.snd h) (by simp)
        · rename_i stB varout heqB
          obtain ⟨hBnodes, hBrefs, hBcounter, hBvin, hBvout, hBwf,
            hBsyms, LB, hLB, hfaB⟩ :=
            aoutLoop_ok_spec nodeName (kwargsOf args) (prim op).aout
              stA [] stB varout heqB
          injection h with h1 h2
          injection h2 with h2
          simp only [List.nil_append] at hLA hLB
          refine ⟨by rw [← h2], ?_, ?_, ?_, ?_, ?_, ?_, ?_, ?_, ?_⟩
          · rw [← h1, ← h2]
            simp only []
            rw [hBnodes, hAnodes, hPnodes]
          · rw [← h1]
            simp only []
            rw [hBcounter, hAcounter, hPcounter]
          · rw [← h1]
            simp only []
            rw [hBvin, hAvin, hPvin]
          · rw [← h1]
            simp only []
            rw [hBvout, hAvout, hPvout]
          · refine ⟨nid, Δ, ?_, hΔmem⟩
            rw [← h1]
            simp only []
            rw [hBrefs, hΔ, hPrefs]
          · rw [← h2]
            simp only []
            rw [hLA]
            exact hfaA
          · rw [← h2]
            simp only []
            rw [hLB, ← hName]
            exact hfaB
          · intro nm hnm
            rw [← hName] at hnm
            have hg1 : getSym st' nm = getSym stB nm := by
              rw [← h1]
              unfold getSym
              rfl
            rw [hg1, hBsyms nm hnm]
            unfold getSym
            unfold dget
            rw [hAsyms, hPsyms]
          · intro hw
            refine symsWF_of_syms_eq st' stB ?_ ?_
            · rw [← h1]
            · exact hBwf (symsWF_of_syms_eq stA st (hAsyms.trans hPsyms) hw)

/-- The keys of an updated dict are the old keys plus possibly the
updated one. -/
theorem dset_keys_mem {α : Type} (k : String) (v : α) :
    ∀ (l : List (String × α)) (x : String),
      x ∈ (dset l k v).map (fun p => p.1)
        ↔ x = k ∨ x ∈ l.map (fun p => p.1) := by
  intro l
  induction l with
  | nil =>
      intro x
      unfold dset
      simp
  | cons p t ih =>
      rcases p with ⟨pk, pv⟩
      intro x
      unfold dset
      by_cases hp : pk = k
      · rw [if_pos hp, hp]
        simp
      · rw [if_neg hp]
        simp only [List.map_cons, List.mem_cons, ih x]
        constructor
        · rintro (h | h | h)
          · exact Or.inr (Or.inl h)
          · exact Or.inl h
          · exact Or.inr (Or.inr h)
        · rintro (h | h | h)
          · exact Or.inr (Or.inl h)
          · exact Or.inl h
          · exact Or.inr (Or.inr h)

/-- Updating a dict preserves key-distinctness. -/
theorem dset_keys_nodup {α : Type} (k : String) (v : α) :
    ∀ (l : List (String × α)), (l.map (fun p => p.1)).Nodup →
      ((dset l k v).map (fun p => p.1)).Nodup := by
  intro l
  induction l with
  | nil =>
      intro _
      unfold dset
      simp
  | cons p t ih =>
      rcases p with ⟨pk, pv⟩
      intro h
      simp only [List.map_cons, List.nodup_cons] at h
      unfold dset
      by_cases hp : pk = k
      · rw [if_pos hp]
        simp only [List.map_cons, List.nodup_cons]
        exact ⟨hp ▸ h.1, h.2⟩
      · rw [if_neg hp]
        simp only [List.map_cons, List.nodup_cons]
        refine ⟨?_, ih h.2⟩
        intro hc
        rcases (dset_keys_mem k v t pk).mp hc with hc | hc
        · exact hp hc
        · exact h.1 hc

/-- Updating at a fresh key appends the binding. -/
theorem dset_fresh_append {α : Type} (k : String) (v : α) :
    ∀ (l : List (String × α)), ¬ k ∈ l.map (fun p => p.1) →
      dset l k v = l ++ [(k, v)] := by
  intro l
  induction l with
  | nil => intro _; rfl
  | cons p t ih =>
      rcases p with ⟨pk, pv⟩
      intro h
      simp only [List.map_cons, List.mem_cons] at h
      push_neg at h
      unfold dset
      rw [if_neg (fun hc => h.1 hc.symm), ih h.2]
      rfl

/-- Collecting keyword call arguments built from a dict with distinct
keys returns that dict. -/
theorem kwargsOf_map_kw :
    ∀ (kw acc : List (String × ArgVal)),
      ((acc.map (fun p => p.1) ++ kw.map (fun p => p.1)).Nodup) →
      (kw.map (fun q => CallArg.kw q.1 q.2)).foldl
        (fun acc a =>
          match a with
          | .pos _ => acc
          | .kw k v => dset acc k v) acc = acc ++ kw := by
  intro kw
  induction kw with
  | nil =>
      intro acc _
      rw [List.append_nil]
      rfl
  | cons q t ih =>
      intro acc h
      simp only [List.map_cons, List.foldl_cons]
      have hfresh : ¬ q.1 ∈ acc.map (fun p => p.1) := by
        intro hc
        have := (List.nodup_append.mp h).2.2
        exact this hc (by simp)
      rw [dset_fresh_append q.1 q.2 acc hfresh]
      have h2 : (((acc ++ [q]).map (fun p => p.1))
          ++ t.map (fun p => p.1)).Nodup := by
        simp only [List.map_append, List.map_cons, List.map_nil] at h ⊢
        simp only [List.append_assoc]
        simpa using h
      rw [ih (acc ++ [q]) h2, List.append_assoc]
      rfl

/-- `kwargsOf` over keyword arguments built from a distinct-keyed dict
is that dict. -/
theorem kwargsOf_of_nodup (kw : List (String × ArgVal))
    (h : (kw.map (fun p => p.1)).Nodup) :
    kwargsOf (kw.map (fun q => CallArg.kw q.1 q.2)) = kw := by
  unfold kwargsOf
  have := kwargsOf_map_kw kw [] (by simpa using h)
  simpa using this

/-- Lookup in a value-wrapped dict. -/
theorem dget_map_val :
    ∀ (l : KwDict) (x : String),
      dget (l.map (fun q => (q.1, ArgVal.val q.2))) x
        = (dget l x).map ArgVal.val := by
  intro l
  induction l with
  | nil => intro x; rfl
  | cons p t ih =>
      rcases p with ⟨pk, pv⟩
      intro x
      simp only [List.map_cons]
      rw [dget_cons, dget_cons]
      by_cases hx : x = pk
      · rw [if_pos hx, if_pos hx]
        rfl
      · rw [if_neg hx, if_neg hx]
        exact ih x

/-- A successful lookup returns one of the stored values. -/
theorem dget_mem_values {α : Type} :
    ∀ (l : List (String × α)) (x : String) (v : α),
      dget l x = some v → v ∈ l.map (fun p => p.2) := by
  intro l
  induction l with
  | nil => intro x v h; exact absurd h (by simp [dget])
  | cons p t ih =>
      rcases p with ⟨pk, pv⟩
      intro x v h
      rw [dget_cons] at h
      by_cases hx : x = pk
      · rw [if_pos hx] at h
        injection h with h
        simp [h]
      · rw [if_neg hx] at h
        simp only [List.map_cons, List.mem_cons]
        exact Or.inr (ih x v h)

/-- `Model.define` registers the fresh symbol and otherwise preserves
the symbol table. -/
theorem getSym_defineSym (st : ModelState) (x y : String) :
    getSym (defineSym st x).1 y
      = if y = x then some (defineSym st x).2 else getSym st y := by
  unfold getSym defineSym allocSym
  simp only []
  rw [dget_dset]

/-- The resolved-value preparation loop: the model only allocates
anonymous literals (the symbol table, references, counter, node list
and declared inputs/outputs are unchanged), the produced keyword dict
updates only recorded keys, and key-distinctness is preserved. -/
theorem goPrep_full (p : Node) :
    ∀ (implK : KwDict) (st : ModelState) (kw : List (String × ArgVal)),
      (prepareOprKwargs.goPrep p implK st kw).1.syms = st.syms
      ∧ (prepareOprKwargs.goPrep p implK st kw).1.refs = st.refs
      ∧ (prepareOprKwargs.goPrep p implK st kw).1.counter = st.counter
      ∧ (prepareOprKwargs.goPrep p implK st kw).1.nodes = st.nodes
      ∧ (prepareOprKwargs.goPrep p implK st kw).1.vin = st.vin
      ∧ (prepareOprKwargs.goPrep p implK st kw).1.vout = st.vout
      ∧ (∀ x, ¬ x ∈ implK.map (fun q => q.1) →
          dget (prepareOprKwargs.goPrep p implK st kw).2 x = dget kw x)
      ∧ ((kw.map (fun q => q.1)).Nodup →
          (((prepareOprKwargs.goPrep p implK st kw).2.map
              (fun q => q.1)).Nodup)) := by
  intro implK
  induction implK with
  | nil =>
      intro st kw
      exact ⟨rfl, rfl, rfl, rfl, rfl, rfl, fun x _ => rfl, fun h => h⟩
  | cons q t ih =>
      intro st kw
      unfold prepareOprKwargs.goPrep
      by_cases hq : (dget p.varin q.1).isSome = true
      · simp only [hq, if_true, mkLiteral, allocSym]
        obtain ⟨i1, i2, i3, i4, i5, i6, i7, i8⟩ := ih _ _
        refine ⟨i1, i2, i3, i4, i5, i6, ?_, ?_⟩
        · intro x hx
          simp only [List.map_cons, List.mem_cons] at hx
          push_neg at hx
          rw [i7 x hx.2, dget_dset, if_neg hx.1]
        · intro hnd
          exact i8 (dset_keys_nodup q.1 _ kw hnd)
      · rw [Bool.not_eq_true] at hq
        simp only [hq, Bool.false_eq_true, if_false]
        obtain ⟨i1, i2, i3, i4, i5, i6, i7, i8⟩ := ih _ _
        refine ⟨i1, i2, i3, i4, i5, i6, ?_, ?_⟩
        · intro x hx
          simp only [List.map_cons, List.mem_cons] at hx
          push_neg at hx
          rw [i7 x hx.2, dget_dset, if_neg hx.1]
        · intro hnd
          exact i8 (dset_keys_nodup q.1 _ kw hnd)

/-- Inversion of the output-adjoint seeding loop on a single-output
node: the output symbol is named, the new model holds a symbol under
its adjoint name, and `'_' + argname` is bound to that symbol. -/
theorem vjpOutArgs_single (st : ModelState) (a : String) (var : Sym)
    (kw kw' : List (String × ArgVal))
    (h : vjpOutArgs st [(a, var)] kw = .ok kw') :
    ∃ nw H, var.name = some nw ∧ getSym st (vjpName nw) = some H
      ∧ kw' = dset kw ("_" ++ a) (.sym H) := by
  unfold vjpOutArgs at h
  cases hn : var.name with
  | none => rw [hn] at h; exact absurd h (by simp)
  | some nw =>
      rw [hn] at h
      simp only [] at h
      cases hg : getSym st (vjpName nw) with
      | none => rw [hg] at h; exact absurd h (by simp)
      | some H =>
          rw [hg] at h
          simp only [] at h
          unfold vjpOutArgs at h
          injection h with h
          exact ⟨nw, H, rfl, hg, h.symm⟩

/-- Pointwise strengthening of `Forall₂` using membership. -/
theorem forall2_imp_mem {α β : Type} {R S : α → β → Prop} :
    ∀ {l1 : List α} {l2 : List β}, List.Forall₂ R l1 l2 →
      (∀ x y, x ∈ l1 → y ∈ l2 → R x y → S x y) →
      List.Forall₂ S l1 l2 := by
  intro l1 l2 h
  induction h with
  | nil => intro _; exact List.Forall₂.nil
  | cons hR _ ih =>
      intro himp
      refine List.Forall₂.cons
        (himp _ _ (by simp) (by simp) hR) ?_
      exact ih (fun x y hx hy hr => himp x y (by simp [hx]) (by simp [hy]) hr)

/-- Whether any output symbol's name satisfies a predicate, computed
from the filtered name list. -/
theorem any_name_eq_filter (f : String → Bool) :
    ∀ (vouts : List (String × Sym)),
      (vouts.any (fun p =>
        match p.2.name with
        | some nm => f nm
        | none => false))
      = !(((vouts.filterMap fun p => p.2.name).filter f).isEmpty) := by
  intro vouts
  induction vouts with
  | nil => rfl
  | cons p t ih =>
      rw [List.any_cons]
      cases hn : p.2.name with
      | none =>
          simp only [List.filterMap_cons, hn, Bool.false_or]
          exact ih
      | some nm =>
          simp only [List.filterMap_cons, hn]
          rw [List.filter_cons]
          cases hf : f nm with
          | true =>
              rw [if_pos rfl]
              simp
          | false =>
              rw [if_neg Bool.false_ne_true]
              simp only [Bool.false_or]
              exact ih

/-- The adjoint-named outputs of a node realising one schedule block
are exactly the written occurrence names, in argument order. -/
theorem outFact_filter (vs : Nat) (n : String) (k : Nat)
    (info : List (String × Nat)) :
    ∀ (vouts vins : List (String × Sym)),
      List.Forall₂ (fun (e : String × Sym) (q : String × Sym) =>
        (q.2.sid = vs ∧ ∃ refId, dget info q.1 = some refId
          ∧ e.2.name = some (wName n k refId)
          ∧ (advNames n k).contains (wName n k refId) = true)
        ∨ (¬ q.2.sid = vs ∧ (e.2.name = none
            ∨ ∃ nm, e.2.name = some nm
                ∧ (advNames n k).contains nm = false))) vouts vins →
      (vouts.filterMap fun p => p.2.name).filter
          (fun nm => (advNames n k).contains nm)
        = (vins.filterMap fun q =>
            if q.2.sid = vs then dget info q.1 else none).map (wName n k) := by
  intro vouts vins h
  induction h with
  | nil => rfl
  | cons hR hrest ih =>
      rename_i e q l1 l2
      rcases hR with ⟨hsid, refId, hri, hname, hcont⟩ | ⟨hsid, hname⟩
      · simp only [List.filterMap_cons, hname]
        rw [List.filter_cons, if_pos (by rw [hcont])]
        have hq : (if q.2.sid = vs then dget info q.1 else none)
            = some refId := by rw [if_pos hsid, hri]
        simp only [List.filterMap_cons, hq, List.map_cons]
        rw [ih]
      · rcases hname with hname | ⟨nm, hname, hcont⟩
        · simp only [List.filterMap_cons, hname]
          have hq : (if q.2.sid = vs then dget info q.1 else none)
              = none := by rw [if_neg hsid]
          simp only [List.filterMap_cons, hq]
          exact ih
        · simp only [List.filterMap_cons, hname]
          rw [List.filter_cons, if_neg (by rw [hcont]; simp)]
          have hq : (if q.2.sid = vs then dget info q.1 else none)
              = none := by rw [if_neg hsid]
          simp only [List.filterMap_cons, hq]
          exact ih

/-- Distinct in-range ordinals carry distinct write names. -/
theorem wName_inj (n : String) (k : Nat) (hN : (advNames n k).Nodup)
    (j j' : Nat) (hj : j ∈ List.range' 1 k) (hj' : j' ∈ List.range' 1 k)
    (hne : ¬ j = j') : wName n k j ≠ wName n k j' := by
  by_cases h1 : j = k
  · by_cases h2 : j' = k
    · exact absurd (h1.trans h2.symm) hne
    · have hw1 : wName n k j = vjpName n := by
        unfold wName
        rw [if_pos h1]
      have hw2 : wName n k j' = privName n j' := by
        unfold wName
        rw [if_neg h2]
      rw [hw1, hw2]
      exact canon_ne_priv n k j' hj' hN
  · by_cases h2 : j' = k
    · have hw1 : wName n k j = privName n j := by
        unfold wName
        rw [if_neg h1]
      have hw2 : wName n k j' = vjpName n := by
        unfold wName
        rw [if_pos h2]
      rw [hw1, hw2]
      exact fun hc => canon_ne_priv n k j hj hN hc.symm
    · have hw1 : wName n k j = privName n j := by
        unfold wName
        rw [if_neg h1]
      have hw2 : wName n k j' = privName n j' := by
        unfold wName
        rw [if_neg h2]
      rw [hw1, hw2]
      exact fun hc => hne (privName_inj_on n k hN j j' hj hj' hc)

/-- Every right-hand member of a `Forall₂` has a related left-hand
member. -/
theorem forall2_mem_right {α β : Type} {R : α → β → Prop} :
    ∀ {l1 : List α} {l2 : List β}, List.Forall₂ R l1 l2 →
      ∀ y ∈ l2, ∃ x ∈ l1, R x y := by
  intro l1 l2 h
  induction h with
  | nil => intro y hy; exact absurd hy (List.not_mem_nil y)
  | cons hR hrest ih =>
      intro y hy
      rcases List.mem_cons.mp hy with hc | hc
      · subst hc
        exact ⟨_, by simp, hR⟩
      · obtain ⟨x, hx, hxy⟩ := ih y hc
        exact ⟨x, List.mem_cons_of_mem _ hx, hxy⟩

/-- `Forall₂` is preserved by appending related lists. -/
theorem forall2_append {α β : Type} {R : α → β → Prop} :
    ∀ {l1 u1 : List α} {l2 u2 : List β}, List.Forall₂ R l1 l2 →
      List.Forall₂ R u1 u2 → List.Forall₂ R (l1 ++ u1) (l2 ++ u2) := by
  intro l1 u1 l2 u2 h1 h2
  induction h1 with
  | nil => exact h2
  | cons hR _ ih => exact List.Forall₂.cons hR ih

/-- Full inversion of a successful input-adjoint creation loop of
`vjp`: the model only gains symbol definitions; every processed
occurrence of the tracked symbol binds `'_' + argname` to a fresh plain
symbol carrying the occurrence's write name (the canonical adjoint name
for the largest ordinal, the private partial name otherwise); other
symbols' bindings carry names outside the tracked adjoint names;
untouched keys and unwritten adjoint names are preserved; and after the
loop the canonical name (when some occurrence carries the largest
ordinal) registers exactly the bound symbol. -/
theorem vjpInArgs_spec (orig : ModelState) (p : Node) (vs : Nat)
    (n : String) (k : Nat) (hk : refcount orig vs = k)
    (hN : (advNames n k).Nodup) :
    ∀ (VL : List (String × Sym)) (st0 : ModelState)
      (kw0 : List (String × ArgVal)) (st1 : ModelState)
      (kw1 : List (String × ArgVal)),
      vjpInArgs orig p st0 VL kw0 = (st1, .ok kw1) →
      (∀ q ∈ VL, q.2.sid = vs → q.2.kind = .plain ∧ q.2.name = some n) →
      (∀ q ∈ VL, ¬ q.2.sid = vs → isLiteral q.2 = false →
        ∀ nw, q.2.name = some nw → ∀ refId,
          dget p.varinInfo q.1 = some refId →
          (advNames n k).contains
            (if refId = refcount orig q.2.sid then vjpName nw
             else privName nw refId) = false) →
      ((VL.map (fun q => "_" ++ q.1)).Nodup) →
      (∀ q ∈ VL, ∀ refId, q.2.sid = vs →
        dget p.varinInfo q.1 = some refId → refId ∈ List.range' 1 k) →
      ((VL.filterMap (fun q =>
          if q.2.sid = vs then dget p.varinInfo q.1 else none)).Nodup) →
      (st1.nodes = st0.nodes ∧ st1.refs = st0.refs
        ∧ st1.counter = st0.counter ∧ st1.vin = st0.vin
        ∧ st1.vout = st0.vout)
      ∧ (SymsWF st0 → SymsWF st1)
      ∧ (∀ x, (∀ q ∈ VL, x ≠ "_" ++ q.1) → dget kw1 x = dget kw0 x)
      ∧ (∀ q ∈ VL,
          (q.2.sid = vs → ∃ refId vp, dget p.varinInfo q.1 = some refId
            ∧ dget kw1 ("_" ++ q.1) = some (.sym vp)
            ∧ vp.kind = .plain ∧ vp.name = some (wName n k refId))
          ∧ (¬ q.2.sid = vs → isLiteral q.2 = false →
            ∃ vp nm', dget kw1 ("_" ++ q.1) = some (.sym vp)
              ∧ vp.name = some nm'
              ∧ (advNames n k).contains nm' = false)
          ∧ (isLiteral q.2 = true →
            dget kw1 ("_" ++ q.1) = dget kw0 ("_" ++ q.1)))
      ∧ (∀ nm, (advNames n k).contains nm = true →
          (∀ q ∈ VL, ∀ refId, q.2.sid = vs →
            dget p.varinInfo q.1 = some refId → nm ≠ wName n k refId) →
          getSym st1 nm = getSym st0 nm)
      ∧ (∀ q ∈ VL, ∀ refId, q.2.sid = vs →
          dget p.varinInfo q.1 = some refId →
          ∃ vp, dget kw1 ("_" ++ q.1) = some (.sym vp)
            ∧ getSym st1 (wName n k refId) = some vp
            ∧ vp.kind = .plain ∧ vp.name = some (wName n k refId))
      ∧ ((kw0.map (fun q => q.1)).Nodup →
          (kw1.map (fun q => q.1)).Nodup) := by
  intro VL
  induction VL with
  | nil =>
      intro st0 kw0 st1 kw1 h _ _ _ _ _
      unfold vjpInArgs at h
      injection h with h1 h2
      subst h1
      injection h2 with h2
      subst h2
      refine ⟨⟨rfl, rfl, rfl, rfl, rfl⟩, fun hw => hw, fun x _ => rfl,
        ?_, fun nm _ _ => rfl, ?_, fun hnd => hnd⟩
      · intro q hq
        exact absurd hq (List.not_mem_nil q)
      · intro q hq
        exact absurd hq (List.not_mem_nil q)
  | cons q t ih =>
      rcases q with ⟨a, var⟩
      intro st0 kw0 st1 kw1 h hv hhyg hND hrange hNodupG
      have hND' : (("_" ++ a) :: t.map (fun q => "_" ++ q.1)).Nodup := hND
      have hNDhead : ¬ ("_" ++ a) ∈ t.map (fun q => "_" ++ q.1) :=
        (List.nodup_cons.mp hND').1
      have hNDtail : (t.map (fun q => "_" ++ q.1)).Nodup :=
        (List.nodup_cons.mp hND').2
      unfold vjpInArgs at h
      by_cases hl : isLiteral var = true
      · rw [if_pos hl] at h
        have hs : ¬ var.sid = vs := by
          intro hs
          have hpl := (hv (a, var) (by simp) hs).1
          unfold isLiteral at hl
          rw [hpl] at hl
          exact absurd hl (by simp)
        have hNodupG' : ((t.filterMap (fun q =>
            if q.2.sid = vs then dget p.varinInfo q.1 else none)).Nodup)
              := by
          have hfx : (fun (q : String × Sym) =>
              if q.2.sid = vs then dget p.varinInfo q.1 else none) (a, var)
                = none := by
            show (if var.sid = vs then dget p.varinInfo a else none) = none
            exact if_neg hs
          rw [@List.filterMap_cons_none (String × Sym) Nat _ (a, var) t hfx]
            at hNodupG
          exact hNodupG
        obtain ⟨C1, C2, C3, C4, C5, C7, C8⟩ := ih st0 kw0 st1 kw1 h
          (fun q hq => hv q (List.mem_cons_of_mem _ hq))
          (fun q hq => hhyg q (List.mem_cons_of_mem _ hq))
          hNDtail
          (fun q hq => hrange q (List.mem_cons_of_mem _ hq))
          hNodupG'
        refine ⟨C1, C2, ?_, ?_, ?_, ?_, C8⟩
        · intro x hx
          exact C3 x (fun q hq => hx q (List.mem_cons_of_mem _ hq))
        · intro q hq
          rcases List.mem_cons.mp hq with hc | hc
          · subst hc
            refine ⟨fun hvs => absurd hvs hs, fun _ hnl =>
              absurd hl (by rw [hnl]; simp), fun _ => ?_⟩
            exact C3 ("_" ++ a) (fun q' hq' hx => hNDhead
              (hx ▸ List.mem_map_of_mem _ hq'))
          · exact C4 q hc
        · intro nm hc hav
          exact C5 nm hc (fun q hq => hav q (List.mem_cons_of_mem _ hq))
        · intro q hq refId' hqs hqi
          rcases List.mem_cons.mp hq with hc | hc
          · subst hc
            exact absurd hqs hs
          · exact C7 q hc refId' hqs hqi
      · rw [Bool.not_eq_true] at hl
        rw [if_neg (by rw [hl]; exact Bool.false_ne_true)] at h
        cases hri : dget p.varinInfo a with
        | none =>
            rw [hri] at h
            exact absurd (congrArg Prod.snd h) (by simp)
        | some refId =>
            rw [hri] at h
            simp only [] at h
            cases hnm : var.name with
            | none =>
                rw [hnm] at h
                exact absurd (congrArg Prod.snd h) (by simp)
            | some nw =>
                rw [hnm] at h
                simp only [] at h
                by_cases hs : var.sid = vs
                · -- an occurrence of the tracked symbol
                  obtain ⟨hpl, hname⟩ := hv (a, var) (by simp) hs
                  have hw : n = nw :=
                    Option.some.inj (hname.symm.trans hnm)
                  have hNMw : (if refId = refcount orig var.sid
                      then vjpName nw
                      else vjpName nw ++ "#" ++ toString refId)
                        = wName n k refId := by
                    rw [hs, hk, ← hw]
                    rfl
                  rw [hNMw] at h
                  have hrid : refId ∈ List.range' 1 k :=
                    hrange (a, var) (by simp) refId hs hri
                  have hconsG : ((a, var) :: t).filterMap (fun q =>
                      if q.2.sid = vs then dget p.varinInfo q.1 else none)
                        = refId :: t.filterMap (fun q =>
                      if q.2.sid = vs then dget p.varinInfo q.1
                      else none) := by
                    refine @List.filterMap_cons_some (String × Sym) Nat _
                      (a, var) t refId ?_
                    show (if var.sid = vs then dget p.varinInfo a else none)
                      = some refId
                    rw [if_pos hs]
                    exact hri
                  rw [hconsG] at hNodupG
                  have hrefNotTail : ¬ refId ∈ t.filterMap (fun q =>
                      if q.2.sid = vs then dget p.varinInfo q.1
                      else none) := (List.nodup_cons.mp hNodupG).1
                  have hNodupG' : ((t.filterMap (fun q =>
                      if q.2.sid = vs then dget p.varinInfo q.1
                      else none)).Nodup) := (List.nodup_cons.mp hNodupG).2
                  obtain ⟨C1, C2, C3, C4, C5, C7, C8⟩ :=
                    ih _ _ st1 kw1 h
                    (fun q hq => hv q (List.mem_cons_of_mem _ hq))
                    (fun q hq => hhyg q (List.mem_cons_of_mem _ hq))
                    hNDtail
                    (fun q hq => hrange q (List.mem_cons_of_mem _ hq))
                    hNodupG'
                  have hkwhead : dget kw1 ("_" ++ a)
                      = some (.sym (defineSym st0 (wName n k refId)).2) := by
                    rw [C3 ("_" ++ a) (fun q' hq' hx => hNDhead
                      (hx ▸ List.mem_map_of_mem _ hq'))]
                    exact dget_dset_self _ _ _
                  refine ⟨⟨C1.1, C1.2.1, C1.2.2.1, C1.2.2.2.1,
                      C1.2.2.2.2⟩, ?_, ?_, ?_, ?_, ?_,
                    fun hnd => C8 (dset_keys_nodup _ _ _ hnd)⟩
                  · intro hw0
                    exact C2 (symsWF_defineSym st0 _ hw0)
                  · intro x hx
                    rw [C3 x (fun q' hq' =>
                      hx q' (List.mem_cons_of_mem _ hq'))]
                    rw [dget_dset,
                      if_neg (hx (a, var) (by simp))]
                  · intro q hq
                    rcases List.mem_cons.mp hq with hc | hc
                    · subst hc
                      refine ⟨fun _ => ⟨refId,
                        (defineSym st0 (wName n k refId)).2,
                        hri, hkwhead, rfl, rfl⟩,
                        fun hns => absurd hs hns, fun hlit => ?_⟩
                      rw [hlit] at hl
                      cases hl
                    · obtain ⟨c4a, c4b, c4c⟩ := C4 q hc
                      refine ⟨c4a, c4b, fun hlit => ?_⟩
                      rw [c4c hlit, dget_dset, if_neg ?_]
                      intro hco
                      exact hNDhead (hco ▸ List.mem_map_of_mem _ hc)
                  · intro nm hc hav
                    rw [C5 nm hc (fun q' hq' =>
                      hav q' (List.mem_cons_of_mem _ hq'))]
                    rw [getSym_defineSym,
                      if_neg (hav (a, var) (by simp) refId hs hri)]
                  · intro q hq refId' hqs hqi
                    rcases List.mem_cons.mp hq with hc | hc
                    · subst hc
                      have hrr : refId' = refId :=
                        Option.some.inj (hqi.symm.trans hri)
                      subst hrr
                      refine ⟨(defineSym st0 (wName n k refId')).2,
                        hkwhead, ?_, rfl, rfl⟩
                      have hnotw : ∀ q' ∈ t, ∀ refId'',
                          q'.2.sid = vs →
                          dget p.varinInfo q'.1 = some refId'' →
                          wName n k refId' ≠ wName n k refId'' := by
                        intro q' hq' refId'' hqs' hqi'
                        have hmem'' : refId'' ∈ t.filterMap (fun q =>
                            if q.2.sid = vs then dget p.varinInfo q.1
                            else none) :=
                          List.mem_filterMap.mpr ⟨q', hq', by
                            show (if q'.2.sid = vs
                              then dget p.varinInfo q'.1 else none)
                                = some refId''
                            rw [if_pos hqs']
                            exact hqi'⟩
                        have hne'' : ¬ refId' = refId'' := by
                          intro hco
                          exact hrefNotTail (hco ▸ hmem'')
                        exact wName_inj n k hN refId' refId'' hrid
                          (hrange q' (List.mem_cons_of_mem _ hq')
                            refId'' hqs' hqi')
                          hne''
                      have hcontw : (advNames n k).contains
                          (wName n k refId') = true := by
                        by_cases hrk : refId' = k
                        · have hcn : wName n k refId' = vjpName n := by
                            unfold wName
                            rw [if_pos hrk]
                          rw [hcn]
                          exact contains_canon n k
                        · have hcn : wName n k refId' = privName n refId'
                              := by
                            unfold wName
                            rw [if_neg hrk]
                          rw [hcn]
                          exact contains_priv n k refId' hrid
                      rw [C5 (wName n k refId') hcontw hnotw]
                      rw [getSym_defineSym, if_pos rfl]
                    · exact C7 q hc refId' hqs hqi
                · -- an occurrence of a different symbol
                  have hhygH := hhyg (a, var) (by simp) hs hl nw hnm
                    refId hri
                  have hNodupG' : ((t.filterMap (fun q =>
                      if q.2.sid = vs then dget p.varinInfo q.1
                      else none)).Nodup) := by
                    have hfx : (fun (q : String × Sym) =>
                        if q.2.sid = vs then dget p.varinInfo q.1 else none)
                          (a, var) = none := by
                      show (if var.sid = vs then dget p.varinInfo a else none)
                        = none
                      exact if_neg hs
                    rw [@List.filterMap_cons_none (String × Sym) Nat _
                      (a, var) t hfx] at hNodupG
                    exact hNodupG
                  obtain ⟨C1, C2, C3, C4, C5, C7, C8⟩ :=
                    ih _ _ st1 kw1 h
                    (fun q hq => hv q (List.mem_cons_of_mem _ hq))
                    (fun q hq => hhyg q (List.mem_cons_of_mem _ hq))
                    hNDtail
                    (fun q hq => hrange q (List.mem_cons_of_mem _ hq))
                    hNodupG'
                  have hkwhead : dget kw1 ("_" ++ a)
                      = some (.sym (defineSym st0
                        (if refId = refcount orig var.sid then vjpName nw
                         else vjpName nw ++ "#" ++ toString refId)).2) := by
                    rw [C3 ("_" ++ a) (fun q' hq' hx => hNDhead
                      (hx ▸ List.mem_map_of_mem _ hq'))]
                    exact dget_dset_self _ _ _
                  refine ⟨⟨C1.1, C1.2.1, C1.2.2.1, C1.2.2.2.1,
                      C1.2.2.2.2⟩, ?_, ?_, ?_, ?_, ?_,
                    fun hnd => C8 (dset_keys_nodup _ _ _ hnd)⟩
                  · intro hw0
                    exact C2 (symsWF_defineSym st0 _ hw0)
                  · intro x hx
                    rw [C3 x (fun q' hq' =>
                      hx q' (List.mem_cons_of_mem _ hq'))]
                    rw [dget_dset, if_neg (hx (a, var) (by simp))]
                  · intro q hq
                    rcases List.mem_cons.mp hq with hc | hc
                    · subst hc
                      refine ⟨fun hvs => absurd hvs hs,
                        fun _ _ => ⟨(defineSym st0
                          (if refId = refcount orig var.sid then vjpName nw
                           else vjpName nw ++ "#" ++ toString refId)).2,
                          (if refId = refcount orig var.sid then vjpName nw
                           else vjpName nw ++ "#" ++ toString refId),
                          hkwhead, rfl, ?_⟩, fun hlit => ?_⟩
                      · have : (if refId = refcount orig var.sid
                            then vjpName nw
                            else privName nw refId)
                              = (if refId = refcount orig var.sid
                            then vjpName nw
                            else vjpName nw ++ "#" ++ toString refId) := rfl
                        rw [← this]
                        exact hhygH
                      · rw [hlit] at hl
                        cases hl
                    · obtain ⟨c4a, c4b, c4c⟩ := C4 q hc
                      refine ⟨c4a, c4b, fun hlit => ?_⟩
                      rw [c4c hlit, dget_dset, if_neg ?_]
                      intro hco
                      exact hNDhead (hco ▸ List.mem_map_of_mem _ hc)
                  · intro nm hc hav
                    rw [C5 nm hc (fun q' hq' =>
                      hav q' (List.mem_cons_of_mem _ hq'))]
                    rw [getSym_defineSym]
                    have hne : ¬ nm = (if refId = refcount orig var.sid
                        then vjpName nw
                        else vjpName nw ++ "#" ++ toString refId) := by
                      intro hco
                      have : (if refId = refcount orig var.sid
                          then vjpName nw
                          else privName nw refId)
                            = (if refId = refcount orig var.sid
                          then vjpName nw
                          else vjpName nw ++ "#" ++ toString refId) := rfl
                      rw [this, ← hco] at hhygH
                      rw [hc] at hhygH
                      cases hhygH
                    rw [if_neg hne]
                  · intro q hq refId' hqs hqi
                    rcases List.mem_cons.mp hq with hc | hc
                    · subst hc
                      exact absurd hqs hs
                    · exact C7 q hc refId' hqs hqi

/-- Full inversion of a successful partial-derivative combination loop
of `vjp`: for each processed non-largest occurrence ordinal of the
tracked symbol, one `add` node is appended that reads the running total
and the private partial and re-binds the canonical adjoint name to its
fresh output; the appended adjoint-touching nodes realise the `add`
schedule steps in ordinal order; the old running total gets referenced
as soon as one `add` is emitted; and combination steps for other
symbols never touch the tracked adjoint names. -/
theorem vjpCombine_spec (orig : ModelState) (p : Node) (vs : Nat)
    (n : String) (k : Nat) (hk : refcount orig vs = k)
    (hN : (advNames n k).Nodup) :
    ∀ (VL : List (String × Sym)) (st0 st1 : ModelState),
      vjpCombine orig p VL st0 = (st1, .ok ()) →
      SymsWF st0 →
      (∀ q ∈ VL, q.2.sid = vs → q.2.kind = .plain ∧ q.2.name = some n) →
      (∀ q ∈ VL, ¬ q.2.sid = vs → isLiteral q.2 = false →
        ∀ nw, q.2.name = some nw →
          (advNames n k).contains (vjpName nw) = false) →
      (∀ q ∈ VL, ∀ refId, q.2.sid = vs →
        dget p.varinInfo q.1 = some refId → refId ∈ List.range' 1 k) →
      (∀ c, st0.counter < c → c ≤ st0.counter + VL.length →
        (advNames n k).contains ("add" ++ "@" ++ toString c ++ "-" ++ "y")
          = false) →
      ∃ A,
        st1.nodes = st0.nodes ++ A
        ∧ st1.vin = st0.vin ∧ st1.vout = st0.vout
        ∧ (∃ Δ, st1.refs = st0.refs ++ Δ)
        ∧ st0.counter ≤ st1.counter
        ∧ st1.counter ≤ st0.counter + VL.length
        ∧ SymsWF st1
        ∧ (((VL.filterMap (fun q =>
              if q.2.sid = vs then dget p.varinInfo q.1 else none)).filter
              (fun j => j ≠ k)) = [] →
            A.filter (touchesN n k) = []
            ∧ getSym st1 (vjpName n) = getSym st0 (vjpName n))
        ∧ (∀ j ∈ ((VL.filterMap (fun q =>
              if q.2.sid = vs then dget p.varinInfo q.1 else none)).filter
              (fun j => j ≠ k)), ∀ P,
            getSym st0 (privName n j) = some P →
            hasReference st1 P.sid = true)
        ∧ (∀ H0, getSym st0 (vjpName n) = some H0 →
            ∃ H', getSym st1 (vjpName n) = some H'
              ∧ H'.kind = .plain ∧ H'.name = some (vjpName n)
              ∧ List.Forall₂ (vTagShape n k) (A.filter (touchesN n k))
                  ((((VL.filterMap (fun q =>
                      if q.2.sid = vs then dget p.varinInfo q.1
                      else none)).filter (fun j => j ≠ k))).map VTag.a)
              ∧ (((VL.filterMap (fun q =>
                    if q.2.sid = vs then dget p.varinInfo q.1
                    else none)).filter (fun j => j ≠ k)) ≠ [] →
                  hasReference st1 H0.sid = true)
              ∧ (∀ nd ∈ A.filter (touchesN n k),
                  nd.varout.any (fun q => hasReference st1 q.2.sid) = true
                  ∨ ∃ b, (b, H') ∈ nd.varout)) := by
  intro VL
  induction VL with
  | nil =>
      intro st0 st1 h hwf _ _ _ _
      unfold vjpCombine at h
      injection h with h1 h2
      subst h1
      refine ⟨[], by rw [List.append_nil], rfl, rfl,
        ⟨[], by rw [List.append_nil]⟩, le_refl _, by simp, hwf,
        fun _ => ⟨rfl, rfl⟩, ?_, ?_⟩
      · intro j hj
        exact absurd hj (by simp)
      · intro H0 hH0
        refine ⟨H0, hH0, (hwf _ _ hH0).1, (hwf _ _ hH0).2, ?_, ?_, ?_⟩
        · exact List.Forall₂.nil
        · intro hc
          exact absurd rfl hc
        · intro nd hnd
          exact absurd hnd (by simp)
  | cons q t ih =>
      rcases q with ⟨a, var⟩
      intro st0 st1 h hwf hv hhyg hrange hauto
      unfold vjpCombine at h
      by_cases hl : isLiteral var = true
      · rw [if_pos hl] at h
        have hs : ¬ var.sid = vs := by
          intro hs
          have hpl := (hv (a, var) (by simp) hs).1
          unfold isLiteral at hl
          rw [hpl] at hl
          exact absurd hl (by simp)
        have hglcons : ((a, var) :: t).filterMap (fun q =>
            if q.2.sid = vs then dget p.varinInfo q.1 else none)
              = t.filterMap (fun q =>
            if q.2.sid = vs then dget p.varinInfo q.1 else none) := by
          refine @List.filterMap_cons_none (String × Sym) Nat _
            (a, var) t ?_
          show (if var.sid = vs then dget p.varinInfo a else none) = none
          exact if_neg hs
        obtain ⟨A, g1, g2, g3, g4, g5, g6, g7, g8, g9, g10⟩ :=
          ih st0 st1 h hwf
          (fun q hq => hv q (List.mem_cons_of_mem _ hq))
          (fun q hq => hhyg q (List.mem_cons_of_mem _ hq))
          (fun q hq => hrange q (List.mem_cons_of_mem _ hq))
          (fun c hc1 hc2 => hauto c hc1
            (le_trans hc2 (by simp [Nat.add_le_add_iff_left])))
        refine ⟨A, g1, g2, g3, g4, g5,
          le_trans g6 (by simp [Nat.add_le_add_iff_left]), g7, ?_, ?_, ?_⟩
        · rw [hglcons]
          exact g8
        · rw [hglcons]
          exact g9
        · rw [hglcons]
          exact g10
      · rw [Bool.not_eq_true] at hl
        rw [if_neg (by rw [hl]; exact Bool.false_ne_true)] at h
        cases hri : dget p.varinInfo a with
        | none =>
            rw [hri] at h
            exact absurd (congrArg Prod.snd h) (by simp)
        | some refId =>
            rw [hri] at h
            simp only [] at h
            cases hnm : var.name with
            | none =>
                rw [hnm] at h
                exact absurd (congrArg Prod.snd h) (by simp)
            | some nw =>
                rw [hnm] at h
                simp only [] at h
                by_cases hrc : refId = refcount orig var.sid
                · -- skipped: the occurrence carries the full count
                  rw [if_pos hrc] at h
                  obtain ⟨A, g1, g2, g3, g4, g5, g6, g7, g8, g9, g10⟩ :=
                    ih st0 st1 h hwf
                    (fun q hq => hv q (List.mem_cons_of_mem _ hq))
                    (fun q hq => hhyg q (List.mem_cons_of_mem _ hq))
                    (fun q hq => hrange q (List.mem_cons_of_mem _ hq))
                    (fun c hc1 hc2 => hauto c hc1
                      (le_trans hc2 (by simp [Nat.add_le_add_iff_left])))
                  by_cases hs : var.sid = vs
                  · -- the largest ordinal: dropped by the stream filter
                    have hrk : refId = k := by
                      rw [hrc, hs, hk]
                    have hglcons : (((a, var) :: t).filterMap (fun q =>
                        if q.2.sid = vs then dget p.varinInfo q.1
                        else none)).filter (fun j => j ≠ k)
                          = (t.filterMap (fun q =>
                        if q.2.sid = vs then dget p.varinInfo q.1
                        else none)).filter (fun j => j ≠ k) := by
                      rw [@List.filterMap_cons_some (String × Sym) Nat _
                        (a, var) t refId (by
                          show (if var.sid = vs
                            then dget p.varinInfo a else none) = some refId
                          rw [if_pos hs]
                          exact hri)]
                      rw [List.filter_cons]
                      rw [if_neg (by
                        rw [hrk]
                        simp)]
                    refine ⟨A, g1, g2, g3, g4, g5,
                      le_trans g6 (by simp [Nat.add_le_add_iff_left]),
                      g7, ?_, ?_, ?_⟩
                    · rw [hglcons]
                      exact g8
                    · rw [hglcons]
                      exact g9
                    · rw [hglcons]
                      exact g10
                  · have hglcons : ((a, var) :: t).filterMap (fun q =>
                        if q.2.sid = vs then dget p.varinInfo q.1 else none)
                          = t.filterMap (fun q =>
                        if q.2.sid = vs then dget p.varinInfo q.1
                        else none) := by
                      refine @List.filterMap_cons_none (String × Sym) Nat _
                        (a, var) t ?_
                      show (if var.sid = vs then dget p.varinInfo a
                        else none) = none
                      exact if_neg hs
                    refine ⟨A, g1, g2, g3, g4, g5,
                      le_trans g6 (by simp [Nat.add_le_add_iff_left]),
                      g7, ?_, ?_, ?_⟩
                    · rw [hglcons]
                      exact g8
                    · rw [hglcons]
                      exact g9
                    · rw [hglcons]
                      exact g10
                · -- an add node is emitted
                  rw [if_neg hrc] at h
                  cases hgF : getSym st0 (vjpName nw) with
                  | none =>
                      rw [hgF] at h
                      exact absurd (congrArg Prod.snd h) (by simp)
                  | some varF =>
                      rw [hgF] at h
                      simp only [] at h
                      cases hgP : getSym st0
                          (vjpName nw ++ "#" ++ toString refId) with
                      | none =>
                          rw [hgP] at h
                          exact absurd (congrArg Prod.snd h) (by simp)
                      | some varP =>
                          rw [hgP] at h
                          simp only [] at h
                          rcases hcon : construct .addO
                              [.kw "x1" (.sym varF), .kw "x2" (.sym varP),
                               .kw "y" (.sym
                                 (defineSym st0 (vjpName nw)).2)]
                              (defineSym st0 (vjpName nw)).1
                            with ⟨stC, rc⟩
                          rw [hcon] at h
                          cases rc with
                          | error e =>
                              exact absurd (congrArg Prod.snd h) (by simp)
                          | ok nd =>
                              simp only [] at h
                              have haddain : (prim OpId.addO).ain
                                  = ["x1", "x2"] := rfl
                              have haddaout : (prim OpId.addO).aout
                                  = ["y"] := rfl
                              have hklsC : (prim OpId.addO).klsName
                                  = "add" := rfl
                              have hkwof : kwargsOf
                                  [CallArg.kw "x1" (.sym varF),
                                   CallArg.kw "x2" (.sym varP),
                                   CallArg.kw "y" (.sym
                                     (defineSym st0 (vjpName nw)).2)]
                                  = [("x1", ArgVal.sym varF),
                                     ("x2", ArgVal.sym varP),
                                     ("y", ArgVal.sym
                                       (defineSym st0 (vjpName nw)).2)] := rfl
                              obtain ⟨hop, hnodesC, hcntC, hvinC, hvoutC,
                                ⟨nid, Δ, hrefsC, hΔmem⟩, hfaIn, hfaOut,
                                hgsymC, hwfCp⟩ :=
                                construct_ok_spec .addO _ _ stC nd hcon
                              rw [haddain] at hfaIn
                              rw [List.forall₂_cons_right_iff] at hfaIn
                              obtain ⟨e1, u1, hE1, hfaIn2, hvarinEq1⟩ := hfaIn
                              rw [List.forall₂_cons_right_iff] at hfaIn2
                              obtain ⟨e2, u2, hE2, hfaIn3, hvarinEq2⟩ :=
                                hfaIn2
                              have hu2 : u2 = [] := by
                                cases hfaIn3
                                rfl
                              subst hu2
                              rcases e1 with ⟨e1a, e1b⟩
                              rcases e2 with ⟨e2a, e2b⟩
                              obtain ⟨hE1a, hE1b⟩ := hE1
                              obtain ⟨hE2a, hE2b⟩ := hE2
                              have he1 : e1b = varF := by
                                have := hE1b varF (by rw [hkwof]; rfl)
                                exact this
                              have he2 : e2b = varP := by
                                have := hE2b varP (by rw [hkwof]; rfl)
                                exact this
                              have hE1a' : e1a = "x1" := hE1a
                              have hE2a' : e2a = "x2" := hE2a
                              have hvarin : nd.varin
                                  = [("x1", varF), ("x2", varP)] := by
                                rw [hvarinEq1, hvarinEq2, hE1a', hE2a',
                                  he1, he2]
                              rw [haddaout] at hfaOut
                              rw [List.forall₂_cons_right_iff] at hfaOut
                              obtain ⟨e3, u3, hE3, hfaOut2, hvoutEq⟩ := hfaOut
                              have hu3 : u3 = [] := by
                                cases hfaOut2
                                rfl
                              subst hu3
                              rcases e3 with ⟨e3a, e3b⟩
                              obtain ⟨hE3a, hE3b⟩ := hE3
                              have hcmp : dget
                                  [("x1", ArgVal.sym varF),
                                   ("x2", ArgVal.sym varP),
                                   ("y", ArgVal.sym
                                     (defineSym st0 (vjpName nw)).2)] "y"
                                  = some (ArgVal.sym
                                    (defineSym st0 (vjpName nw)).2) := rfl
                              have he3 : e3b
                                  = (defineSym st0 (vjpName nw)).2 := by
                                rcases hE3b with hsy | ⟨hnone, _⟩
                                · rw [hkwof, hcmp] at hsy
                                  exact (ArgVal.sym.inj
                                    (Option.some.inj hsy)).symm
                                · rw [hkwof] at hnone
                                  exact absurd (hcmp.symm.trans hnone)
                                    (by simp)
                              have hE3a' : e3a = "y" := hE3a
                              have hvarout : nd.varout
                                  = [("y", (defineSym st0 (vjpName nw)).2)]
                                  := by
                                rw [hvoutEq, hE3a', he3]
                              have hF2name :
                                  (defineSym st0 (vjpName nw)).2.name
                                  = some (vjpName nw) := rfl
                              have hF2kind :
                                  (defineSym st0 (vjpName nw)).2.kind
                                  = SymKind.plain := rfl
                              have hcntD :
                                  (defineSym st0 (vjpName nw)).1.counter
                                  = st0.counter := rfl
                              have hnodesD :
                                  (defineSym st0 (vjpName nw)).1.nodes
                                  = st0.nodes := rfl
                              have hrefsD :
                                  (defineSym st0 (vjpName nw)).1.refs
                                  = st0.refs := rfl
                              have hcntC' : stC.counter = st0.counter + 1 := by
                                rw [hcntC, hcntD]
                              have hlen1 : 1 ≤ ((a, var) :: t).length := by
                                simp
                              have hauto1 : (advNames n k).contains
                                  ("add" ++ "@" ++ toString (st0.counter + 1)
                                    ++ "-" ++ "y") = false :=
                                hauto (st0.counter + 1) (Nat.lt_succ_self _)
                                  (by
                                    rw [List.length_cons]
                                    omega)
                              have hgsymCadv : ∀ nm,
                                  (advNames n k).contains nm = true →
                                  getSym stC nm
                                    = getSym (defineSym st0 (vjpName nw)).1
                                        nm := by
                                intro nm hc
                                refine hgsymC nm ?_
                                intro aarg haarg
                                have haarg' : aarg = "y" := by
                                  rw [haddaout] at haarg
                                  simpa using haarg
                                subst haarg'
                                intro hco
                                have hthis : (advNames n k).contains
                                    ((prim OpId.addO).klsName ++ "@"
                                      ++ toString
                                        ((defineSym st0 (vjpName nw)).1.counter
                                          + 1) ++ "-" ++ "y") = true := by
                                  rw [← hco]
                                  exact hc
                                rw [hklsC, hcntD, hauto1] at hthis
                                cases hthis
                              have hwfD : SymsWF
                                  (defineSym st0 (vjpName nw)).1 :=
                                symsWF_defineSym st0 _ hwf
                              have hwfC : SymsWF stC := hwfCp hwfD
                              have hautoT : ∀ c, stC.counter < c →
                                  c ≤ stC.counter + t.length →
                                  (advNames n k).contains
                                    ("add" ++ "@" ++ toString c ++ "-" ++ "y")
                                      = false := by
                                intro c hc1 hc2
                                rw [hcntC'] at hc1 hc2
                                refine hauto c (by omega) ?_
                                rw [List.length_cons]
                                omega
                              obtain ⟨A', hB1, hB2, hB3, ⟨Δ', hB4⟩, hB5, hB6,
                                hB7, hB8, hBP, hB9⟩ :=
                                ih stC st1 h hwfC
                                (fun q hq => hv q (List.mem_cons_of_mem _ hq))
                                (fun q hq => hhyg q
                                  (List.mem_cons_of_mem _ hq))
                                (fun q hq => hrange q
                                  (List.mem_cons_of_mem _ hq))
                                hautoT
                              have hrefsAll : ∃ Δf,
                                  st1.refs = st0.refs ++ Δf := by
                                refine ⟨Δ ++ Δ', ?_⟩
                                rw [hB4, hrefsC, hrefsD, List.append_assoc]
                              have hrefF : (varF.sid, nid) ∈ Δ := by
                                refine hΔmem "x1" varF ?_ ?_
                                · rw [haddain]
                                  simp
                                · rw [hkwof]
                                  rfl
                              have hrefFC : hasReference stC varF.sid
                                  = true := by
                                refine hasReference_of_mem stC varF.sid nid ?_
                                rw [hrefsC, hrefsD]
                                exact List.mem_append_right _ hrefF
                              have hrefF1 : hasReference st1 varF.sid
                                  = true :=
                                hasReference_mono stC st1 Δ' hB4 varF.sid
                                  hrefFC
                              by_cases hs : var.sid = vs
                              · -- an accumulation add of the tracked symbol
                                obtain ⟨hpl, hname⟩ := hv (a, var)
                                  (by simp) hs
                                have hwnw : n = nw :=
                                  Option.some.inj (hname.symm.trans hnm)
                                subst hwnw
                                have hrkne : ¬ refId = k := by
                                  intro hco
                                  refine hrc ?_
                                  rw [hco, hs]
                                  exact hk.symm
                                have hglcons : ((((a, var) :: t).filterMap
                                    (fun q => if q.2.sid = vs
                                      then dget p.varinInfo q.1
                                      else none)).filter (fun j => j ≠ k))
                                    = refId :: (((t.filterMap
                                    (fun q => if q.2.sid = vs
                                      then dget p.varinInfo q.1
                                      else none)).filter
                                        (fun j => j ≠ k))) := by
                                  rw [@List.filterMap_cons_some
                                    (String × Sym) Nat _ (a, var) t refId (by
                                      show (if var.sid = vs
                                        then dget p.varinInfo a else none)
                                          = some refId
                                      rw [if_pos hs]
                                      exact hri)]
                                  rw [List.filter_cons]
                                  rw [if_pos (decide_eq_true hrkne)]
                                have hgstC : getSym stC (vjpName n)
                                    = some (defineSym st0 (vjpName n)).2 := by
                                  rw [hgsymCadv (vjpName n)
                                    (contains_canon n k)]
                                  rw [getSym_defineSym, if_pos rfl]
                                have htoucnd : touchesN n k nd = true := by
                                  unfold touchesN
                                  rw [hvarout]
                                  rw [List.any_cons]
                                  have : (match
                                      ("y", (defineSym st0
                                        (vjpName n)).2).2.name with
                                    | some nm => (advNames n k).contains nm
                                    | none => false) = true := by
                                    rw [hF2name]
                                    exact contains_canon n k
                                  rw [this]
                                  simp
                                refine ⟨nd :: A', ?_, ?_, ?_, hrefsAll,
                                  ?_, ?_, hB7, ?_, ?_, ?_⟩
                                · rw [hB1, hnodesC, hnodesD]
                                  simp
                                · rw [hB2, hvinC]
                                  rfl
                                · rw [hB3, hvoutC]
                                  rfl
                                · rw [hcntC'] at hB5
                                  omega
                                · rw [hcntC'] at hB6
                                  rw [List.length_cons]
                                  omega
                                · intro hco
                                  rw [hglcons] at hco
                                  exact absurd hco (by simp)
                                · intro j hj P hP
                                  rw [hglcons] at hj
                                  rcases List.mem_cons.mp hj with hcj | hcj
                                  · subst hcj
                                    have hPP : varP = P :=
                                      Option.some.inj (hgP.symm.trans hP)
                                    have hrefP : (varP.sid, nid) ∈ Δ := by
                                      refine hΔmem "x2" varP ?_ ?_
                                      · rw [haddain]
                                        simp
                                      · rw [hkwof]
                                        rfl
                                    have hrefPC : hasReference stC varP.sid
                                        = true := by
                                      refine hasReference_of_mem stC
                                        varP.sid nid ?_
                                      rw [hrefsC, hrefsD]
                                      exact List.mem_append_right _ hrefP
                                    rw [← hPP]
                                    exact hasReference_mono stC st1 Δ' hB4
                                      varP.sid hrefPC
                                  · have hjr : j ∈ List.range' 1 k := by
                                      have hjGL : j ∈ t.filterMap (fun q =>
                                          if q.2.sid = vs
                                          then dget p.varinInfo q.1
                                          else none) :=
                                        List.mem_of_mem_filter hcj
                                      obtain ⟨q', hq', hfq⟩ :=
                                        List.mem_filterMap.mp hjGL
                                      have hfq' : (if q'.2.sid = vs
                                          then dget p.varinInfo q'.1
                                          else none) = some j := hfq
                                      by_cases hqs' : q'.2.sid = vs
                                      · rw [if_pos hqs'] at hfq'
                                        exact hrange q'
                                          (List.mem_cons_of_mem _ hq') j
                                          hqs' hfq'
                                      · rw [if_neg hqs'] at hfq'
                                        cases hfq'
                                    have hcne : ¬ privName n j
                                        = vjpName n := fun hc' =>
                                      canon_ne_priv n k j hjr hN hc'.symm
                                    have hPD : getSym
                                        (defineSym st0 (vjpName n)).1
                                        (privName n j) = some P := by
                                      rw [getSym_defineSym, if_neg hcne]
                                      exact hP
                                    have hPC : getSym stC (privName n j)
                                        = some P := by
                                      rw [hgsymCadv (privName n j)
                                        (contains_priv n k j hjr)]
                                      exact hPD
                                    exact hBP j hcj P hPC
                                · intro H0 hH0
                                  have hFH : varF = H0 :=
                                    Option.some.inj (hgF.symm.trans hH0)
                                  obtain ⟨H', hH'1, hH'2, hH'3, hH'4, hH'5,
                                    hH'6⟩ := hB9
                                    (defineSym st0 (vjpName n)).2 hgstC
                                  have hfiltcons : (nd :: A').filter
                                      (touchesN n k)
                                      = nd :: A'.filter (touchesN n k) := by
                                    rw [List.filter_cons, if_pos htoucnd]
                                  have hshape : vTagShape n k nd
                                      (VTag.a refId) := by
                                    refine ⟨hop, varF, varP,
                                      (defineSym st0 (vjpName n)).2,
                                      hvarin, (hwf _ _ hgF).1,
                                      (hwf _ _ hgF).2, (hwf _ _ hgP).1,
                                      (hwf _ _ hgP).2, hvarout, hF2name⟩
                                  refine ⟨H', hH'1, hH'2, hH'3, ?_, ?_, ?_⟩
                                  · rw [hglcons, hfiltcons, List.map_cons]
                                    exact List.Forall₂.cons hshape hH'4
                                  · intro _
                                    rw [← hFH]
                                    exact hrefF1
                                  · intro nd' hnd'
                                    rw [hfiltcons] at hnd'
                                    rcases List.mem_cons.mp hnd' with hc | hc
                                    · subst hc
                                      by_cases hts : ((t.filterMap
                                          (fun q => if q.2.sid = vs
                                            then dget p.varinInfo q.1
                                            else none)).filter
                                              (fun j => j ≠ k)) = []
                                      · obtain ⟨hAnil, hgpres⟩ := hB8 hts
                                        have hH'F2 : H'
                                            = (defineSym st0 (vjpName n)).2
                                            := by
                                          rw [hgpres, hgstC] at hH'1
                                          exact (Option.some.inj hH'1).symm
                                        refine Or.inr ⟨"y", ?_⟩
                                        rw [hvarout, hH'F2]
                                        simp
                                      · have hrefF2 := hH'5 hts
                                        refine Or.inl ?_
                                        rw [hvarout]
                                        rw [List.any_cons]
                                        have : hasReference st1
                                            ((("y"), (defineSym st0
                                              (vjpName n)).2)).2.sid
                                            = true := hrefF2
                                        rw [this]
                                        simp
                                    · exact hH'6 nd' hc
                              · -- an add for a different symbol
                                have hhygH := hhyg (a, var) (by simp) hs hl
                                  nw hnm
                                have hcanne : ¬ vjpName n = vjpName nw := by
                                  intro hco
                                  rw [← hco, contains_canon] at hhygH
                                  cases hhygH
                                have hgstC : getSym stC (vjpName n)
                                    = getSym st0 (vjpName n) := by
                                  rw [hgsymCadv (vjpName n)
                                    (contains_canon n k)]
                                  rw [getSym_defineSym, if_neg hcanne]
                                have htoucnd : touchesN n k nd = false := by
                                  unfold touchesN
                                  rw [hvarout]
                                  rw [List.any_cons]
                                  have : (match
                                      ("y", (defineSym st0
                                        (vjpName nw)).2).2.name with
                                    | some nm => (advNames n k).contains nm
                                    | none => false) = false := by
                                    rw [hF2name]
                                    exact hhygH
                                  rw [this]
                                  simp
                                have hglcons : (((a, var) :: t).filterMap
                                    (fun q => if q.2.sid = vs
                                      then dget p.varinInfo q.1 else none))
                                    = (t.filterMap
                                    (fun q => if q.2.sid = vs
                                      then dget p.varinInfo q.1
                                      else none)) := by
                                  refine @List.filterMap_cons_none
                                    (String × Sym) Nat _ (a, var) t ?_
                                  show (if var.sid = vs
                                    then dget p.varinInfo a else none) = none
                                  exact if_neg hs
                                have hfiltcons : (nd :: A').filter
                                    (touchesN n k)
                                    = A'.filter (touchesN n k) := by
                                  rw [List.filter_cons,
                                    if_neg (by rw [htoucnd]
                                               exact Bool.false_ne_true)]
                                refine ⟨nd :: A', ?_, ?_, ?_, hrefsAll,
                                  ?_, ?_, hB7, ?_, ?_, ?_⟩
                                · rw [hB1, hnodesC, hnodesD]
                                  simp
                                · rw [hB2, hvinC]
                                  rfl
                                · rw [hB3, hvoutC]
                                  rfl
                                · rw [hcntC'] at hB5
                                  omega
                                · rw [hcntC'] at hB6
                                  rw [List.length_cons]
                                  omega
                                · intro hco
                                  rw [hglcons] at hco
                                  obtain ⟨hAnil, hgpres⟩ := hB8 hco
                                  refine ⟨?_, ?_⟩
                                  · rw [hfiltcons]
                                    exact hAnil
                                  · rw [hgpres, hgstC]
                                · intro j hj P hP
                                  rw [hglcons] at hj
                                  have hjr : j ∈ List.range' 1 k := by
                                    have hjGL : j ∈ t.filterMap (fun q =>
                                        if q.2.sid = vs
                                        then dget p.varinInfo q.1
                                        else none) :=
                                      List.mem_of_mem_filter hj
                                    obtain ⟨q', hq', hfq⟩ :=
                                      List.mem_filterMap.mp hjGL
                                    have hfq' : (if q'.2.sid = vs
                                        then dget p.varinInfo q'.1
                                        else none) = some j := hfq
                                    by_cases hqs' : q'.2.sid = vs
                                    · rw [if_pos hqs'] at hfq'
                                      exact hrange q'
                                        (List.mem_cons_of_mem _ hq') j
                                        hqs' hfq'
                                    · rw [if_neg hqs'] at hfq'
                                      cases hfq'
                                  have hprivne : ¬ privName n j
                                      = vjpName nw := by
                                    intro hc'
                                    rw [← hc'] at hhygH
                                    rw [contains_priv n k j hjr] at hhygH
                                    cases hhygH
                                  have hPD : getSym
                                      (defineSym st0 (vjpName nw)).1
                                      (privName n j) = some P := by
                                    rw [getSym_defineSym, if_neg hprivne]
                                    exact hP
                                  have hPC : getSym stC (privName n j)
                                      = some P := by
                                    rw [hgsymCadv (privName n j)
                                      (contains_priv n k j hjr)]
                                    exact hPD
                                  exact hBP j hj P hPC
                                · intro H0 hH0
                                  obtain ⟨H', hH'1, hH'2, hH'3, hH'4, hH'5,
                                    hH'6⟩ := hB9 H0 (by rw [hgstC]; exact hH0)
                                  refine ⟨H', hH'1, hH'2, hH'3, ?_, ?_, ?_⟩
                                  · rw [hglcons, hfiltcons]
                                    exact hH'4
                                  · intro hne
                                    rw [hglcons] at hne
                                    exact hH'5 hne
                                  · intro nd' hnd'
                                    rw [hfiltcons] at hnd'
                                    exact hH'6 nd' hnd'

/-- The Boolean no-duplicate check implies `Nodup`. -/
theorem nodup_of_nodupB :
    ∀ (l : List Nat), nodupB l = true → l.Nodup := by
  intro l
  induction l with
  | nil => intro _; exact List.nodup_nil
  | cons x t ih =>
      intro h
      rw [nodupB_cons, Bool.and_eq_true] at h
      refine List.nodup_cons.mpr ⟨?_, ih h.2⟩
      intro hc
      have := (contains_iff_mem_nat t x).mpr hc
      rw [this] at h
      exact absurd h.1 (by simp)

/-- The structural facts about each forward primitive and its reverse
primitive used by the reverse walk: the reverse outputs are the
`'_'`-prefixed forward inputs (pairwise distinct, distinct from the
forward argument names and from `'_y'`), `'_y'` is a reverse input, the
reverse class name and output argument names lie in the auto-name
pools, the reverse primitive is neither `add` nor `terminal`, and the
forward primitive has the single output `y` and at most two inputs. -/
theorem vjpOp_facts (op vop : OpId) (h : oprToVjp op = some vop) :
    (prim vop).aout = (prim op).ain.map (fun a => "_" ++ a)
    ∧ "_y" ∈ (prim vop).ain
    ∧ (∀ a ∈ (prim op).ain, ¬ "_" ++ a = "_y")
    ∧ ((prim op).ain.map (fun a => "_" ++ a)).Nodup
    ∧ (prim vop).klsName ∈ vjpKlsNames
    ∧ (∀ aa ∈ (prim vop).aout, aa ∈ vjpAoutArgs)
    ∧ ¬ vop = OpId.addO ∧ ¬ vop = OpId.terminalO
    ∧ (prim op).aout = ["y"]
    ∧ (prim op).ain.length ≤ 2
    ∧ (∀ a ∈ (prim op).ain, ¬ ("_" ++ a) ∈ (prim op).ain)
    ∧ ¬ "_y" ∈ (prim op).ain := by
  cases op with
  | terminalO =>
      have hv : vop = OpId.terminalV := by
        injection h with h
        exact h.symm
      subst hv
      refine ⟨by decide, by decide, by decide, by decide, by decide,
        by decide, by decide, by decide, by decide, by decide, by decide,
        by decide⟩
  | addO =>
      have hv : vop = OpId.addV := by
        injection h with h
        exact h.symm
      subst hv
      refine ⟨by decide, by decide, by decide, by decide, by decide,
        by decide, by decide, by decide, by decide, by decide, by decide,
        by decide⟩
  | mulO =>
      have hv : vop = OpId.mulV := by
        injection h with h
        exact h.symm
      subst hv
      refine ⟨by decide, by decide, by decide, by decide, by decide,
        by decide, by decide, by decide, by decide, by decide, by decide,
        by decide⟩
  | tsO =>
      have hv : vop = OpId.tsV := by
        injection h with h
        exact h.symm
      subst hv
      refine ⟨by decide, by decide, by decide, by decide, by decide,
        by decide, by decide, by decide, by decide, by decide, by decide,
        by decide⟩
  | terminalV => cases h
  | terminalJ => cases h
  | addV => cases h
  | addJ => cases h
  | mulV => cases h
  | mulJ => cases h
  | tsV => cases h
  | tsJ => cases h

/-- Full inversion of one reverse-walk record: processing a
well-formed record appends the reverse node and its accumulation
`add` nodes; when the record has no occurrence of the tracked symbol no
appended node touches its adjoint names and the canonical name is
preserved; when it has occurrences, the appended adjoint-touching nodes
realise exactly the record's schedule block, the canonical name ends
holding the block's accumulation head, the previous head gets
referenced unless the block carries the largest ordinal, every new
touching node is referenced or outputs the new head, and a record that
outputs the tracked symbol references the current head. -/
theorem vjpRecord_spec (orig : ModelState) (vs : Nat) (n : String)
    (k : Nat) (hk : refcount orig vs = k) (hN : (advNames n k).Nodup)
    (r : TapeRec) (st st' : ModelState)
    (hrec : vjpRecord orig st r = .ok st')
    (hRok : RecOK vs n k r)
    (hwf : SymsWF st)
    (hauto : ∀ c, st.counter < c → c ≤ st.counter + 3 →
      ∀ b ∈ vjpKlsNames, ∀ aa ∈ vjpAoutArgs,
        (advNames n k).contains (b ++ "@" ++ toString c ++ "-" ++ aa)
          = false) :
    ∃ A,
      st'.nodes = st.nodes ++ A
      ∧ st'.vin = st.vin ∧ st'.vout = st.vout
      ∧ (∃ Δ, st'.refs = st.refs ++ Δ)
      ∧ st.counter ≤ st'.counter ∧ st'.counter ≤ st.counter + 3
      ∧ SymsWF st'
      ∧ (ordsOf vs r.node = [] →
          A.filter (touchesN n k) = []
          ∧ getSym st' (vjpName n) = getSym st (vjpName n))
      ∧ (ordsOf vs r.node ≠ [] →
          (k ∈ ordsOf vs r.node
            ∨ ∃ H0, getSym st (vjpName n) = some H0) →
          ∃ H', getSym st' (vjpName n) = some H'
            ∧ H'.kind = .plain ∧ H'.name = some (vjpName n)
            ∧ List.Forall₂ (vTagShape n k) (A.filter (touchesN n k))
                (blockStream k (ordsOf vs r.node))
            ∧ (∀ H0, getSym st (vjpName n) = some H0 →
                ¬ k ∈ ordsOf vs r.node →
                hasReference st' H0.sid = true)
            ∧ (∀ nd ∈ A.filter (touchesN n k),
                nd.varout.any (fun q => hasReference st' q.2.sid) = true
                ∨ ∃ b, (b, H') ∈ nd.varout))
      ∧ (∀ H0, getSym st (vjpName n) = some H0 →
          (r.node.varout.any (fun q => decide (q.2.sid = vs))) = true →
          hasReference st' H0.sid = true) := by
  obtain ⟨hvjp0, hain, hinfo, haout, himpl, hkw, hvsym, hvoutS0, hhyg,
    hGnodup, hGrange⟩ := hRok
  obtain ⟨vop, hvop⟩ := Option.isSome_iff_exists.mp hvjp0
  obtain ⟨f1, f2, f3, f4, f5, f6, f7a, f7b, f8, f9, f10, f11⟩ :=
    vjpOp_facts r.node.op vop hvop
  unfold vjpRecord at hrec
  simp only [] at hrec
  rw [hvop] at hrec
  simp only [except_bind_ok, pure_bind] at hrec
  rcases hprep : prepareOprKwargs r.node r.implKwargs st with ⟨stPr, kw0⟩
  rw [hprep] at hrec
  have hpf := goPrep_full r.node r.implKwargs st
    (r.node.kwargs.map (fun q => (q.1, ArgVal.val q.2)))
  rw [show prepareOprKwargs.goPrep r.node r.implKwargs st
      (r.node.kwargs.map (fun q => (q.1, ArgVal.val q.2)))
      = prepareOprKwargs r.node r.implKwargs st from rfl, hprep] at hpf
  obtain ⟨hp1x, hp2x, hp3x, hp4x, hp5x, hp6x, hp7x, hp8x⟩ := hpf
  have hp1 : stPr.syms = st.syms := hp1x
  have hp2 : stPr.refs = st.refs := hp2x
  have hp3 : stPr.counter = st.counter := hp3x
  have hp4 : stPr.nodes = st.nodes := hp4x
  have hp5 : stPr.vin = st.vin := hp5x
  have hp6 : stPr.vout = st.vout := hp6x
  have hp7 : ∀ x, ¬ x ∈ r.implKwargs.map (fun q => q.1) →
      dget kw0 x = dget (r.node.kwargs.map
        (fun q => (q.1, ArgVal.val q.2))) x := hp7x
  have hp8 : ((r.node.kwargs.map
      (fun q => (q.1, ArgVal.val q.2))).map (fun q => q.1)).Nodup →
      (kw0.map (fun q => q.1)).Nodup := hp8x
  simp only [] at hrec
  have hvoutshape : ∃ outvar, r.node.varout = [("y", outvar)] := by
    have haout2 : r.node.varout.map (fun p => p.1) = ["y"] := by
      rw [haout, f8]
    cases hvo : r.node.varout with
    | nil =>
        rw [hvo] at haout2
        exact absurd haout2 (by simp)
    | cons q0 tq =>
        rcases q0 with ⟨qa, qb⟩
        rw [hvo, List.map_cons] at haout2
        injection haout2 with h1 h2
        have h1' : qa = "y" := h1
        refine ⟨qb, ?_⟩
        rw [h1', List.map_eq_nil_iff.mp h2]
  obtain ⟨outvar, hvoutshape⟩ := hvoutshape
  rw [hvoutshape] at hrec
  cases hout : vjpOutArgs stPr [("y", outvar)] kw0 with
  | error e =>
      rw [hout] at hrec
      exact absurd hrec (by simp [except_bind_err])
  | ok kw1 =>
      rw [hout, except_bind_ok] at hrec
      obtain ⟨nwOut, Hout, houtname, hgetHout, hkw1eq⟩ :=
        vjpOutArgs_single stPr "y" outvar kw0 kw1 hout
      have hgPr : ∀ x, getSym stPr x = getSym st x := by
        intro x
        unfold getSym
        rw [hp1]
      rcases hin : vjpInArgs orig r.node stPr r.node.varin kw1
        with ⟨stIn, rin⟩
      rw [hin] at hrec
      cases rin with
      | error e => exact absurd hrec (by simp)
      | ok kw2 =>
          simp only [] at hrec
          have hhyg2 : ∀ q ∈ r.node.varin, ¬ q.2.sid = vs →
              isLiteral q.2 = false → ∀ nw, q.2.name = some nw →
              ∀ refId, dget r.node.varinInfo q.1 = some refId →
              (advNames n k).contains
                (if refId = refcount orig q.2.sid then vjpName nw
                 else privName nw refId) = false := by
            intro q hq hns hnl nw hnw refId hrid
            by_cases hc : refId = refcount orig q.2.sid
            · rw [if_pos hc]
              exact (hhyg q hq hns nw hnw).1
            · rw [if_neg hc]
              exact (hhyg q hq hns nw hnw).2 refId hrid
          have hND2 : (r.node.varin.map (fun q => "_" ++ q.1)).Nodup := by
            have heq : r.node.varin.map (fun q => "_" ++ q.1)
                = ((prim r.node.op).ain).map (fun a => "_" ++ a) := by
              rw [← hain, List.map_map]
              rfl
            rw [heq]
            exact f4
          have hrange2 : ∀ q ∈ r.node.varin, ∀ refId, q.2.sid = vs →
              dget r.node.varinInfo q.1 = some refId →
              refId ∈ List.range' 1 k := by
            intro q hq refId hqs hqi
            refine hGrange refId ?_
            unfold ordsOf
            exact List.mem_filterMap.mpr ⟨q, hq, by
              show (if q.2.sid = vs then dget r.node.varinInfo q.1
                else none) = some refId
              rw [if_pos hqs]
              exact hqi⟩
          have hNodupG2 : ((r.node.varin.filterMap (fun q =>
              if q.2.sid = vs then dget r.node.varinInfo q.1
              else none)).Nodup) :=
            nodup_of_nodupB _ hGnodup
          obtain ⟨D1, D2, D3, D4, D5, D7, D8⟩ :=
            vjpInArgs_spec orig r.node vs n k hk hN r.node.varin stPr kw1
              stIn kw2 hin hvsym hhyg2 hND2 hrange2 hNodupG2
          have hwfPr : SymsWF stPr := symsWF_of_syms_eq stPr st hp1 hwf
          have hwfIn : SymsWF stIn := D2 hwfPr
          have hnodesIn : stIn.nodes = st.nodes := by rw [D1.1, hp4]
          have hrefsIn : stIn.refs = st.refs := by rw [D1.2.1, hp2]
          have hcntIn : stIn.counter = st.counter := by
            rw [D1.2.2.1, hp3]
          have hvinIn : stIn.vin = st.vin := by rw [D1.2.2.2.1, hp5]
          have hvoutIn : stIn.vout = st.vout := by rw [D1.2.2.2.2, hp6]
          have hbasekeys : ((r.node.kwargs.map
              (fun q => (q.1, ArgVal.val q.2))).map
                (fun q => q.1)).Nodup := by
            rw [List.map_map]
            exact hkw
          have hkw0keys : (kw0.map (fun q => q.1)).Nodup := hp8 hbasekeys
          have hkw1keys : (kw1.map (fun q => q.1)).Nodup := by
            rw [hkw1eq]
            exact dset_keys_nodup _ _ _ hkw0keys
          have hkwid : kwargsOf (kw2.map (fun q => CallArg.kw q.1 q.2))
              = kw2 := kwargsOf_of_nodup kw2 (D8 hkw1keys)
          rcases hconw : construct vop
              (kw2.map (fun q => CallArg.kw q.1 q.2)) stIn with ⟨stW, rcw⟩
          rw [hconw] at hrec
          cases rcw with
          | error e => exact absurd hrec (by simp)
          | ok ndW =>
              simp only [] at hrec
              obtain ⟨hopW, hnodesW, hcntW, hvinW, hvoutW,
                ⟨nidW, ΔW, hrefsW, hΔWmem⟩, hfaInW, hfaOutW, hgsymW,
                hwfWp⟩ := construct_ok_spec vop _ stIn stW ndW hconw
              rw [hkwid] at hΔWmem hfaOutW
              have hwfW : SymsWF stW := hwfWp hwfIn
              have hcntW' : stW.counter = st.counter + 1 := by
                rw [hcntW, hcntIn]
              have hgsymWadv : ∀ nm,
                  (advNames n k).contains nm = true →
                  getSym stW nm = getSym stIn nm := by
                intro nm hc
                refine hgsymW nm ?_
                intro aa haa
                intro hco
                have hthis : (advNames n k).contains
                    ((prim vop).klsName ++ "@"
                      ++ toString (stIn.counter + 1) ++ "-" ++ aa)
                    = true := by
                  rw [← hco]
                  exact hc
                rw [hcntIn] at hthis
                rw [hauto (st.counter + 1) (Nat.lt_succ_self _)
                  (by omega) (prim vop).klsName f5 aa (f6 aa haa)]
                  at hthis
                cases hthis
              have hySafe : ∀ q ∈ r.node.varin, ¬ "_y" = "_" ++ q.1 := by
                intro q hq hco
                have hmem : q.1 ∈ (prim r.node.op).ain := by
                  rw [← hain]
                  exact List.mem_map_of_mem _ hq
                exact f3 q.1 hmem hco.symm
              have hdgy : dget kw2 "_y" = some (ArgVal.sym Hout) := by
                rw [D3 "_y" hySafe, hkw1eq]
                exact dget_dset_self _ _ _
              have hrefHoutW : (Hout.sid, nidW) ∈ ΔW :=
                hΔWmem "_y" Hout f2 hdgy
              -- the varout ↔ varin correspondence of the reverse node
              have hfaOutW2 : List.Forall₂
                  (fun (e : String × Sym) (q : String × Sym) =>
                    e.1 = "_" ++ q.1
                    ∧ (dget kw2 ("_" ++ q.1) = some (ArgVal.sym e.2)
                      ∨ (dget kw2 ("_" ++ q.1) = none
                        ∧ e.2.kind = .plain
                        ∧ e.2.name = some ((prim vop).klsName ++ "@"
                            ++ toString (stIn.counter + 1) ++ "-"
                            ++ ("_" ++ q.1)))))
                  ndW.varout r.node.varin := by
                have hback : (prim vop).aout
                    = r.node.varin.map (fun q => "_" ++ q.1) := by
                  rw [f1, ← hain, List.map_map]
                  rfl
                rw [hback] at hfaOutW
                rw [List.forall₂_map_right_iff] at hfaOutW
                exact hfaOutW
              have hOutFa : List.Forall₂
                  (fun (e : String × Sym) (q : String × Sym) =>
                    (q.2.sid = vs ∧ ∃ refId,
                      dget r.node.varinInfo q.1 = some refId
                      ∧ e.2.name = some (wName n k refId)
                      ∧ (advNames n k).contains (wName n k refId) = true)
                    ∨ (¬ q.2.sid = vs ∧ (e.2.name = none
                        ∨ ∃ nm, e.2.name = some nm
                            ∧ (advNames n k).contains nm = false)))
                  ndW.varout r.node.varin := by
                refine forall2_imp_mem hfaOutW2 ?_
                intro e q he hq hR
                by_cases hqs : q.2.sid = vs
                · obtain ⟨refId, vp, hdi, hdg, hvpk, hvpn⟩ :=
                    (D4 q hq).1 hqs
                  rcases hR.2 with hsym | ⟨hnone, _, _⟩
                  · have hvpe : vp = e.2 :=
                      ArgVal.sym.inj (Option.some.inj
                        (hdg.symm.trans hsym))
                    refine Or.inl ⟨hqs, refId, hdi,
                      by rw [← hvpe]; exact hvpn, ?_⟩
                    by_cases hrk : refId = k
                    · have hcn : wName n k refId = vjpName n := by
                        unfold wName
                        rw [if_pos hrk]
                      rw [hcn]
                      exact contains_canon n k
                    · have hcn : wName n k refId = privName n refId := by
                        unfold wName
                        rw [if_neg hrk]
                      rw [hcn]
                      exact contains_priv n k refId
                        (hrange2 q hq refId hqs hdi)
                  · rw [hnone] at hdg
                    cases hdg
                · by_cases hql : isLiteral q.2 = true
                  · have hdlit := (D4 q hq).2.2 hql
                    have hkey_ne : ¬ ("_" ++ q.1) = "_y" := by
                      refine f3 q.1 ?_
                      rw [← hain]
                      exact List.mem_map_of_mem _ hq
                    have hkey_ne2 : ¬ ("_" ++ q.1) = "_" ++ "y" :=
                      hkey_ne
                    have hdg1 : dget kw1 ("_" ++ q.1)
                        = dget kw0 ("_" ++ q.1) := by
                      rw [hkw1eq, dget_dset, if_neg hkey_ne2]
                    have hkey_notimpl : ¬ ("_" ++ q.1)
                        ∈ r.implKwargs.map (fun p => p.1) := by
                      rw [himpl, hain]
                      refine f10 q.1 ?_
                      rw [← hain]
                      exact List.mem_map_of_mem _ hq
                    have hdgall : dget kw2 ("_" ++ q.1)
                        = (dget r.node.kwargs ("_" ++ q.1)).map
                            ArgVal.val := by
                      rw [hdlit, hdg1, hp7 _ hkey_notimpl,
                        dget_map_val]
                    rcases hR.2 with hsym | ⟨hnone, _, hauto_name⟩
                    · rw [hdgall] at hsym
                      cases hdk : dget r.node.kwargs ("_" ++ q.1) with
                      | none =>
                          rw [hdk] at hsym
                          cases hsym
                      | some v =>
                          rw [hdk] at hsym
                          injection hsym with hh
                          cases hh
                    · refine Or.inr ⟨hqs, Or.inr ⟨_, hauto_name, ?_⟩⟩
                      have haamem : ("_" ++ q.1) ∈ vjpAoutArgs := by
                        refine f6 _ ?_
                        rw [f1]
                        refine List.mem_map_of_mem _ ?_
                        rw [← hain]
                        exact List.mem_map_of_mem _ hq
                      rw [hcntIn]
                      exact hauto (st.counter + 1) (Nat.lt_succ_self _)
                        (by omega) (prim vop).klsName f5 _ haamem
                  · rw [Bool.not_eq_true] at hql
                    obtain ⟨vp, nm', hdg, hvpn, hcontf⟩ :=
                      (D4 q hq).2.1 hqs hql
                    rcases hR.2 with hsym | ⟨hnone, _, _⟩
                    · have hvpe : vp = e.2 :=
                        ArgVal.sym.inj (Option.some.inj
                          (hdg.symm.trans hsym))
                      exact Or.inr ⟨hqs, Or.inr ⟨nm',
                        by rw [← hvpe]; exact hvpn, hcontf⟩⟩
                    · rw [hnone] at hdg
                      cases hdg
              have hfilteq : (ndW.varout.filterMap
                  fun p => p.2.name).filter
                  (fun nm => (advNames n k).contains nm)
                  = (ordsOf vs r.node).map (wName n k) := by
                have := outFact_filter vs n k r.node.varinInfo ndW.varout
                  r.node.varin hOutFa
                exact this
              have htouchW : touchesN n k ndW
                  = !(((ordsOf vs r.node).map (wName n k)).isEmpty) := by
                unfold touchesN
                rw [any_name_eq_filter
                  (fun nm => (advNames n k).contains nm) ndW.varout]
                rw [hfilteq]
              rcases hcomb : vjpCombine orig r.node r.node.varin stW
                with ⟨stD, rd⟩
              rw [hcomb] at hrec
              cases rd with
              | error e => exact absurd hrec (by simp)
              | ok u =>
                  simp only [] at hrec
                  injection hrec with hrec
                  subst hrec
                  have hautoAdd : ∀ c, stW.counter < c →
                      c ≤ stW.counter + r.node.varin.length →
                      (advNames n k).contains
                        ("add" ++ "@" ++ toString c ++ "-" ++ "y")
                        = false := by
                    intro c hc1 hc2
                    have hlenv : r.node.varin.length
                        = (prim r.node.op).ain.length := by
                      have := congrArg List.length hain
                      rw [List.length_map] at this
                      exact this
                    rw [hcntW'] at hc1 hc2
                    rw [hlenv] at hc2
                    exact hauto c (by omega) (by omega) "add"
                      (by decide) "y" (by decide)
                  obtain ⟨Ac, hC1, hC2, hC3, ⟨Δc, hC4⟩, hC5, hC6, hC7,
                    hC8, hCP, hC9⟩ :=
                    vjpCombine_spec orig r.node vs n k hk hN
                      r.node.varin stW stD hcomb hwfW hvsym
                      (fun q hq hns hnl nw hnw =>
                        (hhyg q hq hns nw hnw).1)
                      hrange2 hautoAdd
                  have hG_GL : (r.node.varin.filterMap (fun q =>
                      if q.2.sid = vs then dget r.node.varinInfo q.1
                      else none)) = ordsOf vs r.node := rfl
                  have hrefsAll : ∃ Δf, stD.refs = st.refs ++ Δf := by
                    refine ⟨ΔW ++ Δc, ?_⟩
                    rw [hC4, hrefsW, hrefsIn, List.append_assoc]
                  have hlenv2 : r.node.varin.length ≤ 2 := by
                    have := congrArg List.length hain
                    rw [List.length_map] at this
                    omega
                  refine ⟨ndW :: Ac, ?_, ?_, ?_, hrefsAll, ?_, ?_, hC7,
                    ?_, ?_, ?_⟩
                  · rw [hC1, hnodesW, hnodesIn]
                    simp
                  · rw [hC2, hvinW, hvinIn]
                  · rw [hC3, hvoutW, hvoutIn]
                  · rw [hcntW'] at hC5
                    omega
                  · rw [hcntW'] at hC6
                    omega
                  · -- no occurrence: nothing touches the adjoint names
                    intro hG
                    have htW : touchesN n k ndW = false := by
                      rw [htouchW, hG]
                      rfl
                    have hGL0 : ((r.node.varin.filterMap (fun q =>
                        if q.2.sid = vs then dget r.node.varinInfo q.1
                        else none)).filter (fun j => j ≠ k)) = [] := by
                      rw [hG_GL, hG]
                      rfl
                    obtain ⟨hAnil, hgpres⟩ := hC8 hGL0
                    refine ⟨?_, ?_⟩
                    · rw [List.filter_cons,
                        if_neg (by rw [htW]; exact Bool.false_ne_true)]
                      exact hAnil
                    · rw [hgpres, hgsymWadv (vjpName n)
                        (contains_canon n k)]
                      rw [D5 (vjpName n) (contains_canon n k) ?_,
                        hgPr]
                      intro q hq refId hqs hqi
                      have : refId ∈ ordsOf vs r.node := by
                        unfold ordsOf
                        exact List.mem_filterMap.mpr ⟨q, hq, by
                          show (if q.2.sid = vs
                            then dget r.node.varinInfo q.1 else none)
                              = some refId
                          rw [if_pos hqs]
                          exact hqi⟩
                      rw [hG] at this
                      exact absurd this (List.not_mem_nil _)
                  · -- an occurrence block
                    intro hG hcanOr
                    have htWt : touchesN n k ndW = true := by
                      rw [htouchW]
                      cases hGc : ordsOf vs r.node with
                      | nil => exact absurd hGc hG
                      | cons g gt => rfl
                    have hfiltconsW : (ndW :: Ac).filter (touchesN n k)
                        = ndW :: Ac.filter (touchesN n k) := by
                      rw [List.filter_cons, if_pos htWt]
                    -- the canonical name after the input loop
                    have hcanonMid : ∃ Hm,
                        getSym stIn (vjpName n) = some Hm
                        ∧ (¬ k ∈ ordsOf vs r.node →
                            getSym st (vjpName n) = some Hm) := by
                      by_cases hkG : k ∈ ordsOf vs r.node
                      · have hkG' := hkG
                        unfold ordsOf at hkG'
                        obtain ⟨q, hq, hfq⟩ := List.mem_filterMap.mp hkG'
                        have hfq' : (if q.2.sid = vs
                            then dget r.node.varinInfo q.1 else none)
                              = some k := hfq
                        by_cases hqs : q.2.sid = vs
                        · rw [if_pos hqs] at hfq'
                          obtain ⟨vp, hvp1, hvp2, hvp3, hvp4⟩ :=
                            D7 q hq k hqs hfq'
                          have hwk : wName n k k = vjpName n := by
                            unfold wName
                            rw [if_pos rfl]
                          rw [hwk] at hvp2
                          exact ⟨vp, hvp2, fun hc => absurd hkG hc⟩
                        · rw [if_neg hqs] at hfq'
                          cases hfq'
                      · rcases hcanOr with hkG' | ⟨H0, hH0⟩
                        · exact absurd hkG' hkG
                        · refine ⟨H0, ?_, fun _ => hH0⟩
                          rw [D5 (vjpName n) (contains_canon n k) ?_,
                            hgPr]
                          · exact hH0
                          · intro q hq refId hqs hqi
                            have hrmem : refId ∈ ordsOf vs r.node := by
                              unfold ordsOf
                              exact List.mem_filterMap.mpr ⟨q, hq, by
                                show (if q.2.sid = vs
                                  then dget r.node.varinInfo q.1
                                  else none) = some refId
                                rw [if_pos hqs]
                                exact hqi⟩
                            have hrne : ¬ refId = k := by
                              intro hco
                              exact hkG (hco ▸ hrmem)
                            have hcn : wName n k refId
                                = privName n refId := by
                              unfold wName
                              rw [if_neg hrne]
                            rw [hcn]
                            exact canon_ne_priv n k refId
                              (hrange2 q hq refId hqs hqi) hN
                    obtain ⟨Hm, hgMidIn, hMidOld⟩ := hcanonMid
                    have hgMidW : getSym stW (vjpName n) = some Hm := by
                      rw [hgsymWadv (vjpName n) (contains_canon n k)]
                      exact hgMidIn
                    obtain ⟨H', hH'1, hH'2, hH'3, hH'4, hH'5, hH'6⟩ :=
                      hC9 Hm hgMidW
                    refine ⟨H', hH'1, hH'2, hH'3, ?_, ?_, ?_⟩
                    · -- the schedule block
                      rw [hfiltconsW]
                      have hblock : blockStream k (ordsOf vs r.node)
                          = VTag.w (ordsOf vs r.node)
                            :: (((ordsOf vs r.node).filter
                              (fun j => j ≠ k)).map VTag.a) := rfl
                      rw [hblock]
                      refine List.Forall₂.cons ?_ ?_
                      · refine ⟨?_, ?_, hfilteq⟩
                        · rw [hopW]
                          exact f7a
                        · rw [hopW]
                          exact f7b
                      · exact hH'4
                    · -- the previous head gets referenced
                      intro H0 hH0 hkG
                      have hMH : Hm = H0 := by
                        have := (hMidOld hkG).symm.trans hH0
                        exact Option.some.inj this
                      have hGLfull : ((r.node.varin.filterMap (fun q =>
                          if q.2.sid = vs then dget r.node.varinInfo q.1
                          else none)).filter (fun j => j ≠ k))
                          = ordsOf vs r.node := by
                        rw [hG_GL]
                        refine List.filter_eq_self.mpr ?_
                        intro j hj
                        refine decide_eq_true ?_
                        intro hco
                        exact hkG (hco ▸ hj)
                      rw [← hMH]
                      refine hH'5 ?_
                      rw [hGLfull]
                      exact hG
                    · -- liveness of the new block
                      intro nd' hnd'
                      rw [hfiltconsW] at hnd'
                      rcases List.mem_cons.mp hnd' with hc | hc
                      · subst hc
                        by_cases hGL0 : ((r.node.varin.filterMap
                            (fun q => if q.2.sid = vs
                              then dget r.node.varinInfo q.1
                              else none)).filter (fun j => j ≠ k)) = []
                        · -- no adds: the reverse node outputs the head
                          obtain ⟨hAnil, hgpres⟩ := hC8 hGL0
                          have hH'Hm : H' = Hm := by
                            rw [hgpres, hgMidW] at hH'1
                            exact (Option.some.inj hH'1).symm
                          -- the head is the largest-ordinal output
                          have hkG : k ∈ ordsOf vs r.node := by
                            rw [hG_GL] at hGL0
                            cases hGc : ordsOf vs r.node with
                            | nil => exact absurd hGc hG
                            | cons g gt =>
                                rw [hGc] at hGL0
                                by_cases hgk : g = k
                                · rw [← hgk]
                                  simp
                                · rw [List.filter_cons,
                                    if_pos (decide_eq_true hgk)]
                                      at hGL0
                                  cases hGL0
                          have hkG' := hkG
                          unfold ordsOf at hkG'
                          obtain ⟨q, hq, hfq⟩ :=
                            List.mem_filterMap.mp hkG'
                          have hfq' : (if q.2.sid = vs
                              then dget r.node.varinInfo q.1 else none)
                                = some k := hfq
                          by_cases hqs : q.2.sid = vs
                          · rw [if_pos hqs] at hfq'
                            obtain ⟨vp, hvp1, hvp2, hvp3, hvp4⟩ :=
                              D7 q hq k hqs hfq'
                            have hwk : wName n k k = vjpName n := by
                              unfold wName
                              rw [if_pos rfl]
                            rw [hwk] at hvp2
                            have hvpHm : vp = Hm :=
                              Option.some.inj
                                (hvp2.symm.trans hgMidIn)
                            obtain ⟨e, he, hRe⟩ :=
                              forall2_mem_right hfaOutW2 q hq
                            rcases hRe.2 with hsym | ⟨hnone, _, _⟩
                            · have hevp : vp = e.2 :=
                                ArgVal.sym.inj (Option.some.inj
                                  (hvp1.symm.trans hsym))
                              refine Or.inr ⟨e.1, ?_⟩
                              have : (e.1, H') = e := by
                                rw [hH'Hm, ← hvpHm, hevp]
                              rw [this]
                              exact he
                            · rw [hnone] at hvp1
                              cases hvp1
                          · rw [if_neg hqs] at hfq'
                            cases hfq'
                        · -- some add consumes a private output
                          rcases hGLne : ((r.node.varin.filterMap
                              (fun q => if q.2.sid = vs
                                then dget r.node.varinInfo q.1
                                else none)).filter (fun j => j ≠ k))
                              with _ | ⟨j0, jt⟩
                          · exact absurd hGLne hGL0
                          · have hj0 : j0 ∈ ((r.node.varin.filterMap
                                (fun q => if q.2.sid = vs
                                  then dget r.node.varinInfo q.1
                                  else none)).filter
                                    (fun j => j ≠ k)) := by
                              rw [hGLne]
                              simp
                            have hj0G : j0 ∈ ordsOf vs r.node := by
                              have := List.mem_of_mem_filter hj0
                              rw [hG_GL] at this
                              exact this
                            have hj0ne : ¬ j0 = k := by
                              have := List.of_mem_filter hj0
                              exact of_decide_eq_true this
                            have hj0G' := hj0G
                            unfold ordsOf at hj0G'
                            obtain ⟨q, hq, hfq⟩ :=
                              List.mem_filterMap.mp hj0G'
                            have hfq' : (if q.2.sid = vs
                                then dget r.node.varinInfo q.1
                                else none) = some j0 := hfq
                            by_cases hqs : q.2.sid = vs
                            · rw [if_pos hqs] at hfq'
                              obtain ⟨vp, hvp1, hvp2, hvp3, hvp4⟩ :=
                                D7 q hq j0 hqs hfq'
                              have hwj : wName n k j0
                                  = privName n j0 := by
                                unfold wName
                                rw [if_neg hj0ne]
                              rw [hwj] at hvp2
                              have hj0r : j0 ∈ List.range' 1 k :=
                                hrange2 q hq j0 hqs hfq'
                              have hvpW : getSym stW (privName n j0)
                                  = some vp := by
                                rw [hgsymWadv (privName n j0)
                                  (contains_priv n k j0 hj0r)]
                                exact hvp2
                              have hrefvp := hCP j0 hj0 vp hvpW
                              obtain ⟨e, he, hRe⟩ :=
                                forall2_mem_right hfaOutW2 q hq
                              rcases hRe.2 with hsym | ⟨hnone, _, _⟩
                              · have hevp : vp = e.2 :=
                                  ArgVal.sym.inj (Option.some.inj
                                    (hvp1.symm.trans hsym))
                                refine Or.inl ?_
                                refine List.any_eq_true.mpr
                                  ⟨e, he, ?_⟩
                                rw [← hevp]
                                exact hrefvp
                              · rw [hnone] at hvp1
                                cases hvp1
                            · rw [if_neg hqs] at hfq'
                              cases hfq'
                      · exact hH'6 nd' hc
                  · -- a producing record references the head
                    intro H0 hH0 hanyv
                    rw [hvoutshape] at hanyv
                    rw [List.any_cons] at hanyv
                    have hov : outvar.sid = vs := by
                      by_cases hos : outvar.sid = vs
                      · exact hos
                      · rw [decide_eq_false hos] at hanyv
                        simp at hanyv
                    have hovn := hvoutS0 ("y", outvar)
                      (by rw [hvoutshape]; simp) hov
                    have hnwn : nwOut = n :=
                      Option.some.inj (houtname.symm.trans hovn.2)
                    have hHoutH0 : Hout = H0 := by
                      rw [hgPr] at hgetHout
                      rw [hnwn] at hgetHout
                      exact Option.some.inj (hgetHout.symm.trans hH0)
                    have hrefW : hasReference stW Hout.sid = true := by
                      refine hasReference_of_mem stW Hout.sid nidW ?_
                      rw [hrefsW]
                      exact List.mem_append_right _ hrefHoutW
                    rw [← hHoutH0]
                    exact hasReference_mono stW stD Δc hC4 Hout.sid
                      hrefW

/-- A used result stays used as references accumulate. -/
theorem resultUsed_mono (st st' : ModelState) (Δ : List (Nat × Nat))
    (hrefs : st'.refs = st.refs ++ Δ) (nd : Node)
    (h : resultUsed st nd = true) : resultUsed st' nd = true := by
  unfold resultUsed at h ⊢
  rw [Bool.or_eq_true] at h ⊢
  rcases h with h | h
  · exact Or.inl h
  · refine Or.inr ?_
    obtain ⟨q, hq, hqr⟩ := List.any_eq_true.mp h
    exact List.any_eq_true.mpr
      ⟨q, hq, hasReference_mono st st' Δ hrefs q.2.sid hqr⟩

/-- `AllUsed` survives reference growth and an unchanged touching set. -/
theorem allUsed_transfer (n : String) (k : Nat) (st st' : ModelState)
    (Δ : List (Nat × Nat)) (hrefs : st'.refs = st.refs ++ Δ)
    (hfilter : st'.nodes.filter (touchesN n k)
      = st.nodes.filter (touchesN n k))
    (h : AllUsed n k st) : AllUsed n k st' := by
  intro nd hnd
  rw [hfilter] at hnd
  exact resultUsed_mono st st' Δ hrefs nd (h nd hnd)

/-- Once the pending head is referenced, every touching node's result
is used. -/
theorem allUsed_of_pendD (n : String) (k : Nat) (st : ModelState)
    (H : Sym) (hH : hasReference st H.sid = true)
    (hp : PendD n k st H) : AllUsed n k st := by
  intro nd hnd
  unfold resultUsed
  rw [Bool.or_eq_true]
  rcases hp nd hnd with href | ⟨a, hmem⟩
  · exact Or.inr href
  · exact Or.inr (List.any_eq_true.mpr ⟨(a, H), hmem, hH⟩)

/-- The input-marking phase only defines symbols and extends `_vin`. -/
theorem vjpInputs_state2 :
    ∀ (l : List Sym) (st st' : ModelState), vjpInputs l st = .ok st' →
      st'.nodes = st.nodes ∧ st'.refs = st.refs
      ∧ st'.counter = st.counter ∧ (SymsWF st → SymsWF st') := by
  intro l
  induction l with
  | nil =>
      intro st st' h
      unfold vjpInputs at h
      injection h with h
      subst h
      exact ⟨rfl, rfl, rfl, fun hw => hw⟩
  | cons v t ih =>
      intro st st' h
      unfold vjpInputs at h
      cases hn : v.name with
      | none => rw [hn] at h; exact absurd h (by simp)
      | some nm =>
          rw [hn] at h
          simp only [] at h
          obtain ⟨h1, h2, h3, h4⟩ := ih _ _ h
          refine ⟨h1, h2, h3, ?_⟩
          intro hw
          refine h4 ?_
          intro x s hget
          exact symsWF_defineSym st (vjpName nm) hw x s hget

/-- The reverse walk splits over record-list concatenation. -/
theorem vjpWalk_append (orig : ModelState) :
    ∀ (A B : List TapeRec) (st st' : ModelState),
      vjpWalk orig (A ++ B) st = .ok st' →
      ∃ stm, vjpWalk orig A st = .ok stm
        ∧ vjpWalk orig B stm = .ok st' := by
  intro A
  induction A with
  | nil =>
      intro B st st' h
      exact ⟨st, rfl, h⟩
  | cons r t ih =>
      intro B st st' h
      rw [List.cons_append] at h
      unfold vjpWalk at h
      cases hr : vjpRecord orig st r with
      | error e => rw [hr] at h; exact absurd h (by simp [except_bind_err])
      | ok st1 =>
          rw [hr, except_bind_ok] at h
          obtain ⟨stm, hm1, hm2⟩ := ih B st1 st' h
          refine ⟨stm, ?_, hm2⟩
          unfold vjpWalk
          rw [hr, except_bind_ok]
          exact hm1

/-- A record with no occurrence contributes no group. -/
theorem walkGroups_cons_nil (vs : Nat) (r : TapeRec) (RL : List TapeRec)
    (hG : ordsOf vs r.node = []) :
    walkGroups vs (r :: RL) = walkGroups vs RL := by
  have hstep : walkGroups vs (r :: RL)
      = (ordsOf vs r.node
          :: List.map (fun r => ordsOf vs r.node) RL).filter
            (fun l => !l.isEmpty) := rfl
  rw [hstep, hG]
  rfl

/-- A record with occurrences contributes its ordinal group. -/
theorem walkGroups_cons_some (vs : Nat) (r : TapeRec)
    (RL : List TapeRec) (hG : ordsOf vs r.node ≠ []) :
    walkGroups vs (r :: RL)
      = ordsOf vs r.node :: walkGroups vs RL := by
  have hstep : walkGroups vs (r :: RL)
      = (ordsOf vs r.node
          :: List.map (fun r => ordsOf vs r.node) RL).filter
            (fun l => !l.isEmpty) := rfl
  rw [hstep]
  cases hGc : ordsOf vs r.node with
  | nil => exact absurd hGc hG
  | cons g gt =>
      rw [List.filter_cons,
        if_pos (show (!(g :: gt).isEmpty) = true from rfl)]
      rfl

/-- The walk invariant of the reverse-walk emission phase: processing
well-formed records under the canonical-name discipline extends the
adjoint-touching node list by exactly the schedule blocks of the
processed occurrence groups, keeps the symbol table well-formed, only
accumulates references, and maintains the accumulation head with the
pending-liveness bookkeeping. -/
theorem vjpWalk_spec (orig : ModelState) (vs : Nat) (n : String)
    (k : Nat) (hk : refcount orig vs = k) (hN : (advNames n k).Nodup)
    (CB : Nat)
    (hrange : ∀ c, c < CB → ∀ b ∈ vjpKlsNames, ∀ aa ∈ vjpAoutArgs,
        (advNames n k).contains
          (b ++ "@" ++ toString (c + 1) ++ "-" ++ aa) = false) :
    ∀ (RL : List TapeRec) (st st' : ModelState) (gs : List (List Nat)),
      vjpWalk orig RL st = .ok st' →
      (∀ r ∈ RL, RecOK vs n k r) →
      st.counter + 3 * RL.length ≤ CB →
      kseq vs k RL (!gs.isEmpty) = true →
      SymsWF st →
      List.Forall₂ (vTagShape n k) (st.nodes.filter (touchesN n k))
        (gs.flatMap (blockStream k)) →
      (gs ≠ [] → ∃ H, getSym st (vjpName n) = some H
        ∧ H.kind = .plain ∧ H.name = some (vjpName n)
        ∧ PendD n k st H) →
      SymsWF st'
      ∧ st'.vin = st.vin ∧ st'.vout = st.vout
      ∧ (∃ Δ, st'.refs = st.refs ++ Δ)
      ∧ st'.counter ≤ st.counter + 3 * RL.length
      ∧ List.Forall₂ (vTagShape n k) (st'.nodes.filter (touchesN n k))
          ((gs ++ walkGroups vs RL).flatMap (blockStream k))
      ∧ ((gs ++ walkGroups vs RL) ≠ [] → ∃ H,
          getSym st' (vjpName n) = some H
          ∧ H.kind = .plain ∧ H.name = some (vjpName n)
          ∧ PendD n k st' H) := by
  intro RL
  induction RL with
  | nil =>
      intro st st' gs h hok hcb hks hwf hfa hHead
      unfold vjpWalk at h
      injection h with h
      subst h
      refine ⟨hwf, rfl, rfl, ⟨[], by rw [List.append_nil]⟩, by omega,
        ?_, ?_⟩
      · have : walkGroups vs [] = [] := rfl
        rw [this, List.append_nil]
        exact hfa
      · have : walkGroups vs [] = [] := rfl
        rw [this, List.append_nil]
        exact hHead
  | cons r t ih =>
      intro st st' gs h hok hcb hks hwf hfa hHead
      unfold vjpWalk at h
      cases hr : vjpRecord orig st r with
      | error e => rw [hr] at h; exact absurd h (by simp [except_bind_err])
      | ok st1 =>
          rw [hr, except_bind_ok] at h
          have hautoR : ∀ c, st.counter < c → c ≤ st.counter + 3 →
              ∀ b ∈ vjpKlsNames, ∀ aa ∈ vjpAoutArgs,
              (advNames n k).contains
                (b ++ "@" ++ toString c ++ "-" ++ aa) = false := by
            intro c hc1 hc2 b hb aa haa
            have hlen : (r :: t).length = t.length + 1 :=
              List.length_cons r t
            have hc' : c - 1 < CB := by
              rw [hlen] at hcb
              omega
            have hceq : c - 1 + 1 = c := by omega
            have := hrange (c - 1) hc' b hb aa haa
            rw [hceq] at this
            exact this
          obtain ⟨A, hR1, hR2, hR3, ⟨ΔR, hR4⟩, hR5, hR6, hR7, hR8, hR9,
            hR10⟩ := vjpRecord_spec orig vs n k hk hN r st st1 hr
            (hok r (by simp)) hwf hautoR
          have hfilter1 : st1.nodes.filter (touchesN n k)
              = st.nodes.filter (touchesN n k)
                ++ A.filter (touchesN n k) := by
            rw [hR1, List.filter_append]
          have hcb1 : st1.counter + 3 * t.length ≤ CB := by
            rw [List.length_cons] at hcb
            omega
          by_cases hG : ordsOf vs r.node = []
          · -- silent record
            obtain ⟨hAnil, hgpres⟩ := hR8 hG
            have hfilter1' : st1.nodes.filter (touchesN n k)
                = st.nodes.filter (touchesN n k) := by
              rw [hfilter1, hAnil, List.append_nil]
            have hks1 : kseq vs k t (!gs.isEmpty) = true := by
              unfold kseq at hks
              rw [if_pos (by rw [hG]; rfl)] at hks
              exact hks
            have hHead1 : gs ≠ [] → ∃ H,
                getSym st1 (vjpName n) = some H
                ∧ H.kind = .plain ∧ H.name = some (vjpName n)
                ∧ PendD n k st1 H := by
              intro hgs
              obtain ⟨H, hH1, hH2, hH3, hH4⟩ := hHead hgs
              refine ⟨H, by rw [hgpres]; exact hH1, hH2, hH3, ?_⟩
              intro nd hnd
              rw [hfilter1'] at hnd
              rcases hH4 nd hnd with href | hout
              · refine Or.inl ?_
                obtain ⟨q, hq, hqr⟩ := List.any_eq_true.mp href
                exact List.any_eq_true.mpr ⟨q, hq,
                  hasReference_mono st st1 ΔR hR4 q.2.sid hqr⟩
              · exact Or.inr hout
            obtain ⟨W1, W2, W3, ⟨ΔT, W4⟩, W5, W6, W7⟩ :=
              ih st1 st' gs h (fun r' hr' => hok r' (by simp [hr']))
                hcb1 hks1 (hR7) (by rw [hfilter1']; exact hfa) hHead1
            rw [walkGroups_cons_nil vs r t hG]
            refine ⟨W1, W2.trans hR2, W3.trans hR3,
              ⟨ΔR ++ ΔT, by rw [W4, hR4, List.append_assoc]⟩, ?_,
              W6, W7⟩
            rw [List.length_cons]
            omega
          · -- an occurrence block
            have hksStep : (if gs.isEmpty
                then k ∈ ordsOf vs r.node
                else ¬ k ∈ ordsOf vs r.node)
                ∧ kseq vs k t true = true := by
              unfold kseq at hks
              rw [if_neg (by
                cases hGc : ordsOf vs r.node with
                | nil => exact absurd hGc hG
                | cons g gt => simp)] at hks
              cases hgs : gs.isEmpty with
              | true =>
                  rw [hgs] at hks
                  simp only [Bool.not_true, Bool.false_eq_true,
                    if_false] at hks
                  rw [Bool.and_eq_true] at hks
                  refine ⟨?_, hks.2⟩
                  rw [if_pos rfl]
                  exact (contains_iff_mem_nat _ _).mp hks.1
              | false =>
                  rw [hgs] at hks
                  simp only [Bool.not_false, if_true] at hks
                  rw [Bool.and_eq_true] at hks
                  refine ⟨?_, hks.2⟩
                  rw [if_neg (by simp)]
                  intro hc
                  have := (contains_iff_mem_nat _ _).mpr hc
                  rw [this] at hks
                  exact absurd hks.1 (by simp)
            have hcanOr : k ∈ ordsOf vs r.node
                ∨ ∃ H0, getSym st (vjpName n) = some H0 := by
              cases hgs : gs.isEmpty with
              | true =>
                  rw [hgs] at hksStep
                  exact Or.inl (by
                    have := hksStep.1
                    rw [if_pos rfl] at this
                    exact this)
              | false =>
                  have hgs' : gs ≠ [] := by
                    intro hc
                    rw [hc] at hgs
                    cases hgs
                  obtain ⟨H, hH1, _, _, _⟩ := hHead hgs'
                  exact Or.inr ⟨H, hH1⟩
            obtain ⟨H', hH'1, hH'2, hH'3, hH'4, hH'5, hH'6⟩ :=
              hR9 hG hcanOr
            have hfa1 : List.Forall₂ (vTagShape n k)
                (st1.nodes.filter (touchesN n k))
                ((gs ++ [ordsOf vs r.node]).flatMap (blockStream k)) := by
              rw [hfilter1, List.flatMap_append]
              refine forall2_append hfa ?_
              have : [ordsOf vs r.node].flatMap (blockStream k)
                  = blockStream k (ordsOf vs r.node) := by
                simp [List.flatMap_cons]
              rw [this]
              exact hH'4
            have hPend1 : PendD n k st1 H' := by
              intro nd hnd
              rw [hfilter1] at hnd
              rcases List.mem_append.mp hnd with hold | hnew
              · -- an old touching node
                cases hgs : gs.isEmpty with
                | true =>
                    have hgsnil : gs = [] := by
                      cases gs with
                      | nil => rfl
                      | cons a b => cases hgs
                    rw [hgsnil] at hfa
                    have : st.nodes.filter (touchesN n k) = [] := by
                      cases hfc : st.nodes.filter (touchesN n k) with
                      | nil => rfl
                      | cons x xs =>
                          rw [hfc] at hfa
                          cases hfa
                    rw [this] at hold
                    exact absurd hold (List.not_mem_nil nd)
                | false =>
                    have hgs' : gs ≠ [] := by
                      intro hc
                      rw [hc] at hgs
                      cases hgs
                    obtain ⟨H, hH1, _, _, hHp⟩ := hHead hgs'
                    have hkNot : ¬ k ∈ ordsOf vs r.node := by
                      have := hksStep.1
                      rw [hgs] at this
                      rw [if_neg (by simp)] at this
                      exact this
                    have hrefH : hasReference st1 H.sid = true :=
                      hH'5 H hH1 hkNot
                    rcases hHp nd hold with href | ⟨a, hmem⟩
                    · refine Or.inl ?_
                      obtain ⟨q, hq, hqr⟩ := List.any_eq_true.mp href
                      exact List.any_eq_true.mpr ⟨q, hq,
                        hasReference_mono st st1 ΔR hR4 q.2.sid hqr⟩
                    · exact Or.inl (List.any_eq_true.mpr
                        ⟨(a, H), hmem, hrefH⟩)
              · exact hH'6 nd hnew
            have hks1 : kseq vs k t (!(gs ++ [ordsOf vs r.node]).isEmpty)
                = true := by
              have hne : (gs ++ [ordsOf vs r.node]).isEmpty = false := by
                cases gs with
                | nil => rfl
                | cons a b => rfl
              rw [hne]
              exact hksStep.2
            have hHead1 : gs ++ [ordsOf vs r.node] ≠ [] → ∃ H,
                getSym st1 (vjpName n) = some H
                ∧ H.kind = .plain ∧ H.name = some (vjpName n)
                ∧ PendD n k st1 H :=
              fun _ => ⟨H', hH'1, hH'2, hH'3, hPend1⟩
            obtain ⟨W1, W2, W3, ⟨ΔT, W4⟩, W5, W6, W7⟩ :=
              ih st1 st' (gs ++ [ordsOf vs r.node]) h
                (fun r' hr' => hok r' (by simp [hr'])) hcb1 hks1 hR7
                hfa1 hHead1
            rw [walkGroups_cons_some vs r t hG]
            have hgseq : gs ++ [ordsOf vs r.node] ++ walkGroups vs t
                = gs ++ (ordsOf vs r.node :: walkGroups vs t) := by
              rw [List.append_assoc]
              rfl
            refine ⟨W1, W2.trans hR2, W3.trans hR3,
              ⟨ΔR ++ ΔT, by rw [W4, hR4, List.append_assoc]⟩, ?_, ?_,
              ?_⟩
            · rw [List.length_cons]
              omega
            · rw [← hgseq]
              exact W6
            · intro _
              refine W7 ?_
              intro hc
              have h1 := List.append_eq_nil.mp hc
              have h2 := List.append_eq_nil.mp h1.1
              exact (List.cons_ne_nil _ _) h2.2

/-- Reverse-walking records with no occurrence of the tracked symbol
leaves the adjoint-touching node set and the canonical binding
unchanged. -/
theorem vjpWalk_preserve (orig : ModelState) (vs : Nat) (n : String)
    (k : Nat) (hk : refcount orig vs = k) (hN : (advNames n k).Nodup)
    (CB : Nat)
    (hrange : ∀ c, c < CB → ∀ b ∈ vjpKlsNames, ∀ aa ∈ vjpAoutArgs,
        (advNames n k).contains
          (b ++ "@" ++ toString (c + 1) ++ "-" ++ aa) = false) :
    ∀ (RL : List TapeRec) (st st' : ModelState),
      vjpWalk orig RL st = .ok st' →
      (∀ r ∈ RL, RecOK vs n k r) →
      (∀ r ∈ RL, ordsOf vs r.node = []) →
      st.counter + 3 * RL.length ≤ CB →
      SymsWF st →
      SymsWF st'
      ∧ st'.vin = st.vin ∧ st'.vout = st.vout
      ∧ (∃ Δ, st'.refs = st.refs ++ Δ)
      ∧ st'.counter ≤ st.counter + 3 * RL.length
      ∧ st'.nodes.filter (touchesN n k)
          = st.nodes.filter (touchesN n k)
      ∧ getSym st' (vjpName n) = getSym st (vjpName n) := by
  intro RL
  induction RL with
  | nil =>
      intro st st' h _ _ _ hwf
      unfold vjpWalk at h
      injection h with h
      subst h
      exact ⟨hwf, rfl, rfl, ⟨[], by rw [List.append_nil]⟩, by omega,
        rfl, rfl⟩
  | cons r t ih =>
      intro st st' h hok hno hcb hwf
      unfold vjpWalk at h
      cases hr : vjpRecord orig st r with
      | error e => rw [hr] at h; exact absurd h (by simp [except_bind_err])
      | ok st1 =>
          rw [hr, except_bind_ok] at h
          have hautoR : ∀ c, st.counter < c → c ≤ st.counter + 3 →
              ∀ b ∈ vjpKlsNames, ∀ aa ∈ vjpAoutArgs,
              (advNames n k).contains
                (b ++ "@" ++ toString c ++ "-" ++ aa) = false := by
            intro c hc1 hc2 b hb aa haa
            have hlen : (r :: t).length = t.length + 1 :=
              List.length_cons r t
            have hc' : c - 1 < CB := by
              rw [hlen] at hcb
              omega
            have hceq : c - 1 + 1 = c := by omega
            have := hrange (c - 1) hc' b hb aa haa
            rw [hceq] at this
            exact this
          obtain ⟨A, hR1, hR2, hR3, ⟨ΔR, hR4⟩, hR5, hR6, hR7, hR8, _,
            _⟩ := vjpRecord_spec orig vs n k hk hN r st st1 hr
            (hok r (by simp)) hwf hautoR
          obtain ⟨hAnil, hgpres⟩ := hR8 (hno r (by simp))
          have hcb1 : st1.counter + 3 * t.length ≤ CB := by
            rw [List.length_cons] at hcb
            omega
          obtain ⟨W1, W2, W3, ⟨ΔT, W4⟩, W5, W6, W7⟩ :=
            ih st1 st' h (fun r' hr' => hok r' (by simp [hr']))
              (fun r' hr' => hno r' (by simp [hr'])) hcb1 hR7
          refine ⟨W1, W2.trans hR2, W3.trans hR3,
            ⟨ΔR ++ ΔT, by rw [W4, hR4, List.append_assoc]⟩, ?_, ?_, ?_⟩
          · rw [List.length_cons]
            omega
          · rw [W6, hR1, List.filter_append, hAnil, List.append_nil]
          · rw [W7, hgpres]

/-- Witness for `construct_overwrite_precaution`: on the fan-out graph
state (where `a` has two consumers), constructing
`add(x1=1, x2=a, y=a)` fails with `OverwritePrecaution` and appends no
node. -/
theorem construct_overwrite_precaution_witness :
    ∃ st', construct .addO
        [.kw "x1" (.val (.num 1)), .kw "x2" (.sym fan0.2),
         .kw "y" (.sym fan0.2)] fan1.1
      = (st', .error .overwritePrecaution) ∧ st'.nodes = fan1.1.nodes :=
  construct_overwrite_precaution .addO
    [.kw "x1" (.val (.num 1)), .kw "x2" (.sym fan0.2),
     .kw "y" (.sym fan0.2)] fan1.1
    (by decide) (by decide) (by decide) (by decide) (by decide)

end Vmad3
